import Mathlib

/-!
# wipeos: the secure-wipe engine (`internal/shredder/shred.go`)

A shallow embedding of the shredder package.  The Go code runs against an
operating system; here the operating system is an explicit value:

* the file tree is a `Node` (regular files carry their bytes and a write
  permission, directories carry a read permission and their entries);
* `os.Stat`, `os.OpenFile` and the reading of a directory succeed or fail by
  the state of the tree (missing path, missing permission, wrong kind of
  node); every other call that the Go code checks for an error consults an
  oracle (`Env.fault`) at the current clock tick, so each error branch of the
  source can be taken;
* every call on a file handle and every mutation of the tree is appended to
  a trace, so that "which operations were performed, in which order" is a
  statement about a list.

Functions whose Go original contains a `for` loop without a syntactic bound
(the write loop of `performPass`, the directory walk) take fuel and return
`none` when it runs out; termination is then proved, not assumed.

Around the shredder stand the target resolver (`getBrowserPaths`,
`getSystemTempPaths`), which reads a `Platform` (OS name, environment, home
directory, the functions of `path/filepath`), the two entry points
`WipeBrowserData` and `WipeSystemTemp`, the options that the commands
`wipe` and `clean` build from their flags, and from
`internal/interactive/session.go` the argument loop of `handleWipe` and the
history of the session model, where a slice index out of range is `none`.
-/

namespace Wipeos

/-! ## Paths, file tree, errors -/

/-- A path, as the list of its components below the root directory. -/
abbrev PathName := List String

/-- A node of the file tree.  Bytes are natural numbers below 256. -/
inductive Node where
  | file (data : List Nat) (writable : Bool)
  | dir (readable : Bool) (entries : List (String × Node))

/-- The Go `error` values that the shredder can see.  `pathError` is
`*os.PathError` (operation, path, errno): package `os` returns the errno of a
failed call wrapped in a `PathError` whose `Op` names the call (`open`,
`stat`, `seek`, `write`, `sync`, `remove`).  `randError` is the error of
`crypto/rand.Read`, `errorf` a `fmt.Errorf` without wrapped cause,
`passFailed n e` the value of `fmt.Errorf("pass %d failed: %w", n, e)`,
`skipDir` and `skipAll` the two sentinels of `path/filepath`. -/
inductive GoError where
  | pathError (op : String) (path : PathName) (errno : Nat)
  | randError (errno : Nat)
  | errorf (msg : String)
  | passFailed (pass : Nat) (cause : GoError)
  | skipDir
  | skipAll
deriving DecidableEq

/-- The result of `os.Stat`: only the two fields the shredder reads. -/
structure FileInfo where
  isDir : Bool
  size : Nat
deriving DecidableEq

/-- The system calls whose failure is decided by the oracle. -/
inductive Op where
  | fstat | seek | rand | write | sync | remove | removeAll
deriving DecidableEq

/-- The part of the environment that the program cannot change: which
operation fails at which tick (with which errno), how many bytes a failing
write stores before it fails, and the bytes of the random source. -/
structure Env where
  fault : Op → Nat → Option Nat
  shortCount : Nat → Nat
  random : Nat → Nat → Nat

/-- What the trace records.  `pass i` marks the entry into `performPass`
with index `i`; all other events are system calls, with their outcome. -/
inductive Event where
  | opened (p : PathName)
  | fstat (p : PathName) (ok : Bool)
  | pass (i : Nat)
  | seek (p : PathName) (ok : Bool)
  | randRead (ok : Bool)
  | write (p : PathName) (off : Nat) (n : Nat) (ok : Bool)
  | sync (p : PathName) (ok : Bool)
  | closed (p : PathName)
  | remove (p : PathName) (ok : Bool)
  | removeAll (p : PathName) (ok : Bool)
deriving DecidableEq

/-- The success flag of an event (markers, open and close count as fine). -/
def Event.ok : Event → Bool
  | .opened _ => true
  | .fstat _ ok => ok
  | .pass _ => true
  | .seek _ ok => ok
  | .randRead ok => ok
  | .write _ _ _ ok => ok
  | .sync _ ok => ok
  | .closed _ => true
  | .remove _ ok => ok
  | .removeAll _ ok => ok

/-- The mutable state: entries of the root directory, clock, trace. -/
structure World where
  root : List (String × Node)
  clock : Nat
  trace : List Event

/-- The whole tree, rooted at the (readable) root directory. -/
def World.tree (w : World) : Node := .dir true w.root

/-- The entries of a directory node. -/
def Node.entries : Node → List (String × Node)
  | .dir _ es => es
  | .file _ _ => []

/-- Resolve a path below a node. -/
def Node.lookup : Node → PathName → Option Node
  | n, [] => some n
  | .dir _ es, c :: cs =>
    match es.lookup c with
    | some n => Node.lookup n cs
    | none => none
  | .file _ _, _ :: _ => none

/-- Replace the bytes of the regular file at a path. -/
def Node.setData (d : List Nat) : Node → PathName → Node
  | .file _ wr, [] => .file d wr
  | .dir r es, [] => .dir r es
  | .file d0 wr, _ :: _ => .file d0 wr
  | .dir r es, c :: cs =>
    .dir r (es.map fun e => if e.1 = c then (e.1, Node.setData d e.2 cs) else e)

/-- Remove the entry at a path together with everything below it. -/
def Node.remove : Node → PathName → Node
  | n, [] => n
  | .file d wr, _ :: _ => .file d wr
  | .dir r es, c :: [] => .dir r (es.filter fun e => e.1 ≠ c)
  | .dir r es, c :: c2 :: cs =>
    .dir r (es.map fun e => if e.1 = c then (e.1, Node.remove e.2 (c2 :: cs)) else e)

/-- The bytes of a file after `b` is written at offset `pos` (a gap
between the end of the file and `pos` reads as zeros). -/
def writeAt (data : List Nat) (pos : Nat) (b : List Nat) : List Nat :=
  data.take pos ++ List.replicate (pos - data.length) 0 ++ b ++ data.drop (pos + b.length)

/-- One tick of the clock plus one event. -/
def World.step (w : World) (e : Event) : World :=
  { w with clock := w.clock + 1, trace := w.trace ++ [e] }

/-- An event that does not consult the oracle. -/
def World.log (w : World) (e : Event) : World :=
  { w with trace := w.trace ++ [e] }

/-! ## The operating system -/

/-- Go `os.Stat` (and `os.Lstat`: the tree has no symbolic links). -/
def osStat (w : World) (p : PathName) : Except GoError FileInfo :=
  match w.tree.lookup p with
  | some (.file d _) => .ok ⟨false, d.length⟩
  | some (.dir _ _) => .ok ⟨true, 0⟩
  | none => .error (.pathError "stat" p 2)

/-- An open file: its name and the offset of the next write. -/
structure File where
  name : PathName
  pos : Nat
deriving DecidableEq

/-- Go `os.OpenFile(path, os.O_WRONLY, 0)`. -/
def osOpenFile (w : World) (p : PathName) : Except GoError File × World :=
  match w.tree.lookup p with
  | some (.file _ true) => (.ok ⟨p, 0⟩, w.log (.opened p))
  | some (.file _ false) => (.error (.pathError "open" p 13), w)
  | some (.dir _ _) => (.error (.pathError "open" p 21), w)
  | none => (.error (.pathError "open" p 2), w)

/-- Go `file.Stat()`. -/
def File.stat (env : Env) (f : File) (w : World) : Except GoError FileInfo × World :=
  match env.fault .fstat w.clock with
  | some e => (.error (.pathError "stat" f.name e), w.step (.fstat f.name false))
  | none =>
    match w.tree.lookup f.name with
    | some (.file d _) => (.ok ⟨false, d.length⟩, w.step (.fstat f.name true))
    | _ => (.ok ⟨false, 0⟩, w.step (.fstat f.name true))

/-- Go `file.Seek(offset, 0)`. -/
def File.seek (env : Env) (f : File) (offset : Nat) (w : World) :
    Option GoError × File × World :=
  match env.fault .seek w.clock with
  | some e => (some (.pathError "seek" f.name e), f, w.step (.seek f.name false))
  | none => (none, { f with pos := offset }, w.step (.seek f.name true))

/-- The tree after `b` is stored at the offset of the handle. -/
def storeBytes (w : World) (f : File) (b : List Nat) : List (String × Node) :=
  match w.tree.lookup f.name with
  | some (.file d _) => (w.tree.setData (writeAt d f.pos b) f.name).entries
  | _ => w.root

/-- Go `file.Write(b)`: all of `b` is stored, or the call fails after
storing a prefix of `b`. -/
def File.write (env : Env) (f : File) (b : List Nat) (w : World) :
    (Nat × Option GoError) × File × World :=
  match env.fault .write w.clock with
  | some e =>
    let k := min (env.shortCount w.clock) b.length
    ((k, some (.pathError "write" f.name e)), { f with pos := f.pos + k },
      { root := storeBytes w f (b.take k), clock := w.clock + 1,
        trace := w.trace ++ [.write f.name f.pos k false] })
  | none =>
    ((b.length, none), { f with pos := f.pos + b.length },
      { root := storeBytes w f b, clock := w.clock + 1,
        trace := w.trace ++ [.write f.name f.pos b.length true] })

/-- Go `file.Sync()`. -/
def File.sync (env : Env) (f : File) (w : World) : Option GoError × World :=
  match env.fault .sync w.clock with
  | some e => (some (.pathError "sync" f.name e), w.step (.sync f.name false))
  | none => (none, w.step (.sync f.name true))

/-- Go `file.Close()`, as deferred by `overwriteFile` (its error is dropped). -/
def File.close (f : File) (w : World) : World := w.log (.closed f.name)

/-- A Go byte slice: its length and the byte at each index below it. -/
structure Slice where
  len : Nat
  byte : Nat → Nat

/-- The bytes `g j, g (j+1), ...`, `n` of them. -/
def bytesFrom (g : Nat → Nat) : Nat → Nat → List Nat
  | 0, _ => []
  | n + 1, j => g j :: bytesFrom g n (j + 1)

/-- The bytes of the Go slice expression `s[:k]`. -/
def Slice.upto (s : Slice) (k : Nat) : List Nat := bytesFrom s.byte k 0

/-- Go `rand.Read(b)` for a buffer of `n` bytes. -/
def randRead (env : Env) (n : Nat) (w : World) : Except GoError Slice × World :=
  match env.fault .rand w.clock with
  | some e => (.error (.randError e), w.step (.randRead false))
  | none => (.ok ⟨n, fun j => env.random w.clock j % 256⟩, w.step (.randRead true))

/-- Go `os.Remove(path)`: unlinks a file or removes an empty directory. -/
def osRemove (env : Env) (p : PathName) (w : World) : Option GoError × World :=
  match env.fault .remove w.clock with
  | some e => (some (.pathError "remove" p e), w.step (.remove p false))
  | none =>
    match p, w.tree.lookup p with
    | [], _ => (some (.pathError "remove" p 16), w.step (.remove p false))
    | _ :: _, none => (some (.pathError "remove" p 2), w.step (.remove p false))
    | _ :: _, some (.dir _ (_ :: _)) => (some (.pathError "remove" p 39), w.step (.remove p false))
    | _ :: _, some _ =>
      (none, { root := (w.tree.remove p).entries, clock := w.clock + 1,
               trace := w.trace ++ [.remove p true] })

/-- Go `os.RemoveAll(path)`: removes the path and everything below it; a
path that does not exist is not an error. -/
def osRemoveAll (env : Env) (p : PathName) (w : World) : Option GoError × World :=
  match env.fault .removeAll w.clock with
  | some e => (some (.pathError "unlinkat" p e), w.step (.removeAll p false))
  | none =>
    match p with
    | [] => (some (.pathError "RemoveAll" p 22), w.step (.removeAll p false))
    | _ :: _ =>
      (none, { root := (w.tree.remove p).entries, clock := w.clock + 1,
               trace := w.trace ++ [.removeAll p true] })

/-! ## The shredder -/

/-- Go `WipeOptions`. -/
structure WipeOptions where
  Recursive : Bool
  Passes : Int
  Force : Bool
  DryRun : Bool
deriving DecidableEq

/-- Go `WipeResult`; a nil `Error` is `none`. -/
structure WipeResult where
  Path : PathName
  Success : Bool
  Error : Option GoError
  Size : Nat
deriving DecidableEq

/-- The `switch passNum % 4` of `performPass`: the buffer for a pass
(`make([]byte, 4096)`, then filled). -/
def selectPattern (env : Env) (passNum : Nat) (w : World) : Except GoError Slice × World :=
  match passNum % 4 with
  | 0 => randRead env 4096 w
  | 1 => (.ok ⟨4096, fun _ => 0⟩, w)
  | 2 => (.ok ⟨4096, fun _ => 0xFF⟩, w)
  | 3 => (.ok ⟨4096, fun _ => 0xAA⟩, w)
  | _ => (.ok ⟨0, fun _ => 0⟩, w)

/-- The loop `for written < size` of `performPass`.  `none`: out of fuel. -/
def writeLoop (env : Env) (pattern : Slice) (size : Nat) :
    Nat → Nat → File → World → Option (Option GoError × File × World)
  | 0, _, _, _ => none
  | fuel + 1, written, f, w =>
    if written < size then
      let remaining := size - written
      let writeSize := if remaining < pattern.len then remaining else pattern.len
      match File.write env f (pattern.upto writeSize) w with
      | ((_, some err), f1, w1) => some (some err, f1, w1)
      | ((n, none), f1, w1) => writeLoop env pattern size fuel (written + n) f1 w1
    else some (none, f, w)

/-- Go `performPass`.  The pass index is a natural number: the only callers
pass the loop counter of `overwriteFile`, which starts at 0, and 0. -/
def performPass (env : Env) (f : File) (size : Nat) (passNum : Nat) (w : World) :
    Option (Option GoError × File × World) :=
  match File.seek env f 0 (w.log (.pass passNum)) with
  | (some err, f1, w1) => some (some err, f1, w1)
  | (none, f1, w1) =>
    match selectPattern env passNum w1 with
    | (.error err, w2) => some (some err, f1, w2)
    | (.ok pattern, w2) => writeLoop env pattern size (size + 1) 0 f1 w2

/-- The loop `for pass := 0; pass < passes; pass++` of `overwriteFile`,
by recursion on the number of iterations that remain. -/
def passLoop (env : Env) (size : Nat) :
    Nat → Nat → File → World → Option (Option GoError × File × World)
  | 0, _, f, w => some (none, f, w)
  | n + 1, pass, f, w =>
    match performPass env f size pass w with
    | none => none
    | some (some err, f1, w1) => some (some (.passFailed (pass + 1) err), f1, w1)
    | some (none, f1, w1) =>
      match File.sync env f1 w1 with
      | (some err, w2) => some (some err, f1, w2)
      | (none, w2) => passLoop env size n (pass + 1) f1 w2

/-- Go `overwriteFile`. -/
def overwriteFile (env : Env) (path : PathName) (passes : Int) (w : World) :
    Option (Option GoError × World) :=
  match osOpenFile w path with
  | (.error err, w1) => some (some err, w1)
  | (.ok file, w1) =>
    match File.stat env file w1 with
    | (.error err, w2) => some (some err, File.close file w2)
    | (.ok info, w2) =>
      match passLoop env info.size passes.toNat 0 file w2 with
      | none => none
      | some (r, f1, w3) => some (r, File.close f1 w3)

/-- Go `wipeFile` (the two log lines write to the logger only). -/
def wipeFile (env : Env) (path : PathName) (options : WipeOptions) (w : World) :
    Option (WipeResult × World) :=
  match osStat w path with
  | .error err => some ({ Path := path, Success := false, Error := some err, Size := 0 }, w)
  | .ok info =>
    if info.isDir then
      some ({ Path := path, Success := false,
              Error := some (.errorf "is a directory, use --recursive flag"), Size := 0 }, w)
    else if options.DryRun then
      some ({ Path := path, Success := true, Error := none, Size := info.size }, w)
    else
      match overwriteFile env path options.Passes w with
      | none => none
      | some (some err, w1) =>
        some ({ Path := path, Success := false, Error := some err, Size := 0 }, w1)
      | some (none, w1) =>
        match osRemove env path w1 with
        | (some err, w2) =>
          some ({ Path := path, Success := false, Error := some err, Size := 0 }, w2)
        | (none, w2) =>
          some ({ Path := path, Success := true, Error := none, Size := info.size }, w2)

/-! ## The directory walk (`path/filepath.Walk`) -/

/-- Byte-wise lexical order on two strings, as `sort.Strings` uses. -/
def lexLE : List Nat → List Nat → Bool
  | [], _ => true
  | _ :: _, [] => false
  | a :: as, b :: bs => if a < b then true else if b < a then false else lexLE as bs

/-- Order on names. -/
def nameLE (a b : String) : Bool := lexLE (a.data.map Char.toNat) (b.data.map Char.toNat)

/-- Insert a name into a sorted list. -/
def insertName (x : String) : List String → List String
  | [] => [x]
  | y :: ys => if nameLE x y then x :: y :: ys else y :: insertName x ys

/-- Sort names lexically. -/
def sortNames : List String → List String
  | [] => []
  | x :: xs => insertName x (sortNames xs)

/-- The names in a directory, sorted (`readDirNames` of `path/filepath`). -/
def readDirNames (w : World) (p : PathName) : Except GoError (List String) :=
  match w.tree.lookup p with
  | some (.dir true es) => .ok (sortNames (es.map Prod.fst))
  | some (.dir false _) => .error (.pathError "open" p 13)
  | some (.file _ _) => .error (.pathError "readdirent" p 20)
  | none => .error (.pathError "open" p 2)

/-- The state a walk threads through its callback, and what a call returns:
the callback's error, the results so far, the world. -/
abbrev WalkOut := Option (Option GoError × List WipeResult × World)

/-- The type of the callback (`filepath.WalkFunc`, closed over `results`). -/
abbrev WalkFunc := PathName → FileInfo → Option GoError → List WipeResult → World → WalkOut

/-- The loop over the names of one directory in `filepath.walk`; `rec` is
the walk of a child. -/
def walkNames (fn : WalkFunc) (rec : PathName → FileInfo → List WipeResult → World → WalkOut)
    (path : PathName) : List String → List WipeResult → World → WalkOut
  | [], rs, w => some (none, rs, w)
  | name :: rest, rs, w =>
    let filename := path ++ [name]
    match osStat w filename with
    | .error e =>
      match fn filename ⟨false, 0⟩ (some e) rs w with
      | none => none
      | some (none, rs1, w1) => walkNames fn rec path rest rs1 w1
      | some (some err, rs1, w1) =>
        if err = .skipDir then walkNames fn rec path rest rs1 w1 else some (some err, rs1, w1)
    | .ok fileInfo =>
      match rec filename fileInfo rs w with
      | none => none
      | some (none, rs1, w1) => walkNames fn rec path rest rs1 w1
      | some (some err, rs1, w1) =>
        if fileInfo.isDir && err = .skipDir then walkNames fn rec path rest rs1 w1
        else some (some err, rs1, w1)

/-- Go `filepath.walk`: the names of a directory are read first, then the
callback is called once for the directory, with the error of the read if
there is one.  The fuel bounds the depth of the recursion. -/
def walk (fn : WalkFunc) : Nat → PathName → FileInfo → List WipeResult → World → WalkOut
  | 0, _, _, _, _ => none
  | fuel + 1, path, info, rs, w =>
    if !info.isDir then fn path info none rs w
    else
      match readDirNames w path with
      | .error e => fn path info (some e) rs w
      | .ok names =>
        match fn path info none rs w with
        | none => none
        | some (some err1, rs1, w1) => some (some err1, rs1, w1)
        | some (none, rs1, w1) => walkNames fn (walk fn fuel) path names rs1 w1

/-- Go `filepath.Walk`. -/
def Walk (fn : WalkFunc) (fuel : Nat) (root : PathName) (rs : List WipeResult) (w : World) :
    WalkOut :=
  let out :=
    match osStat w root with
    | .error e => fn root ⟨false, 0⟩ (some e) rs w
    | .ok info => walk fn fuel root info rs w
  match out with
  | none => none
  | some (some err, rs1, w1) =>
    if err = .skipDir ∨ err = .skipAll then some (none, rs1, w1) else some (some err, rs1, w1)
  | some (none, rs1, w1) => some (none, rs1, w1)

mutual
/-- The height of a node: 0 for a file, 1 + the greatest height below for
a directory. -/
def Node.height : Node → Nat
  | .file _ _ => 0
  | .dir _ es => heightList es + 1
/-- The greatest height among the entries of a directory. -/
def heightList : List (String × Node) → Nat
  | [] => 0
  | e :: es => max (Node.height e.2) (heightList es)
end

/-- The callback that `wipeDirectory` hands to `filepath.Walk`. -/
def walkFn (env : Env) (options : WipeOptions) : WalkFunc :=
  fun path info err results w =>
    match err with
    | some e =>
      some (none, results ++ [{ Path := path, Success := false, Error := some e, Size := 0 }], w)
    | none =>
      if !info.isDir then
        match wipeFile env path options w with
        | none => none
        | some (result, w1) => some (none, results ++ [result], w1)
      else some (none, results, w)

/-- Go `wipeDirectory`.  The walk gets as much fuel as the tree is high. -/
def wipeDirectory (env : Env) (dirPath : PathName) (options : WipeOptions) (w : World) :
    Option (List WipeResult × World) :=
  match Walk (walkFn env options) (w.tree.height + 1) dirPath [] w with
  | none => none
  | some (err, rs, w1) =>
    let results :=
      match err with
      | some e => rs ++ [{ Path := dirPath, Success := false, Error := some e, Size := 0 }]
      | none => rs
    if !options.DryRun then some (results, (osRemoveAll env dirPath w1).2)
    else some (results, w1)

/-- The loop over `paths` in `WipeFiles`. -/
def wipeFilesLoop (env : Env) (options : WipeOptions) :
    List PathName → List WipeResult → World → Option (List WipeResult × World)
  | [], results, w => some (results, w)
  | path :: rest, results, w =>
    if options.Recursive && (match osStat w path with
        | .ok info => info.isDir
        | .error _ => false) then
      match wipeDirectory env path options w with
      | none => none
      | some (dirResults, w1) => wipeFilesLoop env options rest (results ++ dirResults) w1
    else
      match wipeFile env path options w with
      | none => none
      | some (result, w1) => wipeFilesLoop env options rest (results ++ [result]) w1

/-- Go `WipeFiles`. -/
def WipeFiles (env : Env) (paths : List PathName) (options : WipeOptions) (w : World) :
    Option (List WipeResult × World) :=
  wipeFilesLoop env options paths [] w

/-! ## Vocabulary of the statements -/

/-- The events that belong to an overwrite pass. -/
def Event.inPass : Event → Bool
  | .pass _ => true
  | .seek _ _ => true
  | .randRead _ => true
  | .write _ _ _ _ => true
  | .sync _ _ => true
  | _ => false

/-- The index of a pass marker. -/
def Event.passIndex : Event → Option Nat
  | .pass i => some i
  | _ => none

/-- How the events of a run relate to its error: without error every
event succeeded; with an error the last event failed and all before it
succeeded (nothing runs after the first failure). -/
def Outcome (r : Option GoError) (evs : List Event) : Prop :=
  match r with
  | none => ∀ e ∈ evs, e.ok = true
  | some _ => ∃ pre e, evs = pre ++ [e] ∧ e.ok = false ∧ ∀ x ∈ pre, x.ok = true

/-- The writes of one pass over a file of `size` bytes when none fails. -/
def writeEvents (p : PathName) (size : Nat) : List Event :=
  (List.range ((size + 4095) / 4096)).map fun k =>
    .write p (4096 * k) (min 4096 (size - 4096 * k)) true

/-- The events of pass `i` when nothing fails. -/
def passEvents (p : PathName) (size : Nat) (i : Nat) : List Event :=
  [.pass i, .seek p true] ++ (if i % 4 = 0 then [.randRead true] else []) ++ writeEvents p size

/-- The events that remove something from the tree. -/
def Event.isUnlink : Event → Bool
  | .remove _ _ => true
  | .removeAll _ _ => true
  | _ => false

/-- The events of `overwriteFile` on a file of `size` bytes at `p` with `n`
passes when nothing fails. -/
def overwriteEvents (p : PathName) (size n : Nat) : List Event :=
  [.opened p, .fstat p true] ++
    ((List.range n).flatMap fun i => passEvents p size i ++ [.sync p true]) ++ [.closed p]

/-- A failed seek, write or sync: the operations of a pass that the error
taxonomy names. -/
def Event.isFailedPassOp : Event → Bool
  | .seek _ false => true
  | .write _ _ _ false => true
  | .sync _ false => true
  | _ => false

/-- Pass markers and syncs. -/
def Event.isPassOrSync : Event → Bool
  | .pass _ => true
  | .sync _ _ => true
  | _ => false

/-- The number of bytes an event wrote. -/
def Event.bytes : Event → Nat
  | .write _ _ n _ => n
  | _ => 0

/-- A callback that never fails and never changes the world: whatever it is
called with, it returns no error and the world `w`. -/
def Quiet (fn : WalkFunc) (w : World) : Prop :=
  ∀ path info err rs, ∃ rs1, fn path info err rs w = some (none, rs1, w)

/-- The indices of the passes entered, in the order of the trace. -/
def markers (evs : List Event) : List Nat := evs.filterMap Event.passIndex

/-! ## Concrete inputs -/

/-- An environment in which nothing fails. -/
def calmEnv : Env := ⟨fun _ _ => none, fun _ => 0, fun _ j => j⟩

/-- An environment in which every call of one operation fails with the
given errno and every other operation succeeds. -/
def failing (op : Op) (errno : Nat) : Env :=
  ⟨fun o _ => if o = op then some errno else none, fun _ => 0, fun _ j => j⟩

/-- A root directory with one writable file `f` of three bytes. -/
def oneFile : World := ⟨[("f", .file [1, 2, 3] true)], 0, []⟩

/-- Three passes, no dry run. -/
def threePasses : WipeOptions := ⟨false, 3, true, false⟩

/-- One pass, no dry run. -/
def onePass : WipeOptions := ⟨false, 1, true, false⟩

/-- A root directory with a file, and a directory that holds two files and
an unreadable directory. -/
def smallTree : World :=
  ⟨[("f", .file [1, 2, 3] true),
    ("d", .dir true [("b", .file [7] true), ("a", .file [] false),
      ("s", .dir false [("x", .file [9] true)])])], 0, []⟩

/-- A root directory with a read-only file `g` of two bytes and an empty
directory `e`. -/
def lockedFile : World := ⟨[("g", .file [4, 5] false), ("e", .dir true [])], 0, []⟩

/-- Three passes, dry run, not recursive. -/
def dryOptions : WipeOptions := ⟨false, 3, true, true⟩

/-- Three passes, dry run, recursive. -/
def dryRecursive : WipeOptions := ⟨true, 3, true, true⟩

/-- The size that `os.Stat` reports for a path (0 when the stat fails). -/
def statSize (w : World) (p : PathName) : Nat :=
  match osStat w p with
  | .ok info => info.size
  | .error _ => 0

/-- A number of invocations of `WipeFiles` with the same targets and options,
one after the other; the result lists of the invocations, in order. -/
def repeatWipeFiles (env : Env) (paths : List PathName) (o : WipeOptions) :
    Nat → World → Option (List (List WipeResult) × World)
  | 0, w => some ([], w)
  | n + 1, w =>
    match WipeFiles env paths o w with
    | none => none
    | some (rs, w1) =>
      match repeatWipeFiles env paths o n w1 with
      | none => none
      | some (rss, w2) => some (rs :: rss, w2)

/-- No passes, no dry run. -/
def zeroPasses : WipeOptions := ⟨false, 0, true, false⟩

/-! ## Vocabulary of the statements about batches -/

/-- Two paths neither of which is a prefix of the other. -/
def Apart (p q : PathName) : Prop := ¬ p <+: q ∧ ¬ q <+: p

/-- The world `w1` differs from `w` at most at `p`, below `p` and in the
directories above `p`: every path apart from `p` resolves as before. -/
def Frame (p : PathName) (w w1 : World) : Prop :=
  ∀ q, Apart p q → w1.tree.lookup q = w.tree.lookup q

/-- The test `err == nil && info.IsDir()` on the result of `os.Stat`. -/
def isDirectory (w : World) (p : PathName) : Bool :=
  match osStat w p with
  | .ok info => info.isDir
  | .error _ => false

/-- The results for one target as the contract of the batch words it: the
results of `wipeDirectory` when `recursive` is set and the target is a
directory, the single result of `wipeFile` for every other target. -/
def targetResults (env : Env) (o : WipeOptions) (p : PathName) (w : World) :
    Option (List WipeResult × World) :=
  if o.Recursive = true ∧ isDirectory w p = true then wipeDirectory env p o w
  else (wipeFile env p o w).map fun x => ([x.1], x.2)

/-- The concatenation, in target order, of the results for each target, each
target being processed in the world left by the targets before it. -/
def concatResults (env : Env) (o : WipeOptions) :
    List PathName → World → Option (List WipeResult × World)
  | [], w => some ([], w)
  | p :: rest, w =>
    match targetResults env o p w with
    | none => none
    | some (first, w1) =>
      match concatResults env o rest w1 with
      | none => none
      | some (others, w2) => some (first ++ others, w2)

/-- What a wipe at another path keeps: a regular file stays the file it was,
a missing path stays missing. -/
def Kept (q : PathName) (w w1 : World) : Prop :=
  (∀ d wr, w.tree.lookup q = some (.file d wr) → w1.tree.lookup q = some (.file d wr)) ∧
    (w.tree.lookup q = none → w1.tree.lookup q = none)

/-! ## Vocabulary of the statements about the directory wipe -/

/-- What the walk of `wipeDirectory` meets: a regular file, which it hands to
`wipeFile`, or a directory that cannot be read. -/
inductive Visit where
  | file (path : PathName) (data : List Nat) (writable : Bool)
  | denied (path : PathName)

/-- The visits for one name of a directory with entries `es`. -/
def visitChild (rec : PathName → Node → List Visit) (path : PathName)
    (es : List (String × Node)) (name : String) : List Visit :=
  match es.lookup name with
  | some c => rec (path ++ [name]) c
  | none => []

/-- The visits below the names of a directory, in the order of the names. -/
def visitNames (rec : PathName → Node → List Visit) (path : PathName)
    (es : List (String × Node)) : List String → List Visit
  | [] => []
  | name :: rest => visitChild rec path es name ++ visitNames rec path es rest

/-- The visits of a walk over the node `n` at `path`, in the order of the
walk: a file; a directory that cannot be read; for a readable directory the
visits below its names in lexical order. -/
def visit : Nat → PathName → Node → List Visit
  | 0, _, _ => []
  | _ + 1, path, .file d wr => [.file path d wr]
  | fuel + 1, path, .dir r es =>
    if r then visitNames (visit fuel) path es (sortNames (es.map Prod.fst))
    else [.denied path]

mutual
/-- No directory of the tree holds two entries of the same name. -/
def Node.uniqueNames : Node → Bool
  | .file _ _ => true
  | .dir _ es => decide ((es.map Prod.fst).Nodup) && uniqueNamesList es
/-- No directory below the entries holds two entries of the same name. -/
def uniqueNamesList : List (String × Node) → Bool
  | [] => true
  | e :: es => e.2.uniqueNames && uniqueNamesList es
end

/-- What `os.Stat` reports for a node. -/
def infoOf : Node → FileInfo
  | .file d _ => ⟨false, d.length⟩
  | .dir _ _ => ⟨true, 0⟩

/-- The path of a visit. -/
def Visit.path : Visit → PathName
  | .file q _ _ => q
  | .denied q => q

/-- The visit shows what a path resolves to: the regular file with its bytes
and its write permission, or a directory that cannot be read. -/
def Visit.Shows : Visit → Option Node → Prop
  | .file _ d wr, m => m = some (.file d wr)
  | .denied _, m => ∃ es, m = some (.dir false es)

/-- The walk from the node gets to the relative path: the path exists and
every directory on the way to it, the node included and the target excluded,
can be read. -/
def Node.reach : Node → PathName → Bool
  | _, [] => true
  | .dir r es, c :: cs =>
    r && (match es.lookup c with
      | some n => Node.reach n cs
      | none => false)
  | .file _ _, _ :: _ => false

mutual
/-- Every directory of the tree can be read and every regular file can be
written. -/
def Node.wipeable : Node → Bool
  | .file _ wr => wr
  | .dir r es => r && wipeableList es
/-- Every entry is a tree that `Node.wipeable` accepts. -/
def wipeableList : List (String × Node) → Bool
  | [] => true
  | e :: es => e.2.wipeable && wipeableList es
end

/-- The result that belongs to a visit: for a directory that cannot be read
the failure with the error of the read; for a file the result of a call of
`wipeFile` on that file. -/
def Visited (env : Env) (o : WipeOptions) : Visit → WipeResult → Prop
  | .denied q, r => r = ⟨q, false, some (.pathError "open" q 13), 0⟩
  | .file q d wr, r =>
    r.Path = q ∧
      ∃ w0 w1, w0.tree.lookup q = some (.file d wr) ∧ wipeFile env q o w0 = some (r, w1)

/-- A directory `d` that holds one file, which cannot be opened for writing. -/
def lockedTree : World := ⟨[("d", .dir true [("k", .file [4, 5] false)])], 0, []⟩

/-- A directory `t` with a file of 10 bytes, a file of 20 bytes and a
directory that holds one more file. -/
def nestedTree : World :=
  ⟨[("t", .dir true [("a.txt", .file (List.replicate 10 65) true),
      ("b.txt", .file (List.replicate 20 66) true),
      ("sub", .dir true [("c.txt", .file [1] true)])])], 0, []⟩


/-! ## Vocabulary of the statements about every run -/

/-- A relation between the world before and the world after that every step
of a wipe respects: it holds between a world and itself, along a chain, when
the tree is the same, when bytes are stored through a handle, and when a
regular file is unlinked. -/
structure Respected (R : World → World → Prop) : Prop where
  same : ∀ w, R w w
  chain : ∀ {w w1 w2 : World}, R w w1 → R w1 w2 → R w w2
  root : ∀ {w w1 : World}, w1.root = w.root → R w w1
  store : ∀ (w : World) (f : File) (b : List Nat) (c : Nat) (t : List Event),
    R w ⟨storeBytes w f b, c, t⟩
  unlink : ∀ (env : Env) (p : PathName) (w : World) (d : List Nat) (wr : Bool),
    w.tree.lookup p = some (.file d wr) → R w (osRemove env p w).2


/-- The second tree is the first one after bytes changed and regular files
went away: every directory of the first is a directory of the second, at the
same path and with the same read permission; and whatever the second holds at
a path, the first holds something at that path that is at least as high. -/
def Node.Shrinks (n n1 : Node) : Prop :=
  (∀ q r es, n.lookup q = some (.dir r es) → ∃ es1, n1.lookup q = some (.dir r es1)) ∧
    ∀ q m1, n1.lookup q = some m1 → ∃ m, n.lookup q = some m ∧ m1.height ≤ m.height

/-- The tree of the second world is the tree of the first one after bytes
changed and regular files went away. -/
def Shrinks (w w1 : World) : Prop := w.tree.Shrinks w1.tree


/-- Where a result can come from: a call of `wipeFile`, or the callback of
the walk when it is handed an error. -/
def Produced (env : Env) (o : WipeOptions) (r : WipeResult) : Prop :=
  (∃ p w0 w1, wipeFile env p o w0 = some (r, w1)) ∨ ∃ p e, r = ⟨p, false, some e, 0⟩


/-- The two invariants of a result: success exactly when there is no error,
and size 0 on every failure. -/
def WipeResult.Sound (r : WipeResult) : Prop :=
  (r.Success = true ↔ r.Error = none) ∧ (r.Success = false → r.Size = 0)

/-- The visit is the visit of a regular file. -/
def Visit.isFile : Visit → Bool
  | .file _ _ _ => true
  | .denied _ => false


/-! ## The target resolver -/

/-- What the resolver reads from the process and from the platform:
`runtime.GOOS`; the environment (`os.Getenv`, a variable that is not set
reads as the empty string); the two values of `os.UserHomeDir()`; the
functions `Join` and `IsAbs` of `path/filepath` on this platform; where a path
string leads in the file tree; and the order in which `range` visits the
entries of a map, which the runtime chooses. -/
structure Platform where
  GOOS : String
  getenv : String → String
  userHomeDir : String × Option GoError
  join : List String → String
  isAbs : String → Bool
  resolve : String → PathName
  rangeOrder : List (String × List String) → List (String × List String)

/-- Go `getBrowserPaths`.  The map is the list of its entries, in the order
of the assignments. -/
def getBrowserPaths (pf : Platform) : List (String × List String) :=
  if pf.GOOS = "windows" then
    let userProfile := pf.getenv "USERPROFILE"
    [("chrome",
        [pf.join [userProfile, "AppData", "Local", "Google", "Chrome", "User Data", "Default",
            "History"],
          pf.join [userProfile, "AppData", "Local", "Google", "Chrome", "User Data", "Default",
            "Cache"]]),
      ("firefox", [pf.join [userProfile, "AppData", "Roaming", "Mozilla", "Firefox", "Profiles"]]),
      ("edge",
        [pf.join [userProfile, "AppData", "Local", "Microsoft", "Edge", "User Data", "Default",
            "History"],
          pf.join [userProfile, "AppData", "Local", "Microsoft", "Edge", "User Data", "Default",
            "Cache"]])]
  else if pf.GOOS = "darwin" then
    let homeDir := pf.userHomeDir.1
    [("chrome",
        [pf.join [homeDir, "Library", "Application Support", "Google", "Chrome", "Default",
            "History"],
          pf.join [homeDir, "Library", "Caches", "Google", "Chrome"]]),
      ("firefox", [pf.join [homeDir, "Library", "Application Support", "Firefox", "Profiles"]]),
      ("safari",
        [pf.join [homeDir, "Library", "Safari", "History.db"],
          pf.join [homeDir, "Library", "Caches", "com.apple.Safari"]])]
  else
    let homeDir := pf.userHomeDir.1
    [("chrome",
        [pf.join [homeDir, ".config", "google-chrome", "Default", "History"],
          pf.join [homeDir, ".cache", "google-chrome"]]),
      ("firefox", [pf.join [homeDir, ".mozilla", "firefox"]])]

/-- Go `os.Stat` on a path string: the empty string names nothing. -/
def statPath (pf : Platform) (w : World) (path : String) : Except GoError FileInfo :=
  if path = "" then .error (.pathError "stat" [] 2) else osStat w (pf.resolve path)

/-- The loop at the end of `getSystemTempPaths` that keeps the paths which
are not empty and whose stat succeeds. -/
def filterExisting (pf : Platform) (w : World) : List String → List String → List String
  | [], validPaths => validPaths
  | path :: rest, validPaths =>
    if path ≠ "" then
      match statPath pf w path with
      | .ok _ => filterExisting pf w rest (validPaths ++ [path])
      | .error _ => filterExisting pf w rest validPaths
    else filterExisting pf w rest validPaths

/-- Go `getSystemTempPaths`. -/
def getSystemTempPaths (pf : Platform) (w : World) : List String :=
  let paths :=
    if pf.GOOS = "windows" then
      [pf.getenv "TEMP", pf.getenv "TMP", pf.join [pf.getenv "WINDIR", "Temp"]]
    else if pf.GOOS = "darwin" ∨ pf.GOOS = "linux" then
      match pf.userHomeDir with
      | (homeDir, none) => ["/tmp", "/var/tmp"] ++ [pf.join [homeDir, ".cache"]]
      | (_, some _) => ["/tmp", "/var/tmp"]
    else []
  filterExisting pf w paths []

/-- The home directory resolves: `os.UserHomeDir()` returns no error. -/
def homeResolves (pf : Platform) : Bool := pf.userHomeDir.2.isNone

/-- The candidate paths of the platform as the contract lists them: on
windows `%TEMP%`, `%TMP%` and `%WINDIR%` joined with `Temp`; on darwin and
linux `/tmp`, `/var/tmp` and, when the home directory resolves, the home
directory joined with `.cache`. -/
def tempCandidates (pf : Platform) : List String :=
  if pf.GOOS = "windows" then
    [pf.getenv "TEMP", pf.getenv "TMP", pf.join [pf.getenv "WINDIR", "Temp"]]
  else if pf.GOOS = "darwin" ∨ pf.GOOS = "linux" then
    ["/tmp", "/var/tmp"] ++
      (if homeResolves pf = true then [pf.join [pf.userHomeDir.1, ".cache"]] else [])
  else []

/-- The path string exists on disk: its stat succeeds. -/
def existsOnDisk (pf : Platform) (w : World) (path : String) : Bool :=
  match statPath pf w path with
  | .ok _ => true
  | .error _ => false

/-! ## Paths on a Unix platform

`Join`, `Clean` and `IsAbs` of `path/filepath` where the separator is `/`,
on lists of characters. -/

/-- The segments between the slashes. -/
def splitSlash : List Char → List (List Char)
  | [] => [[]]
  | c :: cs =>
    if c = '/' then [] :: splitSlash cs
    else
      match splitSlash cs with
      | [] => [[c]]
      | seg :: segs => (c :: seg) :: segs

/-- The segments with one slash between two of them (`strings.Join`). -/
def joinSlash : List (List Char) → List Char
  | [] => []
  | [seg] => seg
  | seg :: rest => seg ++ '/' :: joinSlash rest

/-- One segment of `Clean`: `..` takes back the segment before it, unless
there is none or it is `..` itself; at the start of a rooted path `..` is
dropped.  The stack holds the segments kept so far, the last one first. -/
def cleanStep (rooted : Bool) (stack : List (List Char)) (seg : List Char) :
    List (List Char) :=
  if seg = ['.', '.'] then
    match stack with
    | top :: rest => if top = ['.', '.'] then seg :: stack else rest
    | [] => if rooted then [] else [seg]
  else seg :: stack

/-- Go `filepath.Clean` on Unix: empty segments and `.` go away, `..` is
resolved lexically, a rooted path stays rooted, and the empty result is `.`. -/
def unixClean (s : List Char) : List Char :=
  let rooted := s.head? == some '/'
  let segs := (splitSlash s).filter fun seg => seg ≠ [] ∧ seg ≠ ['.']
  let body := joinSlash (segs.foldl (cleanStep rooted) []).reverse
  if rooted then '/' :: body else if body = [] then ['.'] else body

/-- Go `filepath.Join` on Unix: the elements from the first non-empty one on,
joined with slashes and cleaned; the empty string when all are empty. -/
def unixJoin (elem : List String) : String :=
  match elem.dropWhile fun e => e = "" with
  | [] => ""
  | es => String.mk (unixClean (joinSlash (es.map String.data)))

/-- Go `filepath.IsAbs` on Unix. -/
def unixIsAbs (path : String) : Bool := path.data.head? == some '/'

/-- Where a cleaned path leads on Unix: from the root when it is absolute,
from the working directory otherwise. -/
def unixResolve (cwd : PathName) (path : String) : PathName :=
  let names := ((splitSlash path.data).filter fun seg => seg ≠ []).map String.mk
  if unixIsAbs path then names else cwd ++ names

/-- A Linux process whose home directory does not resolve (`$HOME` is not
set), in the root directory. -/
def linuxNoHome : Platform :=
  ⟨"linux", fun _ => "", ("", some (.errorf "$HOME is not defined")), unixJoin, unixIsAbs,
    unixResolve [], id⟩

/-- A Linux process with `HOME=/home/u`, in the root directory; `range`
visits the entries of a map last to first. -/
def linuxHome : Platform :=
  ⟨"linux", fun v => if v = "HOME" then "/home/u" else "", ("/home/u", none), unixJoin,
    unixIsAbs, unixResolve [], List.reverse⟩

/-- A Linux process with `HOME=u`, a relative path, in the root directory. -/
def linuxRelativeHome : Platform :=
  ⟨"linux", fun v => if v = "HOME" then "u" else "", ("u", none), unixJoin, unixIsAbs,
    unixResolve [], id⟩

/-- A tree with `/tmp` (holding a file), `/home/u/.cache` and `/u/.cache`;
there is no `/var/tmp`. -/
def tempTree : World :=
  ⟨[("tmp", .dir true [("t.log", .file [1, 2] true)]),
    ("home", .dir true [("u", .dir true [(".cache", .dir true [])])]),
    ("u", .dir true [(".cache", .dir true [])])], 0, []⟩


/-! ## The two convenience entry points -/

/-- The loop `failed++` over the results. -/
def countFailed : List WipeResult → Nat → Nat
  | [], failed => failed
  | result :: rest, failed =>
    if !result.Success then countFailed rest (failed + 1) else countFailed rest failed

/-- The loop over the map that appends the paths of every entry. -/
def appendAll : List (String × List String) → List String → List String
  | [], allPaths => allPaths
  | kv :: rest, allPaths => appendAll rest (allPaths ++ kv.2)

/-- The targets that `WipeBrowserData` hands to `WipeFiles`. -/
def browserTargets (pf : Platform) : List PathName :=
  (appendAll (pf.rangeOrder (getBrowserPaths pf)) []).map pf.resolve

/-- The targets that `WipeSystemTemp` hands to `WipeFiles`. -/
def tempTargets (pf : Platform) (w : World) : List PathName :=
  (getSystemTempPaths pf w).map pf.resolve

/-- Go `WipeBrowserData` (the log lines write to the logger only). -/
def WipeBrowserData (pf : Platform) (env : Env) (options : WipeOptions) (w : World) :
    Option (Option GoError × World) :=
  match WipeFiles env (browserTargets pf) options w with
  | none => none
  | some (results, w1) =>
    let failed := countFailed results 0
    if failed > 0 then
      some (some (.errorf ("failed to wipe " ++ toString failed ++ " browser data files")), w1)
    else some (none, w1)

/-- Go `WipeSystemTemp` (the log lines write to the logger only). -/
def WipeSystemTemp (pf : Platform) (env : Env) (options : WipeOptions) (w : World) :
    Option (Option GoError × World) :=
  match WipeFiles env (tempTargets pf w) options w with
  | none => none
  | some (results, w1) =>
    let failed := countFailed results 0
    if failed > 0 then
      some (some (.errorf ("failed to wipe " ++ toString failed ++ " temporary files")), w1)
    else some (none, w1)


/-! ## The commands (`cmd/wipe.go`, `cmd/clean.go`) -/

/-- The values of the flags of the `wipe` command, as `cmd.Flags()` returns
them in `Run`: whatever integer was given to `--passes`. -/
structure WipeFlags where
  recursive : Bool
  passes : Int
  force : Bool
  browserData : Bool
  systemTemp : Bool
  dryRun : Bool

/-- The options that `Run` of the `wipe` command builds and hands to the
shredder. -/
def wipeCmdOptions (f : WipeFlags) : WipeOptions :=
  { Recursive := f.recursive, Passes := f.passes, Force := f.force, DryRun := f.dryRun }

/-- The values of the flags of the `clean` command. -/
structure CleanFlags where
  dryRun : Bool
  force : Bool
  passes : Int

/-- The options that `Run` of the `clean` command builds and hands to the
shredder. -/
def cleanCmdOptions (f : CleanFlags) : WipeOptions :=
  { Recursive := true, Passes := f.passes, Force := f.force, DryRun := f.dryRun }

/-! ## The interactive shell (`internal/interactive/session.go`) -/

/-- The variables of the loop over the arguments in `handleWipe`. -/
structure WipeArgs where
  files : List String
  dryRun : Bool
  force : Bool
  passes : Int

/-- Go `strings.HasPrefix`, on lists of characters. -/
def startsWith : List Char → List Char → Bool
  | _, [] => true
  | [], _ :: _ => false
  | c :: cs, p :: ps => c == p && startsWith cs ps

/-- The loop `for i, arg := range args` of `handleWipe`; `n` is `len(args)`. -/
def handleWipeLoop (n : Nat) : Nat → List String → WipeArgs → WipeArgs
  | _, [], st => st
  | i, arg :: rest, st =>
    let st1 :=
      if arg = "--dry-run" then { st with dryRun := true }
      else if arg = "--force" then { st with force := true }
      else if arg = "--passes" then (if i + 1 < n then { st with passes := 3 } else st)
      else if !startsWith arg.data "--".data then { st with files := st.files ++ [arg] }
      else st
    handleWipeLoop n (i + 1) rest st1

/-- Go `handleWipe` up to its call of the shredder: the files and the options
that it hands to `WipeFiles`, or `none` when it returns before the call (no
argument, no file, or dry run). -/
def handleWipeCall (args : List String) : Option (List String × WipeOptions) :=
  if args.length = 0 then none
  else
    let st := handleWipeLoop args.length 0 args ⟨[], false, false, 3⟩
    if st.files.length = 0 then none
    else if st.dryRun then none
    else some (st.files, ⟨false, st.passes, st.force, st.dryRun⟩)

/-- The messages that `Update` tells apart. -/
inductive Msg where
  | ctrlC
  | esc
  | enter
  | up
  | down
  | key (code : Nat)
  | sessionEnd
  | other (code : Nat)

/-- What `Update` calls and the history does not depend on:
`strings.TrimSpace`; `processCommand`, which reads the model and assigns to
`m.output` only, as the output after the call and the lines it returns;
`ui.StyleInfo`; and `Update` of the text input, as the value after the call. -/
structure Shell where
  trimSpace : String → String
  processCommand : List String → List String → String → List String × List String
  styleInfo : String → String
  inputUpdate : String → Msg → String

/-- Go `Model`: the value of the text input, and the four other fields that
`Update` reads or writes. -/
structure Model where
  textInput : String
  history : List String
  output : List String
  historyIndex : Int
  quitting : Bool

/-- Go `NewModel`. -/
def NewModel : Model := ⟨"", [], [], 0, false⟩

/-- Go `history[i]`: out of range is a panic, here `none`. -/
def indexHistory (history : List String) (i : Int) : Option String :=
  if 0 ≤ i then history[i.toNat]? else none

/-- The last statement of `Update`: the text input handles the message. -/
def Model.finish (sh : Shell) (m : Model) (msg : Msg) : Option (Model × Bool) :=
  some ({ m with textInput := sh.inputUpdate m.textInput msg }, false)

/-- Go `Update`.  The flag says whether the command returned is `tea.Quit`;
`none` is a panic. -/
def Model.Update (sh : Shell) (m : Model) (msg : Msg) : Option (Model × Bool) :=
  match msg with
  | .ctrlC => some ({ m with quitting := true }, true)
  | .esc => some ({ m with quitting := true }, true)
  | .enter =>
    let input := sh.trimSpace m.textInput
    if input ≠ "" then
      let m1 := { m with history := m.history ++ [input] }
      let m2 := { m1 with historyIndex := m1.history.length }
      let res := sh.processCommand m2.history m2.output input
      let m3 := { m2 with output := res.1 ++ [sh.styleInfo ("> " ++ input)] ++ res.2 }
      let m4 :=
        if m3.output.length > 50 then
          { m3 with output := m3.output.drop (m3.output.length - 50) }
        else m3
      if input = "exit" ∨ input = "quit" then some ({ m4 with quitting := true }, true)
      else Model.finish sh { m4 with textInput := "" } msg
    else Model.finish sh { m with textInput := "" } msg
  | .up =>
    if m.history.length > 0 ∧ m.historyIndex > 0 then
      let m1 := { m with historyIndex := m.historyIndex - 1 }
      match indexHistory m1.history m1.historyIndex with
      | none => none
      | some v => Model.finish sh { m1 with textInput := v } msg
    else Model.finish sh m msg
  | .down =>
    if m.historyIndex < (m.history.length : Int) - 1 then
      let m1 := { m with historyIndex := m.historyIndex + 1 }
      match indexHistory m1.history m1.historyIndex with
      | none => none
      | some v => Model.finish sh { m1 with textInput := v } msg
    else if m.historyIndex = (m.history.length : Int) - 1 then
      Model.finish sh { m with historyIndex := m.history.length, textInput := "" } msg
    else Model.finish sh m msg
  | .key _ => Model.finish sh m msg
  | .sessionEnd => some ({ m with quitting := true }, true)
  | .other _ => Model.finish sh m msg

/-- A sequence of messages, one `Update` after the other. -/
def runSession (sh : Shell) : List Msg → Model → Option Model
  | [], m => some m
  | msg :: rest, m =>
    match Model.Update sh m msg with
    | none => none
    | some (m1, _) => runSession sh rest m1

/-! ## Facts about the file tree -/

theorem lookup_map_upd (c : String) (h : Node → Node) (es : List (String × Node)) :
    (es.map fun e => if e.1 = c then (e.1, h e.2) else e).lookup c = (es.lookup c).map h := by
  induction es with
  | nil => rfl
  | cons e es ih =>
    obtain ⟨k, v⟩ := e
    rw [List.map_cons]
    by_cases hk : k = c
    · subst hk
      rw [if_pos rfl, List.lookup_cons, List.lookup_cons]
      simp
    · have hne : (c == k) = false := by
        simp only [beq_eq_false_iff_ne, ne_eq]
        exact fun h => hk h.symm
      rw [if_neg hk, List.lookup_cons, List.lookup_cons, hne]
      exact ih

theorem lookup_filter_ne (c : String) (es : List (String × Node)) :
    (es.filter fun e => e.1 ≠ c).lookup c = none := by
  induction es with
  | nil => rfl
  | cons e es ih =>
    obtain ⟨k, v⟩ := e
    by_cases hk : k = c
    · subst hk
      rw [List.filter_cons_of_neg (by simp)]
      exact ih
    · have hne : (c == k) = false := by
        simp only [beq_eq_false_iff_ne, ne_eq]
        exact fun h => hk h.symm
      rw [List.filter_cons_of_pos (by simpa using hk), List.lookup_cons, hne]
      exact ih

theorem Node.setData_dir (d : List Nat) (r : Bool) (es : List (String × Node)) (p : PathName) :
    ∃ es2, Node.setData d (.dir r es) p = .dir r es2 := by
  cases p with
  | nil => exact ⟨es, rfl⟩
  | cons c cs => exact ⟨_, rfl⟩

theorem Node.remove_dir (r : Bool) (es : List (String × Node)) (p : PathName) :
    ∃ es2, Node.remove (.dir r es) p = .dir r es2 := by
  match p with
  | [] => exact ⟨es, rfl⟩
  | [c] => exact ⟨_, rfl⟩
  | c :: c2 :: cs => exact ⟨_, rfl⟩

theorem Node.lookup_setData (d : List Nat) :
    ∀ (p : PathName) (n : Node) (d0 : List Nat) (wr : Bool),
      n.lookup p = some (.file d0 wr) → (n.setData d p).lookup p = some (.file d wr) := by
  intro p
  induction p with
  | nil =>
    intro n d0 wr h
    simp only [Node.lookup, Option.some.injEq] at h
    subst h
    rfl
  | cons c cs ih =>
    intro n d0 wr h
    cases n with
    | file d1 w1 => simp [Node.lookup] at h
    | dir r es =>
      rw [Node.lookup.eq_2] at h
      rw [Node.setData.eq_4, Node.lookup.eq_2, lookup_map_upd c (fun m => Node.setData d m cs)]
      cases hl : es.lookup c with
      | none => rw [hl] at h; cases h
      | some m =>
        rw [hl] at h
        exact ih m d0 wr h

theorem Node.lookup_remove :
    ∀ (p : PathName) (n : Node), p ≠ [] → (n.remove p).lookup p = none := by
  intro p
  induction p with
  | nil => intro n h; exact absurd rfl h
  | cons c cs ih =>
    intro n _
    cases n with
    | file d1 w1 => rfl
    | dir r es =>
      cases cs with
      | nil => rw [Node.remove.eq_3, Node.lookup.eq_2, lookup_filter_ne]
      | cons c2 cs2 =>
        rw [Node.remove.eq_4, Node.lookup.eq_2, lookup_map_upd c (fun m => Node.remove m (c2 :: cs2))]
        cases hl : es.lookup c with
        | none => rfl
        | some k => exact ih k (by simp)

/-! ## Facts about byte buffers and writes -/

theorem bytesFrom_length (g : Nat → Nat) : ∀ n j, (bytesFrom g n j).length = n := by
  intro n
  induction n with
  | zero => intro j; rfl
  | succ n ih => intro j; simp [bytesFrom, ih]

theorem bytesFrom_getElem? (g : Nat → Nat) :
    ∀ n j i, i < n → (bytesFrom g n j)[i]? = some (g (j + i)) := by
  intro n
  induction n with
  | zero => intro j i h; omega
  | succ n ih =>
    intro j i h
    cases i with
    | zero => simp [bytesFrom]
    | succ i =>
      simp only [bytesFrom, List.getElem?_cons_succ]
      rw [ih (j + 1) i (by omega)]
      congr 2
      omega

theorem Slice.upto_length (s : Slice) (k : Nat) : (s.upto k).length = k :=
  bytesFrom_length _ _ _

theorem Slice.upto_getElem? (s : Slice) (k i : Nat) (h : i < k) :
    (s.upto k)[i]? = some (s.byte i) := by
  unfold Slice.upto
  rw [bytesFrom_getElem? _ _ _ _ h, Nat.zero_add]

theorem writeAt_length (data b : List Nat) (pos : Nat) (h : pos + b.length ≤ data.length) :
    (writeAt data pos b).length = data.length := by
  unfold writeAt
  simp only [List.length_append, List.length_take, List.length_replicate, List.length_drop]
  omega

theorem writeAt_getElem?_lt (data b : List Nat) (pos j : Nat) (h : pos ≤ data.length)
    (hj : j < pos) : (writeAt data pos b)[j]? = data[j]? := by
  unfold writeAt
  rw [List.append_assoc, List.append_assoc, List.getElem?_append_left (by simp; omega)]
  rw [List.getElem?_take_of_lt hj]

theorem writeAt_getElem?_mid (data b : List Nat) (pos j : Nat) (h : pos ≤ data.length)
    (h1 : pos ≤ j) (h2 : j < pos + b.length) : (writeAt data pos b)[j]? = b[j - pos]? := by
  unfold writeAt
  have h0 : pos - data.length = 0 := by omega
  rw [h0, List.replicate_zero, List.append_nil, List.append_assoc,
    List.getElem?_append_right (by simp; omega)]
  have hl : (List.take pos data).length = pos := by simp; omega
  rw [hl, List.getElem?_append_left (by omega)]

/-- The tree of a world whose root entries were replaced by a write. -/
theorem tree_storeBytes (w : World) (f : File) (b d : List Nat) (wr : Bool) (c : Nat)
    (t : List Event) (h : w.tree.lookup f.name = some (.file d wr)) :
    (World.mk (storeBytes w f b) c t).tree.lookup f.name
      = some (.file (writeAt d f.pos b) wr) := by
  unfold storeBytes
  rw [h]
  obtain ⟨es2, hes⟩ := Node.setData_dir (writeAt d f.pos b) true w.root f.name
  have ht : w.tree = .dir true w.root := rfl
  simp only [World.tree] at h ⊢
  rw [hes]
  simp only [Node.entries]
  rw [← hes]
  exact Node.lookup_setData _ _ _ _ _ h

theorem File.write_ok (env : Env) (f : File) (b : List Nat) (w : World)
    (h : env.fault .write w.clock = none) :
    File.write env f b w = ((b.length, none), { f with pos := f.pos + b.length },
      { root := storeBytes w f b, clock := w.clock + 1,
        trace := w.trace ++ [.write f.name f.pos b.length true] }) := by
  simp only [File.write, h]

theorem File.write_fail (env : Env) (f : File) (b : List Nat) (w : World) (e : Nat)
    (h : env.fault .write w.clock = some e) :
    File.write env f b w = ((min (env.shortCount w.clock) b.length,
        some (.pathError "write" f.name e)),
      { f with pos := f.pos + min (env.shortCount w.clock) b.length },
      { root := storeBytes w f (b.take (min (env.shortCount w.clock) b.length)),
        clock := w.clock + 1,
        trace := w.trace ++ [.write f.name f.pos (min (env.shortCount w.clock) b.length) false] }) := by
  simp only [File.write, h]

/-! ## The write loop -/

/-- A Hoare-style rule for the write loop: an invariant `P` that every
successful write keeps, and a postcondition `Q` that a failing write and the
exit of the loop establish.  With a non-empty buffer the loop also ends
before the fuel that `performPass` gives it runs out. -/
theorem writeLoop_rule (env : Env) (pattern : Slice) (size : Nat) (hL : 0 < pattern.len)
    (P : Nat → File → World → Prop) (Q : Option GoError → File → World → Prop)
    (hok : ∀ written f w, written < size → P written f w →
      env.fault .write w.clock = none →
      P (written + min (size - written) pattern.len)
        { f with pos := f.pos + min (size - written) pattern.len }
        { root := storeBytes w f (pattern.upto (min (size - written) pattern.len)),
          clock := w.clock + 1,
          trace := w.trace ++ [.write f.name f.pos (min (size - written) pattern.len) true] })
    (hfail : ∀ written f w e, written < size → P written f w →
      env.fault .write w.clock = some e →
      Q (some (.pathError "write" f.name e))
        { f with pos := f.pos + min (env.shortCount w.clock) (min (size - written) pattern.len) }
        { root := storeBytes w f ((pattern.upto (min (size - written) pattern.len)).take
            (min (env.shortCount w.clock) (min (size - written) pattern.len))),
          clock := w.clock + 1,
          trace := w.trace ++ [.write f.name f.pos
            (min (env.shortCount w.clock) (min (size - written) pattern.len)) false] })
    (hdone : ∀ written f w, size ≤ written → P written f w → Q none f w) :
    ∀ fuel written f w, size - written < fuel → P written f w →
      ∃ r f1 w1, writeLoop env pattern size fuel written f w = some (r, f1, w1) ∧ Q r f1 w1 := by
  intro fuel
  induction fuel with
  | zero => intro written f w h; omega
  | succ fuel ih =>
    intro written f w hfuel hP
    rw [writeLoop]
    by_cases hlt : written < size
    · rw [if_pos hlt]
      have hws : (if size - written < pattern.len then size - written else pattern.len)
          = min (size - written) pattern.len := by
        split <;> omega
      simp only [hws]
      cases hf : env.fault .write w.clock with
      | some e =>
        rw [File.write_fail env f _ w e hf]
        simp only [Slice.upto_length]
        exact ⟨_, _, _, rfl, hfail written f w e hlt hP hf⟩
      | none =>
        rw [File.write_ok env f _ w hf]
        simp only [Slice.upto_length]
        have hpos : 0 < min (size - written) pattern.len := by omega
        exact ih _ _ _ (by omega) (hok written f w hlt hP hf)
    · rw [if_neg hlt]
      exact ⟨_, _, _, rfl, hdone written f w (by omega) hP⟩

/-! ## What the write loop does -/

theorem Outcome.none_append {evs : List Event} {r : Option GoError} {evs2 : List Event}
    (h1 : ∀ e ∈ evs, e.ok = true) (h2 : Outcome r evs2) : Outcome r (evs ++ evs2) := by
  cases r with
  | none =>
    intro e he
    rcases List.mem_append.1 he with h | h
    · exact h1 e h
    · exact h2 e h
  | some err =>
    obtain ⟨pre, e, he, hf, hpre⟩ := h2
    refine ⟨evs ++ pre, e, by rw [he, List.append_assoc], hf, ?_⟩
    intro x hx
    rcases List.mem_append.1 hx with h | h
    · exact h1 x h
    · exact hpre x h

/-- The write loop as `performPass` runs it (offset 0, fuel `size + 1`) on
a file of `size` bytes: it returns, the file keeps its length, the events
are writes of which at most the last failed, and on success the byte at
every offset `j` is `pattern[j mod len]`. -/
theorem writeLoop_spec (env : Env) (pattern : Slice) (size : Nat) (hL : 0 < pattern.len)
    (f : File) (w : World) (d : List Nat) (wr : Bool) (hpos : f.pos = 0)
    (hfile : w.tree.lookup f.name = some (.file d wr)) (hlen : d.length = size) :
    ∃ r f1 w1, writeLoop env pattern size (size + 1) 0 f w = some (r, f1, w1) ∧
      f1.name = f.name ∧
      (∃ d1, w1.tree.lookup f.name = some (.file d1 wr) ∧ d1.length = size ∧
        (r = none → ∀ j, j < size → d1[j]? = some (pattern.byte (j % pattern.len)))) ∧
      ∃ evs, w1.trace = w.trace ++ evs ∧ Outcome r evs ∧ ∀ e ∈ evs, e.inPass = true := by
  have key := writeLoop_rule env pattern size hL
    (fun written f1 w1 => f1.pos = written ∧ written ≤ size ∧ f1.name = f.name ∧
      (written < size → pattern.len ∣ written) ∧
      (∃ d1, w1.tree.lookup f.name = some (.file d1 wr) ∧ d1.length = size ∧
        ∀ j, j < written → d1[j]? = some (pattern.byte (j % pattern.len))) ∧
      ∃ evs, w1.trace = w.trace ++ evs ∧ ∀ e ∈ evs, e.ok = true ∧ e.inPass = true)
    (fun r f1 w1 => f1.name = f.name ∧
      (∃ d1, w1.tree.lookup f.name = some (.file d1 wr) ∧ d1.length = size ∧
        (r = none → ∀ j, j < size → d1[j]? = some (pattern.byte (j % pattern.len)))) ∧
      ∃ evs, w1.trace = w.trace ++ evs ∧ Outcome r evs ∧ ∀ e ∈ evs, e.inPass = true)
    ?_ ?_ ?_ (size + 1) 0 f w (by omega) ?_
  · exact key
  · -- a successful write
    rintro written f1 w1 hlt ⟨hp, hle, hn, hdiv, ⟨d1, hd1, hl1, hc1⟩, evs, ht, hev⟩ _
    have hdvd := hdiv hlt
    refine ⟨by simp only [hp], by omega, hn, ?_, ?_, ?_⟩
    · intro hlt2
      have : min (size - written) pattern.len = pattern.len := by omega
      rw [this]
      exact Nat.dvd_add hdvd (Nat.dvd_refl _)
    · have hd1' : w1.tree.lookup f1.name = some (.file d1 wr) := by rw [hn]; exact hd1
      have hst := tree_storeBytes w1 f1 (pattern.upto (min (size - written) pattern.len)) d1 wr
        (w1.clock + 1) (w1.trace ++ [.write f1.name f1.pos (min (size - written) pattern.len) true])
        hd1'
      rw [hn] at hst
      refine ⟨_, hst, ?_, ?_⟩
      · rw [writeAt_length _ _ _ (by rw [Slice.upto_length]; omega)]
        exact hl1
      · intro j hj
        by_cases hjw : j < written
        · rw [writeAt_getElem?_lt _ _ _ _ (by omega) (by omega)]
          exact hc1 j hjw
        · rw [writeAt_getElem?_mid _ _ _ _ (by omega) (by omega)
            (by rw [Slice.upto_length]; omega)]
          rw [Slice.upto_getElem? _ _ _ (by omega), hp]
          obtain ⟨q, hq⟩ := hdvd
          have hmod : j % pattern.len = j - written := by
            have hj2 : j = (j - written) + pattern.len * q := by omega
            have hlt3 : j - written < pattern.len := by omega
            conv_lhs => rw [hj2]
            rw [Nat.add_mul_mod_self_left, Nat.mod_eq_of_lt hlt3]
          rw [hmod]
    · refine ⟨evs ++ [.write f1.name f1.pos (min (size - written) pattern.len) true], ?_, ?_⟩
      · simp only [ht, List.append_assoc]
      · intro e he
        rcases List.mem_append.1 he with h | h
        · exact hev e h
        · rw [List.mem_singleton.1 h]; exact ⟨rfl, rfl⟩
  · -- a failing write
    rintro written f1 w1 e hlt ⟨hp, hle, hn, hdiv, ⟨d1, hd1, hl1, hc1⟩, evs, ht, hev⟩ _
    refine ⟨hn, ?_, ?_⟩
    · have hd1' : w1.tree.lookup f1.name = some (.file d1 wr) := by rw [hn]; exact hd1
      have hst := tree_storeBytes w1 f1 ((pattern.upto (min (size - written) pattern.len)).take
          (min (env.shortCount w1.clock) (min (size - written) pattern.len))) d1 wr
        (w1.clock + 1) (w1.trace ++ [.write f1.name f1.pos
          (min (env.shortCount w1.clock) (min (size - written) pattern.len)) false]) hd1'
      rw [hn] at hst
      refine ⟨_, hst, ?_, fun h => by cases h⟩
      rw [writeAt_length _ _ _ (by rw [List.length_take, Slice.upto_length]; omega)]
      exact hl1
    · refine ⟨evs ++ [.write f1.name f1.pos
          (min (env.shortCount w1.clock) (min (size - written) pattern.len)) false], ?_, ?_, ?_⟩
      · simp only [ht, List.append_assoc]
      · exact ⟨evs, _, rfl, rfl, fun x hx => (hev x hx).1⟩
      · intro x hx
        rcases List.mem_append.1 hx with h | h
        · exact (hev x h).2
        · rw [List.mem_singleton.1 h]; rfl
  · -- the exit of the loop
    rintro written f1 w1 hge ⟨hp, hle, hn, hdiv, ⟨d1, hd1, hl1, hc1⟩, evs, ht, hev⟩
    refine ⟨hn, ⟨d1, hd1, hl1, fun _ j hj => hc1 j (by omega)⟩, evs, ht, ?_, fun e he => (hev e he).2⟩
    exact fun e he => (hev e he).1
  · exact ⟨hpos, Nat.zero_le _, rfl, fun _ => Nat.dvd_zero _, ⟨d, hfile, hlen, fun j hj => by omega⟩,
      [], by simp, fun e he => by cases he⟩

/-- The write loop when no write fails, with a buffer of 4096 bytes: it
returns without error after the writes listed by `writeEvents`, one clock
tick each, and leaves the handle at offset `size`. -/
theorem writeLoop_trace (env : Env) (pattern : Slice) (size : Nat)
    (hlen : pattern.len = 4096) (hw : ∀ n, env.fault .write n = none)
    (f : File) (w : World) (hpos : f.pos = 0) :
    ∃ f1 w1, writeLoop env pattern size (size + 1) 0 f w = some (none, f1, w1) ∧
      f1.name = f.name ∧ f1.pos = size ∧
      w1.trace = w.trace ++ writeEvents f.name size ∧
      w1.clock = w.clock + (size + 4095) / 4096 := by
  have key := writeLoop_rule env pattern size (by omega)
    (fun written f1 w1 => f1.pos = written ∧ written ≤ size ∧ f1.name = f.name ∧
      (written < size → 4096 ∣ written) ∧
      w1.trace = w.trace ++ (List.range ((written + 4095) / 4096)).map (fun k =>
        Event.write f.name (4096 * k) (min 4096 (size - 4096 * k)) true) ∧
      w1.clock = w.clock + (written + 4095) / 4096)
    (fun r f1 w1 => r = none ∧ f1.name = f.name ∧ f1.pos = size ∧
      w1.trace = w.trace ++ writeEvents f.name size ∧
      w1.clock = w.clock + (size + 4095) / 4096)
    ?_ ?_ ?_ (size + 1) 0 f w (by omega) ?_
  · obtain ⟨r, f1, w1, h1, hr, h2⟩ := key
    subst hr
    exact ⟨f1, w1, h1, h2⟩
  · rintro written f1 w1 hlt ⟨hp, hle, hn, hdiv, ht, hc⟩ _
    obtain ⟨q, hq⟩ := hdiv hlt
    have hcnt : (written + min (size - written) pattern.len + 4095) / 4096 = q + 1 := by
      rw [hlen]; omega
    have hcnt0 : (written + 4095) / 4096 = q := by omega
    refine ⟨by simp only [hp], by omega, hn, ?_, ?_, ?_⟩
    · intro hlt2
      have : min (size - written) pattern.len = 4096 := by omega
      rw [this]
      exact Nat.dvd_add ⟨q, hq⟩ (Nat.dvd_refl _)
    · simp only [ht, hcnt, hcnt0, List.range_succ, List.map_append, List.map_cons, List.map_nil,
        List.append_assoc, hn, hp]
      have h1 : 4096 * q = written := by omega
      have h2 : min (size - written) pattern.len = min 4096 (size - written) := by
        rw [hlen, Nat.min_comm]
      rw [h1, h2]
    · simp only [hc, hcnt, hcnt0]
      omega
  · rintro written f1 w1 e _ _ hf
    rw [hw] at hf
    cases hf
  · rintro written f1 w1 hge ⟨hp, hle, hn, hdiv, ht, hc⟩
    have : written = size := by omega
    subst this
    exact ⟨rfl, hn, hp, ht, hc⟩
  · exact ⟨hpos, Nat.zero_le _, rfl, fun _ => Nat.dvd_zero _, by simp, by simp⟩

/-! ## One pass -/

theorem mod_four_cases (i : Nat) : i % 4 = 0 ∨ i % 4 = 1 ∨ i % 4 = 2 ∨ i % 4 = 3 := by omega

/-- The buffer selection by cases: a random pass draws once, the three
other passes touch nothing. -/
theorem selectPattern_cases (env : Env) (i : Nat) (w : World) :
    (i % 4 = 0 ∧ selectPattern env i w = randRead env 4096 w) ∨
    (i % 4 = 1 ∧ selectPattern env i w = (.ok ⟨4096, fun _ => 0⟩, w)) ∨
    (i % 4 = 2 ∧ selectPattern env i w = (.ok ⟨4096, fun _ => 0xFF⟩, w)) ∨
    (i % 4 = 3 ∧ selectPattern env i w = (.ok ⟨4096, fun _ => 0xAA⟩, w)) := by
  unfold selectPattern
  rcases mod_four_cases i with h | h | h | h <;> rw [h] <;> simp

/-- What `selectPattern` leaves behind: the tree is untouched, a buffer has
4096 bytes, and the only possible event is the one read of the random source. -/
theorem selectPattern_world (env : Env) (i : Nat) (w : World) :
    ∃ evs, (selectPattern env i w).2.trace = w.trace ++ evs ∧
      (selectPattern env i w).2.root = w.root ∧
      (∀ e ∈ evs, e.inPass = true) ∧
      (match (selectPattern env i w).1 with
        | .ok pat => pat.len = 4096 ∧ ∀ e ∈ evs, e.ok = true
        | .error _ => evs = [.randRead false]) := by
  rcases selectPattern_cases env i w with ⟨_, h⟩ | ⟨_, h⟩ | ⟨_, h⟩ | ⟨_, h⟩
  · rw [h]
    unfold randRead
    cases hf : env.fault .rand w.clock with
    | some e =>
      refine ⟨[.randRead false], rfl, rfl, ?_, rfl⟩
      intro x hx; rw [List.mem_singleton.1 hx]; rfl
    | none =>
      refine ⟨[.randRead true], rfl, rfl, ?_, rfl, ?_⟩
      · intro x hx; rw [List.mem_singleton.1 hx]; rfl
      · intro x hx; rw [List.mem_singleton.1 hx]; rfl
  all_goals
    rw [h]
    refine ⟨[], ?_, rfl, ?_, rfl, ?_⟩
    · simp
    · intro e he; cases he
    · intro e he; cases he

/-- One pass on a file of `size` bytes, whatever fails: `performPass` returns,
the file is still there with its length, the events are the marker followed
by operations of which at most the last failed, and on success the byte at
every offset `j` is byte `j mod 4096` of the selected buffer. -/
theorem performPass_spec (env : Env) (f : File) (size i : Nat) (w : World) (d : List Nat)
    (wr : Bool) (hfile : w.tree.lookup f.name = some (.file d wr)) (hlen : d.length = size) :
    ∃ r f1 w1, performPass env f size i w = some (r, f1, w1) ∧ f1.name = f.name ∧
      (∃ d1, w1.tree.lookup f.name = some (.file d1 wr) ∧ d1.length = size ∧
        (r = none → ∃ pat w2,
          selectPattern env i ((w.log (.pass i)).step (.seek f.name true)) = (.ok pat, w2) ∧
          pat.len = 4096 ∧ ∀ j, j < size → d1[j]? = some (pat.byte (j % 4096)))) ∧
      ∃ evs, w1.trace = w.trace ++ evs ∧ Outcome r evs ∧ ∀ e ∈ evs, e.inPass = true := by
  unfold performPass File.seek
  cases hs : env.fault .seek (w.log (.pass i)).clock with
  | some e =>
    refine ⟨_, _, _, rfl, rfl, ⟨d, hfile, hlen, fun h => by cases h⟩,
      [.pass i, .seek f.name false], by simp [World.step, World.log], ?_, ?_⟩
    · exact ⟨[.pass i], _, rfl, rfl, fun x hx => by rw [List.mem_singleton.1 hx]; rfl⟩
    · intro x hx
      simp only [List.mem_cons, List.mem_singleton, List.not_mem_nil, or_false] at hx
      rcases hx with h | h <;> rw [h] <;> rfl
  | none =>
    simp only []
    obtain ⟨evs, ht, hroot, hin, hres⟩ :=
      selectPattern_world env i ((w.log (.pass i)).step (.seek f.name true))
    cases hsel : selectPattern env i ((w.log (.pass i)).step (.seek f.name true)) with
    | mk res w2 =>
      rw [hsel] at ht hroot hres
      simp only at ht hroot hres
      cases res with
      | error err =>
        simp only at hres
        subst hres
        refine ⟨_, _, _, rfl, rfl, ⟨d, ?_, hlen, fun h => by cases h⟩,
          [.pass i, .seek f.name true, .randRead false], ?_, ?_, ?_⟩
        · simp only [World.tree, hroot]; exact hfile
        · simp [ht, World.step, World.log]
        · refine ⟨[.pass i, .seek f.name true], _, rfl, rfl, ?_⟩
          intro x hx
          simp only [List.mem_cons, List.mem_singleton, List.not_mem_nil, or_false] at hx
          rcases hx with h | h <;> rw [h] <;> rfl
        · intro x hx
          simp only [List.mem_cons, List.mem_singleton, List.not_mem_nil, or_false] at hx
          rcases hx with h | h | h <;> rw [h] <;> rfl
      | ok pat =>
        simp only at hres
        obtain ⟨hpl, hok⟩ := hres
        have hfile2 : w2.tree.lookup f.name = some (.file d wr) := by
          simp only [World.tree, hroot]; exact hfile
        obtain ⟨r, f1, w1, hrun, hname, ⟨d1, hd1, hl1, hc1⟩, evs2, ht2, hout, hin2⟩ :=
          writeLoop_spec env pat size (by omega) { f with pos := 0 } w2 d wr rfl hfile2 hlen
        refine ⟨r, f1, w1, hrun, hname, ⟨d1, hd1, hl1, ?_⟩,
          [.pass i, .seek f.name true] ++ evs ++ evs2, ?_, ?_, ?_⟩
        · intro hr
          refine ⟨pat, w2, rfl, hpl, ?_⟩
          intro j hj
          rw [← hpl]
          exact hc1 hr j hj
        · simp [ht2, ht, World.step, World.log]
        · refine Outcome.none_append ?_ hout
          intro x hx
          simp only [List.cons_append, List.nil_append, List.mem_cons] at hx
          rcases hx with h | h | h
          · rw [h]; rfl
          · rw [h]; rfl
          · exact hok x h
        · intro x hx
          simp only [List.cons_append, List.nil_append, List.mem_cons, List.mem_append] at hx
          rcases hx with h | h | h | h
          · rw [h]; rfl
          · rw [h]; rfl
          · exact hin x h
          · exact hin2 x h

/-- The buffer selection when the random source does not fail. -/
theorem selectPattern_ok (env : Env) (i : Nat) (w : World)
    (hr : ∀ n, env.fault .rand n = none) :
    ∃ pat w2, selectPattern env i w = (.ok pat, w2) ∧ pat.len = 4096 ∧
      w2.trace = w.trace ++ (if i % 4 = 0 then [.randRead true] else []) := by
  rcases selectPattern_cases env i w with ⟨hi, h⟩ | ⟨hi, h⟩ | ⟨hi, h⟩ | ⟨hi, h⟩
  · rw [h]
    unfold randRead
    rw [hr]
    exact ⟨_, _, rfl, rfl, by simp [hi, World.step]⟩
  all_goals
    rw [h]
    exact ⟨_, _, rfl, rfl, by simp [hi]⟩

/-- One pass when no seek, no read of the random source and no write fails:
`performPass` returns without error and its events are `passEvents`. -/
theorem performPass_trace (env : Env) (f : File) (size i : Nat) (w : World)
    (hs : ∀ n, env.fault .seek n = none) (hr : ∀ n, env.fault .rand n = none)
    (hw : ∀ n, env.fault .write n = none) :
    ∃ f1 w1, performPass env f size i w = some (none, f1, w1) ∧ f1.name = f.name ∧
      w1.trace = w.trace ++ passEvents f.name size i := by
  unfold performPass File.seek
  rw [hs]
  simp only []
  obtain ⟨pat, w2, hsel, hpl, ht2⟩ :=
    selectPattern_ok env i ((w.log (.pass i)).step (.seek f.name true)) hr
  rw [hsel]
  simp only []
  obtain ⟨f1, w1, hrun, hn, _, ht, _⟩ :=
    writeLoop_trace env pat size hpl hw { f with pos := 0 } w2 rfl
  refine ⟨f1, w1, hrun, hn, ?_⟩
  rw [ht, ht2]
  simp [passEvents, World.step, World.log]

/-! ## The loop over the passes -/

/-- The pass loop on a file of `size` bytes, whatever fails: it returns, the
file is still there with its length, of the events at most the last failed,
and after a run without error the bytes are those of the buffer of the last
pass. -/
theorem passLoop_spec (env : Env) (size : Nat) (p : PathName) (wr : Bool) :
    ∀ (n pass : Nat) (f : File) (w : World), f.name = p →
      (∃ d, w.tree.lookup p = some (.file d wr) ∧ d.length = size) →
      ∃ r f1 w1, passLoop env size n pass f w = some (r, f1, w1) ∧ f1.name = p ∧
        (∃ d1, w1.tree.lookup p = some (.file d1 wr) ∧ d1.length = size ∧
          (r = none → 0 < n → ∃ pat w0 w2,
            selectPattern env (pass + n - 1) w0 = (.ok pat, w2) ∧ pat.len = 4096 ∧
            ∀ j, j < size → d1[j]? = some (pat.byte (j % 4096)))) ∧
        ∃ evs, w1.trace = w.trace ++ evs ∧ Outcome r evs ∧ ∀ e ∈ evs, e.inPass = true := by
  intro n
  induction n with
  | zero =>
    intro pass f w hn ⟨d, hd, hl⟩
    refine ⟨none, f, w, rfl, hn, ⟨d, hd, hl, fun _ h => by omega⟩, [], ?_, ?_, ?_⟩
    · simp
    · intro e he; cases he
    · intro e he; cases he
  | succ n ih =>
    intro pass f w hn ⟨d, hd, hl⟩
    subst hn
    obtain ⟨r, f1, w1, hrun, hn1, ⟨d1, hd1, hl1, hc1⟩, evs, ht, hout, hin⟩ :=
      performPass_spec env f size pass w d wr hd hl
    rw [passLoop, hrun]
    cases r with
    | some err =>
      exact ⟨_, f1, w1, rfl, hn1, ⟨d1, hd1, hl1, fun h => by cases h⟩, evs, ht, hout, hin⟩
    | none =>
      simp only []
      unfold File.sync
      cases hf : env.fault .sync w1.clock with
      | some e =>
        refine ⟨_, f1, _, rfl, hn1, ⟨d1, hd1, hl1, fun h => by cases h⟩,
          evs ++ [.sync f1.name false], ?_, ?_, ?_⟩
        · simp [World.step, ht]
        · exact ⟨evs, _, rfl, rfl, hout⟩
        · intro x hx
          rcases List.mem_append.1 hx with h | h
          · exact hin x h
          · rw [List.mem_singleton.1 h]; rfl
      | none =>
        simp only []
        obtain ⟨r2, f2, w2, hrun2, hn2, ⟨d2, hd2, hl2, hc2⟩, evs2, ht2, hout2, hin2⟩ :=
          ih (pass + 1) f1 (w1.step (.sync f1.name true)) hn1 ⟨d1, hd1, hl1⟩
        refine ⟨r2, f2, w2, hrun2, hn2, ⟨d2, hd2, hl2, ?_⟩,
          evs ++ [.sync f1.name true] ++ evs2, ?_, ?_, ?_⟩
        · intro hr2 _
          cases n with
          | zero =>
            simp only [passLoop, Option.some.injEq, Prod.mk.injEq] at hrun2
            obtain ⟨_, _, hw2⟩ := hrun2
            subst hw2
            have hsame : d2 = d1 := by
              have := hd2.symm.trans hd1
              simpa using this
            subst hsame
            obtain ⟨pat, wb, hsel, hpl, hc⟩ := hc1 rfl
            exact ⟨pat, _, wb, hsel, hpl, hc⟩
          | succ m =>
            have := hc2 hr2 (by omega)
            have hidx : pass + 1 + (m + 1) - 1 = pass + (m + 1 + 1) - 1 := by omega
            rw [hidx] at this
            exact this
        · rw [ht2]; simp [World.step, ht]
        · refine Outcome.none_append ?_ hout2
          intro x hx
          rcases List.mem_append.1 hx with h | h
          · exact hout x h
          · rw [List.mem_singleton.1 h]; rfl
        · intro x hx
          simp only [List.mem_append, List.mem_singleton] at hx
          rcases hx with (h | h) | h
          · exact hin x h
          · rw [h]; rfl
          · exact hin2 x h

/-- The pass loop when no seek, read of the random source, write or sync
fails: passes `pass, pass + 1, ...`, `n` of them, each followed by one sync. -/
theorem passLoop_trace (env : Env) (size : Nat) (p : PathName)
    (hs : ∀ n, env.fault .seek n = none) (hr : ∀ n, env.fault .rand n = none)
    (hw : ∀ n, env.fault .write n = none) (hy : ∀ n, env.fault .sync n = none) :
    ∀ (n pass : Nat) (f : File) (w : World), f.name = p →
      ∃ f1 w1, passLoop env size n pass f w = some (none, f1, w1) ∧ f1.name = p ∧
        w1.trace = w.trace ++
          (List.range' pass n).flatMap fun i => passEvents p size i ++ [.sync p true] := by
  intro n
  induction n with
  | zero => intro pass f w hn; exact ⟨f, w, rfl, hn, by simp⟩
  | succ n ih =>
    intro pass f w hn
    subst hn
    obtain ⟨f1, w1, hrun, hn1, ht⟩ := performPass_trace env f size pass w hs hr hw
    rw [passLoop, hrun]
    simp only []
    unfold File.sync
    rw [hy]
    simp only []
    obtain ⟨f2, w2, hrun2, hn2, ht2⟩ := ih (pass + 1) f1 (w1.step (.sync f1.name true)) hn1
    refine ⟨f2, w2, hrun2, hn2, ?_⟩
    rw [ht2]
    simp [World.step, ht, List.range'_succ, hn1]

/-! ## `overwriteFile` -/

theorem Event.inPass_not_unlink (e : Event) (h : e.inPass = true) : e.isUnlink = false := by
  cases e <;> first | rfl | cases h

/-- Go `overwriteFile` on a writable regular file, whatever fails: it
returns, the file is still there with its length, the events are the open,
then operations of which at most the last failed and none removes anything,
then the close; after a run without error the bytes are those of the buffer
of the last pass. -/
theorem overwriteFile_spec (env : Env) (p : PathName) (passes : Int) (w : World)
    (d : List Nat) (hfile : w.tree.lookup p = some (.file d true)) :
    ∃ r w1, overwriteFile env p passes w = some (r, w1) ∧
      (∃ d1, w1.tree.lookup p = some (.file d1 true) ∧ d1.length = d.length ∧
        (r = none → 0 < passes.toNat → ∃ pat w0 w2,
          selectPattern env (passes.toNat - 1) w0 = (.ok pat, w2) ∧ pat.len = 4096 ∧
          ∀ j, j < d.length → d1[j]? = some (pat.byte (j % 4096)))) ∧
      ∃ evs, w1.trace = w.trace ++ (.opened p :: evs ++ [.closed p]) ∧ Outcome r evs ∧
        ∀ e ∈ evs, e.isUnlink = false := by
  unfold overwriteFile osOpenFile
  rw [hfile]
  simp only []
  unfold File.stat
  have htree : (w.log (.opened p)).tree = w.tree := rfl
  cases hf : env.fault .fstat (w.log (.opened p)).clock with
  | some e =>
    simp only []
    refine ⟨_, _, rfl, ⟨d, hfile, rfl, fun h => by cases h⟩, [.fstat p false], ?_, ?_, ?_⟩
    · simp [File.close, World.step, World.log]
    · exact ⟨[], _, rfl, rfl, fun x hx => by cases hx⟩
    · intro x hx; rw [List.mem_singleton.1 hx]; rfl
  | none =>
    simp only [htree, hfile]
    obtain ⟨r, f1, w1, hrun, hn1, ⟨d1, hd1, hl1, hc1⟩, evs, ht, hout, hin⟩ :=
      passLoop_spec env d.length p true passes.toNat 0 ⟨p, 0⟩
        ((w.log (.opened p)).step (.fstat p true)) rfl ⟨d, hfile, rfl⟩
    rw [hrun]
    simp only []
    refine ⟨r, _, rfl, ⟨d1, hd1, hl1, ?_⟩, .fstat p true :: evs, ?_, ?_, ?_⟩
    · intro hr hp
      have := hc1 hr hp
      rw [Nat.zero_add] at this
      exact this
    · simp [File.close, World.log, ht, World.step, hn1]
    · have := @Outcome.none_append [Event.fstat p true] r evs
        (fun x hx => by rw [List.mem_singleton.1 hx]; rfl) hout
      simpa using this
    · intro x hx
      rcases List.mem_cons.1 hx with h | h
      · rw [h]; rfl
      · exact Event.inPass_not_unlink x (hin x h)

/-- Go `overwriteFile` on a writable regular file when no stat of the
handle, seek, read of the random source, write or sync fails: it returns
without error and its events are `overwriteEvents`. -/
theorem overwriteFile_trace (env : Env) (p : PathName) (passes : Int) (w : World)
    (d : List Nat) (hfile : w.tree.lookup p = some (.file d true))
    (hf : ∀ n, env.fault .fstat n = none)
    (hs : ∀ n, env.fault .seek n = none) (hr : ∀ n, env.fault .rand n = none)
    (hw : ∀ n, env.fault .write n = none) (hy : ∀ n, env.fault .sync n = none) :
    ∃ w1, overwriteFile env p passes w = some (none, w1) ∧
      w1.trace = w.trace ++ overwriteEvents p d.length passes.toNat := by
  unfold overwriteFile osOpenFile
  rw [hfile]
  simp only []
  unfold File.stat
  have htree : (w.log (.opened p)).tree = w.tree := rfl
  rw [hf]
  simp only [htree, hfile]
  obtain ⟨f1, w1, hrun, hn1, ht⟩ := passLoop_trace env d.length p hs hr hw hy passes.toNat 0
    ⟨p, 0⟩ ((w.log (.opened p)).step (.fstat p true)) rfl
  rw [hrun]
  simp only []
  refine ⟨_, rfl, ?_⟩
  simp [File.close, World.log, ht, World.step, hn1, overwriteEvents, List.range_eq_range']

/-! ## Errors of the pass loop -/

theorem writeLoop_name (env : Env) (pattern : Slice) (size : Nat) :
    ∀ (fuel written : Nat) (f : File) (w : World) (r : Option GoError) (f1 : File) (w1 : World),
      writeLoop env pattern size fuel written f w = some (r, f1, w1) → f1.name = f.name := by
  intro fuel
  induction fuel with
  | zero => intro written f w r f1 w1 h; simp [writeLoop] at h
  | succ fuel ih =>
    intro written f w r f1 w1 h
    rw [writeLoop] at h
    by_cases hlt : written < size
    · rw [if_pos hlt] at h
      simp only [] at h
      cases hf : env.fault .write w.clock with
      | some e =>
        rw [File.write_fail env f _ w e hf] at h
        simp only [Option.some.injEq, Prod.mk.injEq] at h
        rw [← h.2.1]
      | none =>
        rw [File.write_ok env f _ w hf] at h
        simp only [] at h
        have := ih _ _ _ _ _ _ h
        exact this
    · rw [if_neg hlt] at h
      simp only [Option.some.injEq, Prod.mk.injEq] at h
      rw [← h.2.1]

theorem performPass_name (env : Env) (f : File) (size i : Nat) (w : World)
    (r : Option GoError) (f1 : File) (w1 : World)
    (h : performPass env f size i w = some (r, f1, w1)) : f1.name = f.name := by
  unfold performPass File.seek at h
  cases hs : env.fault .seek (w.log (.pass i)).clock with
  | some e =>
    rw [hs] at h
    simp only [Option.some.injEq, Prod.mk.injEq] at h
    rw [← h.2.1]
  | none =>
    rw [hs] at h
    simp only [] at h
    cases hsel : selectPattern env i ((w.log (.pass i)).step (.seek f.name true)) with
    | mk res w2 =>
      rw [hsel] at h
      cases res with
      | error err =>
        simp only [Option.some.injEq, Prod.mk.injEq] at h
        rw [← h.2.1]
      | ok pat =>
        simp only [] at h
        have := writeLoop_name env pat size _ _ _ _ _ _ _ h
        exact this

/-- The error of a failed pass loop is either a wrapped error of one pass or
the bare error of a sync. -/
theorem passLoop_error (env : Env) (size : Nat) (p : PathName) :
    ∀ (n pass : Nat) (f : File) (w : World) (err : GoError) (f1 : File) (w1 : World),
      f.name = p → passLoop env size n pass f w = some (some err, f1, w1) →
      (∃ k c, err = .passFailed k c) ∨ ∃ e, err = .pathError "sync" p e := by
  intro n
  induction n with
  | zero =>
    intro pass f w err f1 w1 _ h
    simp [passLoop] at h
  | succ n ih =>
    intro pass f w err f1 w1 hn h
    rw [passLoop] at h
    cases hp : performPass env f size pass w with
    | none => rw [hp] at h; cases h
    | some res =>
      obtain ⟨r, g1, v1⟩ := res
      rw [hp] at h
      cases r with
      | some e0 =>
        simp only [Option.some.injEq, Prod.mk.injEq] at h
        exact Or.inl ⟨_, _, h.1.symm⟩
      | none =>
        simp only [] at h
        have hg : g1.name = p := (performPass_name _ _ _ _ _ _ _ _ hp).trans hn
        unfold File.sync at h
        cases hf : env.fault .sync v1.clock with
        | some e =>
          rw [hf] at h
          simp only [Option.some.injEq, Prod.mk.injEq] at h
          exact Or.inr ⟨e, by rw [← h.1, hg]⟩
        | none =>
          rw [hf] at h
          exact ih _ _ _ _ _ _ hg h

/-- The error of a failed `overwriteFile` on a writable regular file: the
stat of the handle failed (and nothing else ran), or a pass failed and its
error is wrapped, or a sync failed. -/
theorem overwriteFile_error (env : Env) (p : PathName) (passes : Int) (w w1 : World)
    (d : List Nat) (err : GoError) (hfile : w.tree.lookup p = some (.file d true))
    (h : overwriteFile env p passes w = some (some err, w1)) :
    ((∃ e, err = .pathError "stat" p e) ∧
        w1.trace = w.trace ++ [.opened p, .fstat p false, .closed p]) ∨
      (∃ k c, err = .passFailed k c) ∨ ∃ e, err = .pathError "sync" p e := by
  unfold overwriteFile osOpenFile at h
  rw [hfile] at h
  simp only [] at h
  unfold File.stat at h
  have htree : (w.log (.opened p)).tree = w.tree := rfl
  cases hf : env.fault .fstat (w.log (.opened p)).clock with
  | some e =>
    rw [hf] at h
    simp only [Option.some.injEq, Prod.mk.injEq] at h
    refine Or.inl ⟨⟨e, h.1.symm⟩, ?_⟩
    rw [← h.2]
    simp [File.close, World.step, World.log]
  | none =>
    rw [hf] at h
    simp only [htree, hfile] at h
    cases hl : passLoop env d.length passes.toNat 0 ⟨p, 0⟩
        ((w.log (.opened p)).step (.fstat p true)) with
    | none => rw [hl] at h; cases h
    | some res =>
      obtain ⟨r, f1, w3⟩ := res
      rw [hl] at h
      simp only [Option.some.injEq, Prod.mk.injEq] at h
      obtain ⟨hr, _⟩ := h
      subst hr
      exact Or.inr (passLoop_error env d.length p _ _ _ _ _ _ _ rfl hl)

/-! ## `os.Remove` and `wipeFile` -/

theorem tree_log (w : World) (e : Event) : (w.log e).tree = w.tree := rfl

theorem tree_step (w : World) (e : Event) : (w.step e).tree = w.tree := rfl

/-- Go `os.Remove` on a regular file: it fails and leaves the tree alone, or
it succeeds and the path is gone. -/
theorem osRemove_file (env : Env) (p : PathName) (w : World) (d : List Nat) (wr : Bool)
    (hfile : w.tree.lookup p = some (.file d wr)) :
    (∃ e, env.fault .remove w.clock = some e ∧
        osRemove env p w = (some (.pathError "remove" p e), w.step (.remove p false))) ∨
      (env.fault .remove w.clock = none ∧
        ∃ w1, osRemove env p w = (none, w1) ∧ w1.trace = w.trace ++ [.remove p true] ∧
          w1.tree.lookup p = none) := by
  unfold osRemove
  cases hf : env.fault .remove w.clock with
  | some e => exact Or.inl ⟨e, rfl, rfl⟩
  | none =>
    refine Or.inr ⟨rfl, ?_⟩
    cases p with
    | nil =>
      simp only [World.tree, Node.lookup, Option.some.injEq] at hfile
      cases hfile
    | cons c cs =>
      simp only [hfile]
      refine ⟨_, rfl, rfl, ?_⟩
      obtain ⟨es2, hes⟩ := Node.remove_dir true w.root (c :: cs)
      simp only [World.tree] at hes ⊢
      rw [hes]
      simp only [Node.entries]
      rw [← hes]
      exact Node.lookup_remove (c :: cs) _ (by simp)

/-- Every run of `wipeFile` without dry run on a regular file, whatever
fails: it returns, and it is one of four runs.  (1) The file cannot be opened.
(2) `overwriteFile` fails: the failing operation is the last one before the
close, nothing is unlinked, the file is still there.  (3) All passes succeed
and the unlink fails: the file is still there.  (4) Success: the path is gone
and the size is the one seen by the first stat. -/
theorem wipeFile_run (env : Env) (p : PathName) (o : WipeOptions) (w : World)
    (d : List Nat) (wr : Bool) (hfile : w.tree.lookup p = some (.file d wr))
    (hdry : o.DryRun = false) :
    ∃ r w1 evs, wipeFile env p o w = some (r, w1) ∧ w1.trace = w.trace ++ evs ∧
      ((wr = false ∧ evs = [] ∧ r = ⟨p, false, some (.pathError "open" p 13), 0⟩ ∧ w1 = w) ∨
       (wr = true ∧ ∃ err mid e0 d1, r = ⟨p, false, some err, 0⟩ ∧
          overwriteFile env p o.Passes w = some (some err, w1) ∧
          evs = .opened p :: mid ++ [e0, .closed p] ∧ e0.ok = false ∧
          (∀ x ∈ mid, x.ok = true) ∧ (∀ x ∈ mid, x.isUnlink = false) ∧ e0.isUnlink = false ∧
          w1.tree.lookup p = some (.file d1 true) ∧ d1.length = d.length ∧
          (e0 = .fstat p false ∨ (∃ k c, err = .passFailed k c) ∨
            ∃ n, err = .pathError "sync" p n)) ∨
       (wr = true ∧ ∃ n mid wo d1, r = ⟨p, false, some (.pathError "remove" p n), 0⟩ ∧
          overwriteFile env p o.Passes w = some (none, wo) ∧
          env.fault .remove wo.clock = some n ∧ w1 = wo.step (.remove p false) ∧
          evs = .opened p :: mid ++ [.closed p, .remove p false] ∧
          (∀ x ∈ mid, x.ok = true) ∧ (∀ x ∈ mid, x.isUnlink = false) ∧
          w1.tree.lookup p = some (.file d1 true) ∧ d1.length = d.length) ∨
       (wr = true ∧ ∃ mid wo, r = ⟨p, true, none, d.length⟩ ∧
          overwriteFile env p o.Passes w = some (none, wo) ∧
          env.fault .remove wo.clock = none ∧
          evs = .opened p :: mid ++ [.closed p, .remove p true] ∧
          (∀ x ∈ mid, x.ok = true) ∧ (∀ x ∈ mid, x.isUnlink = false) ∧
          w1.tree.lookup p = none)) := by
  unfold wipeFile osStat
  rw [hfile]
  simp only [Bool.false_eq_true, if_false, hdry]
  cases wr with
  | false =>
    have hov : overwriteFile env p o.Passes w = some (some (.pathError "open" p 13), w) := by
      unfold overwriteFile osOpenFile
      rw [hfile]
    rw [hov]
    exact ⟨_, _, [], rfl, by simp, Or.inl ⟨rfl, rfl, rfl, rfl⟩⟩
  | true =>
    obtain ⟨r0, wo, hov, ⟨d1, hd1, hl1, _⟩, evs0, ht0, hout, hun⟩ :=
      overwriteFile_spec env p o.Passes w d hfile
    rw [hov]
    cases r0 with
    | some err =>
      obtain ⟨pre, e0, hev, he0, hpre⟩ := hout
      subst hev
      refine ⟨_, _, .opened p :: pre ++ [e0, .closed p], rfl, ?_, Or.inr (Or.inl ⟨rfl, err, pre,
        e0, d1, rfl, rfl, rfl, he0, hpre, fun x hx => hun x (List.mem_append_left _ hx),
        hun e0 (by simp), hd1, hl1, ?_⟩)⟩
      · rw [ht0]; simp
      · rcases overwriteFile_error env p o.Passes w wo d err hfile hov with ⟨_, ht⟩ | h | h
        · left
          rw [ht0] at ht
          have h2 := List.append_cancel_left ht
          simp only [List.cons.injEq, true_and] at h2
          have h3 : (pre ++ [e0]) ++ [Event.closed p] = [Event.fstat p false] ++ [Event.closed p] := by
            simpa using h2
          have h4 := List.append_cancel_right h3
          cases pre with
          | nil => simpa using h4
          | cons a pre2 =>
            have := congrArg List.length h4
            simp at this
        · exact Or.inr (Or.inl h)
        · exact Or.inr (Or.inr h)
    | none =>
      simp only []
      rcases osRemove_file env p wo d1 true hd1 with ⟨n, hn, hrm⟩ | ⟨hn, w2, hrm, ht2, hgone⟩
      · rw [hrm]
        refine ⟨_, _, .opened p :: evs0 ++ [.closed p, .remove p false], rfl, ?_,
          Or.inr (Or.inr (Or.inl ⟨trivial, n, evs0, wo, d1, rfl, rfl, hn, rfl, rfl, hout, hun, hd1, hl1⟩))⟩
        simp [World.step, ht0]
      · rw [hrm]
        refine ⟨_, _, .opened p :: evs0 ++ [.closed p, .remove p true], rfl, ?_,
          Or.inr (Or.inr (Or.inr ⟨trivial, evs0, wo, rfl, rfl, hn, rfl, hout, hun, hgone⟩))⟩
        simp [ht2, ht0]

/-! ## The claims about `wipeFile` -/

theorem split_unique {pre post A B : List Event} {e e0 : Event}
    (hA : ∀ x ∈ A, x.ok = true) (hB : ∀ x ∈ B, x.ok = true) (he : e.ok = false)
    (h : pre ++ e :: post = A ++ e0 :: B) : pre = A ∧ e = e0 ∧ post = B := by
  induction pre generalizing A with
  | nil =>
    cases A with
    | nil =>
      simp only [List.nil_append, List.cons.injEq] at h
      exact ⟨rfl, h.1, h.2⟩
    | cons a A2 =>
      simp only [List.nil_append, List.cons_append, List.cons.injEq] at h
      have := hA a (List.mem_cons_self _ _)
      rw [← h.1, he] at this
      cases this
  | cons x pre2 ih =>
    cases A with
    | nil =>
      simp only [List.nil_append, List.cons_append, List.cons.injEq] at h
      have hmem : e ∈ B := by rw [← h.2]; simp
      have := hB e hmem
      rw [he] at this
      cases this
    | cons a A2 =>
      simp only [List.cons_append, List.cons.injEq] at h
      obtain ⟨h1, h2, h3⟩ := ih (fun y hy => hA y (List.mem_cons_of_mem _ hy)) h.2
      exact ⟨by rw [h.1, h1], h2, h3⟩

theorem Event.failedPassOp_not_ok (e : Event) (h : e.isFailedPassOp = true) :
    e.ok = false ∧ e.isUnlink = false := by
  cases e with
  | seek q ok => cases ok <;> first | exact ⟨rfl, rfl⟩ | cases h
  | write q off n ok => cases ok <;> first | exact ⟨rfl, rfl⟩ | cases h
  | sync q ok => cases ok <;> first | exact ⟨rfl, rfl⟩ | cases h
  | _ => cases h

/-- C1 (as stated, refuted): on a writable three-byte file, with three
passes and no dry run, every seek, write, sync and unlink succeeds, and yet
`wipeFile` reports a failure and leaves the file in place: once because the
read of the random source fails in pass 0, once because the stat of the open
handle fails. -/
theorem wipeFile_success_cex :
    (∀ n, (failing .rand 5).fault .seek n = none ∧ (failing .rand 5).fault .write n = none ∧
      (failing .rand 5).fault .sync n = none ∧ (failing .rand 5).fault .remove n = none) ∧
    (∀ n, (failing .fstat 5).fault .seek n = none ∧ (failing .fstat 5).fault .write n = none ∧
      (failing .fstat 5).fault .sync n = none ∧ (failing .fstat 5).fault .remove n = none) ∧
    (osStat oneFile ["f"] = .ok ⟨false, 3⟩) ∧
    (osOpenFile oneFile ["f"]).1 = .ok ⟨["f"], 0⟩ ∧
    (wipeFile (failing .rand 5) ["f"] threePasses oneFile).map Prod.fst
      = some ⟨["f"], false, some (.passFailed 1 (.randError 5)), 0⟩ ∧
    (wipeFile (failing .rand 5) ["f"] threePasses oneFile).map
      (fun x => osStat x.2 ["f"]) = some (.ok ⟨false, 3⟩) ∧
    (wipeFile (failing .fstat 5) ["f"] threePasses oneFile).map Prod.fst
      = some ⟨["f"], false, some (.pathError "stat" ["f"] 5), 0⟩ ∧
    (wipeFile (failing .fstat 5) ["f"] threePasses oneFile).map
      (fun x => osStat x.2 ["f"]) = some (.ok ⟨false, 3⟩) := by
  refine ⟨fun n => ⟨rfl, rfl, rfl, rfl⟩, fun n => ⟨rfl, rfl, rfl, rfl⟩, rfl, rfl, ?_, ?_, ?_, ?_⟩ <;>
    rfl

/-- C1 (amended): on a regular file that can be opened for writing, without
dry run, if the stat of the open handle, every seek, every read of the random
source, every write, every sync and the unlink succeed, `wipeFile` returns
exactly path, success, no error and the size seen before any overwrite, and
the path does not exist afterwards. -/
theorem wipeFile_success (env : Env) (p : PathName) (o : WipeOptions) (w : World)
    (d : List Nat) (hfile : w.tree.lookup p = some (.file d true)) (hdry : o.DryRun = false)
    (hf : ∀ n, env.fault .fstat n = none) (hs : ∀ n, env.fault .seek n = none)
    (hr : ∀ n, env.fault .rand n = none) (hw : ∀ n, env.fault .write n = none)
    (hy : ∀ n, env.fault .sync n = none) (hu : ∀ n, env.fault .remove n = none) :
    ∃ w1, wipeFile env p o w = some (⟨p, true, none, d.length⟩, w1) ∧
      w1.tree.lookup p = none ∧ osStat w1 p = .error (.pathError "stat" p 2) := by
  obtain ⟨wo, hov, _⟩ := overwriteFile_trace env p o.Passes w d hfile hf hs hr hw hy
  obtain ⟨r, w1, evs, hrun, _, h | ⟨_, err, _, _, _, _, h, _⟩ | ⟨_, n, _, wo2, _, _, _, h, _⟩ |
    ⟨_, mid, wo2, hr2, _, _, _, _, _, hgone⟩⟩ := wipeFile_run env p o w d true hfile hdry
  · exact absurd h.1 (by simp)
  · rw [hov] at h; cases h
  · rw [hu] at h; cases h
  · subst hr2
    refine ⟨w1, hrun, hgone, ?_⟩
    unfold osStat
    rw [hgone]

/-- C1, witness: the three-byte file in the calm environment. -/
theorem wipeFile_success_witness :
    ∃ w1, wipeFile calmEnv ["f"] threePasses oneFile = some (⟨["f"], true, none, 3⟩, w1) ∧
      w1.tree.lookup ["f"] = none ∧ osStat w1 ["f"] = .error (.pathError "stat" ["f"] 2) :=
  wipeFile_success calmEnv ["f"] threePasses oneFile [1, 2, 3] rfl rfl
    (fun _ => rfl) (fun _ => rfl) (fun _ => rfl) (fun _ => rfl) (fun _ => rfl) (fun _ => rfl)

/-! ## The claims about `performPass` -/

/-- C3: after a successful `performPass` on a file of `size` bytes, from any
position of the handle and for any pass index `i`, the file still has `size`
bytes and the byte at every offset `j < size` is byte `j mod 4096` of the
buffer selected for `i`: 0x00, 0xFF, 0xAA for `i mod 4` = 1, 2, 3, and for a
random pass byte `j mod 4096` of the one draw made in this pass. -/
theorem performPass_overwrites (env : Env) (f f1 : File) (size i : Nat) (w w1 : World)
    (d : List Nat) (wr : Bool) (hfile : w.tree.lookup f.name = some (.file d wr))
    (hlen : d.length = size) (hrun : performPass env f size i w = some (none, f1, w1)) :
    ∃ d1, w1.tree.lookup f.name = some (.file d1 wr) ∧ d1.length = size ∧
      (∃ pat w2, selectPattern env i ((w.log (.pass i)).step (.seek f.name true)) = (.ok pat, w2) ∧
        pat.len = 4096 ∧ ∀ j, j < size → d1[j]? = some (pat.byte (j % 4096))) ∧
      (i % 4 = 1 → ∀ j, j < size → d1[j]? = some 0x00) ∧
      (i % 4 = 2 → ∀ j, j < size → d1[j]? = some 0xFF) ∧
      (i % 4 = 3 → ∀ j, j < size → d1[j]? = some 0xAA) ∧
      (i % 4 = 0 → ∀ j, j < size →
        d1[j]? = some (env.random (w.clock + 1) (j % 4096) % 256)) := by
  obtain ⟨r, f2, w2, hrun2, _, ⟨d1, hd1, hl1, hc1⟩, _⟩ :=
    performPass_spec env f size i w d wr hfile hlen
  rw [hrun] at hrun2
  simp only [Option.some.injEq, Prod.mk.injEq] at hrun2
  obtain ⟨hr, _, hw⟩ := hrun2
  subst hr hw
  obtain ⟨pat, w3, hsel, hpl, hc⟩ := hc1 rfl
  refine ⟨d1, hd1, hl1, ⟨pat, w3, hsel, hpl, hc⟩, ?_, ?_, ?_, ?_⟩
  · intro hi j hj
    rcases selectPattern_cases env i ((w.log (.pass i)).step (.seek f.name true))
      with ⟨h0, _⟩ | ⟨_, h⟩ | ⟨h0, _⟩ | ⟨h0, _⟩ <;> try omega
    rw [h] at hsel
    simp only [Prod.mk.injEq, Except.ok.injEq] at hsel
    rw [hc j hj, ← hsel.1]
  · intro hi j hj
    rcases selectPattern_cases env i ((w.log (.pass i)).step (.seek f.name true))
      with ⟨h0, _⟩ | ⟨h0, _⟩ | ⟨_, h⟩ | ⟨h0, _⟩ <;> try omega
    rw [h] at hsel
    simp only [Prod.mk.injEq, Except.ok.injEq] at hsel
    rw [hc j hj, ← hsel.1]
  · intro hi j hj
    rcases selectPattern_cases env i ((w.log (.pass i)).step (.seek f.name true))
      with ⟨h0, _⟩ | ⟨h0, _⟩ | ⟨h0, _⟩ | ⟨_, h⟩ <;> try omega
    rw [h] at hsel
    simp only [Prod.mk.injEq, Except.ok.injEq] at hsel
    rw [hc j hj, ← hsel.1]
  · intro hi j hj
    rcases selectPattern_cases env i ((w.log (.pass i)).step (.seek f.name true))
      with ⟨_, h⟩ | ⟨h0, _⟩ | ⟨h0, _⟩ | ⟨h0, _⟩ <;> try omega
    rw [h] at hsel
    unfold randRead at hsel
    cases hf : env.fault .rand ((w.log (.pass i)).step (.seek f.name true)).clock with
    | some e => rw [hf] at hsel; simp at hsel
    | none =>
      rw [hf] at hsel
      simp only [Prod.mk.injEq, Except.ok.injEq] at hsel
      rw [hc j hj, ← hsel.1]
      rfl

/-- C3, witness: pass 1 (all zeros) on the three-byte file, with the handle
at offset 2 before the pass. -/
theorem performPass_overwrites_witness :
    performPass calmEnv ⟨["f"], 2⟩ 3 1 oneFile
      = some (none, ⟨["f"], 3⟩, ⟨[("f", .file [0, 0, 0] true)], 2,
          [.pass 1, .seek ["f"] true, .write ["f"] 0 3 true]⟩) ∧
    ∃ d1, (World.mk [("f", .file [0, 0, 0] true)] 2
        [.pass 1, .seek ["f"] true, .write ["f"] 0 3 true]).tree.lookup ["f"]
          = some (.file d1 true) ∧ d1.length = 3 ∧ ∀ j, j < 3 → d1[j]? = some 0x00 := by
  refine ⟨rfl, ?_⟩
  obtain ⟨d1, h1, h2, _, h3, _⟩ := performPass_overwrites calmEnv ⟨["f"], 2⟩ ⟨["f"], 3⟩ 3 1
    oneFile ⟨[("f", .file [0, 0, 0] true)], 2, [.pass 1, .seek ["f"] true, .write ["f"] 0 3 true]⟩
    [1, 2, 3] true rfl rfl rfl
  exact ⟨d1, h1, h2, h3 rfl⟩

/-- C4: the buffer of a pass has exactly 4096 bytes and depends on the pass
index only through `i mod 4`: remainder 0 is one read of 4096 bytes from the
random source (the draw of the current clock tick), remainders 1, 2, 3 are
all 0x00, all 0xFF, all 0xAA and read nothing; so passes `i` and `i + 4` select
alike, and five passes select random, zero, 0xFF, 0xAA, random. -/
theorem selectPattern_cycle (env : Env) (i : Nat) (w : World) :
    (i % 4 = 0 → selectPattern env i w = randRead env 4096 w) ∧
    (i % 4 = 1 → selectPattern env i w = (.ok ⟨4096, fun _ => 0x00⟩, w)) ∧
    (i % 4 = 2 → selectPattern env i w = (.ok ⟨4096, fun _ => 0xFF⟩, w)) ∧
    (i % 4 = 3 → selectPattern env i w = (.ok ⟨4096, fun _ => 0xAA⟩, w)) ∧
    (env.fault .rand w.clock = none → randRead env 4096 w
      = (.ok ⟨4096, fun j => env.random w.clock j % 256⟩, w.step (.randRead true))) ∧
    (∀ e, env.fault .rand w.clock = some e → randRead env 4096 w
      = (.error (.randError e), w.step (.randRead false))) ∧
    (∀ pat w2, selectPattern env i w = (.ok pat, w2) → pat.len = 4096) ∧
    (∀ k, k % 4 = i % 4 → selectPattern env k w = selectPattern env i w) ∧
    selectPattern env (i + 4) w = selectPattern env i w ∧
    selectPattern env 0 w = randRead env 4096 w ∧
    selectPattern env 1 w = (.ok ⟨4096, fun _ => 0x00⟩, w) ∧
    selectPattern env 2 w = (.ok ⟨4096, fun _ => 0xFF⟩, w) ∧
    selectPattern env 3 w = (.ok ⟨4096, fun _ => 0xAA⟩, w) ∧
    selectPattern env 4 w = randRead env 4096 w := by
  have hmod : ∀ k, k % 4 = i % 4 → selectPattern env k w = selectPattern env i w := by
    intro k hk
    unfold selectPattern
    rw [hk]
  refine ⟨?_, ?_, ?_, ?_, ?_, ?_, ?_, hmod, hmod (i + 4) (by omega), rfl, rfl, rfl, rfl, rfl⟩
  · intro h; unfold selectPattern; rw [h]
  · intro h; unfold selectPattern; rw [h]
  · intro h; unfold selectPattern; rw [h]
  · intro h; unfold selectPattern; rw [h]
  · intro h; unfold randRead; rw [h]
  · intro e h; unfold randRead; rw [h]
  · intro pat w2 h
    obtain ⟨evs, _, _, _, hres⟩ := selectPattern_world env i w
    rw [h] at hres
    exact hres.1

/-! ## The claims about the two loops -/

theorem writeEvents_filter (p : PathName) (size : Nat) :
    (writeEvents p size).filter Event.isPassOrSync = [] := by
  rw [List.filter_eq_nil_iff]
  intro e he
  simp only [writeEvents, List.mem_map] at he
  obtain ⟨k, _, hk⟩ := he
  rw [← hk]
  simp [Event.isPassOrSync]

theorem passEvents_filter (p : PathName) (size i : Nat) :
    (passEvents p size i ++ [Event.sync p true]).filter Event.isPassOrSync
      = [Event.pass i, Event.sync p true] := by
  unfold passEvents
  rw [List.filter_append, List.filter_append, List.filter_append, writeEvents_filter]
  by_cases h : i % 4 = 0 <;> simp [h, Event.isPassOrSync, List.filter]

theorem passes_filter (p : PathName) (size : Nat) (n : Nat) :
    ((List.range n).flatMap fun i => passEvents p size i ++ [Event.sync p true]).filter
        Event.isPassOrSync
      = (List.range n).flatMap fun i => [Event.pass i, Event.sync p true] := by
  induction n with
  | zero => rfl
  | succ n ih =>
    rw [List.range_succ, List.flatMap_append, List.flatMap_append, List.filter_append, ih]
    simp only [List.flatMap_cons, List.flatMap_nil, List.append_nil]
    rw [passEvents_filter]

/-- C5: `overwriteFile` with `N` passes on a writable regular file, when no
operation fails, returns without error after exactly the events
`overwriteEvents`: open, stat, then for `i = 0, 1, ..., N - 1` in this order
the events of pass `i` followed by one sync, then close.  Reduced to pass
markers and syncs the run reads pass 0, sync, pass 1, sync, ..., pass `N - 1`,
sync. -/
theorem overwriteFile_passes (env : Env) (p : PathName) (N : Nat) (w : World) (d : List Nat)
    (hfile : w.tree.lookup p = some (.file d true))
    (hf : ∀ n, env.fault .fstat n = none) (hs : ∀ n, env.fault .seek n = none)
    (hr : ∀ n, env.fault .rand n = none) (hw : ∀ n, env.fault .write n = none)
    (hy : ∀ n, env.fault .sync n = none) :
    ∃ w1, overwriteFile env p (N : Int) w = some (none, w1) ∧
      w1.trace = w.trace ++ overwriteEvents p d.length N ∧
      overwriteEvents p d.length N = [Event.opened p, Event.fstat p true] ++
        ((List.range N).flatMap fun i => passEvents p d.length i ++ [Event.sync p true]) ++
        [Event.closed p] ∧
      (overwriteEvents p d.length N).filter Event.isPassOrSync
        = (List.range N).flatMap fun i => [Event.pass i, Event.sync p true] := by
  obtain ⟨w1, hrun, ht⟩ := overwriteFile_trace env p (N : Int) w d hfile hf hs hr hw hy
  rw [Int.toNat_ofNat] at ht
  refine ⟨w1, hrun, ht, rfl, ?_⟩
  unfold overwriteEvents
  rw [List.filter_append, List.filter_append, passes_filter]
  simp [List.filter, Event.isPassOrSync]

/-- C5, witness: two passes on the three-byte file. -/
theorem overwriteFile_passes_witness :
    ∃ w1, overwriteFile calmEnv ["f"] ((2 : Nat) : Int) oneFile = some (none, w1) ∧
      w1.trace = oneFile.trace ++ overwriteEvents ["f"] [1, 2, 3].length 2 ∧
      overwriteEvents ["f"] [1, 2, 3].length 2 = [Event.opened ["f"], Event.fstat ["f"] true] ++
        ((List.range 2).flatMap fun i =>
          passEvents ["f"] [1, 2, 3].length i ++ [Event.sync ["f"] true]) ++ [Event.closed ["f"]] ∧
      (overwriteEvents ["f"] [1, 2, 3].length 2).filter Event.isPassOrSync
        = (List.range 2).flatMap fun i => [Event.pass i, Event.sync ["f"] true] :=
  overwriteFile_passes calmEnv ["f"] 2 oneFile [1, 2, 3] rfl
    (fun _ => rfl) (fun _ => rfl) (fun _ => rfl) (fun _ => rfl) (fun _ => rfl)

theorem passLoop_split (env : Env) (size : Nat) :
    ∀ (k m pass : Nat) (f : File) (w : World),
      passLoop env size (k + m) pass f w =
        match passLoop env size k pass f w with
        | some (none, f1, w1) => passLoop env size m (pass + k) f1 w1
        | other => other := by
  intro k
  induction k with
  | zero => intro m pass f w; simp [passLoop]
  | succ k ih =>
    intro m pass f w
    have hk : k + 1 + m = (k + m) + 1 := by omega
    rw [hk, passLoop, passLoop]
    cases hp : performPass env f size pass w with
    | none => rfl
    | some res =>
      obtain ⟨r, f1, w1⟩ := res
      cases r with
      | some err => rfl
      | none =>
        simp only []
        cases hsy : File.sync env f1 w1 with
        | mk r2 w2 =>
          cases r2 with
          | some err => rfl
          | none =>
            simp only []
            rw [ih m (pass + 1) f1 w2]
            have hidx : pass + 1 + k = pass + (k + 1) := by omega
            rw [hidx]

/-- C6: a pass never changes the length of the file.  On a file of `size`
bytes one `performPass` returns and leaves a file of `size` bytes; so does the
loop of `overwriteFile` after any number `k` of passes, and the run with
`k + m` passes continues the run with `k` passes, so the file has `size` bytes
after each pass of a longer run. -/
theorem pass_preserves_length (env : Env) (f : File) (size i : Nat) (w : World)
    (d : List Nat) (wr : Bool) (hfile : w.tree.lookup f.name = some (.file d wr))
    (hlen : d.length = size) :
    (∃ r f1 w1, performPass env f size i w = some (r, f1, w1) ∧
      ∃ d1, w1.tree.lookup f.name = some (.file d1 wr) ∧ d1.length = size) ∧
    (∀ k, ∃ r f1 w1, passLoop env size k 0 f w = some (r, f1, w1) ∧
      ∃ d1, w1.tree.lookup f.name = some (.file d1 wr) ∧ d1.length = size) ∧
    (∀ k m, passLoop env size (k + m) 0 f w =
      match passLoop env size k 0 f w with
      | some (none, f1, w1) => passLoop env size m k f1 w1
      | other => other) := by
  refine ⟨?_, ?_, ?_⟩
  · obtain ⟨r, f1, w1, hrun, _, ⟨d1, hd1, hl1, _⟩, _⟩ :=
      performPass_spec env f size i w d wr hfile hlen
    exact ⟨r, f1, w1, hrun, d1, hd1, hl1⟩
  · intro k
    obtain ⟨r, f1, w1, hrun, _, ⟨d1, hd1, hl1, _⟩, _⟩ :=
      passLoop_spec env size f.name wr k 0 f w rfl ⟨d, hfile, hlen⟩
    exact ⟨r, f1, w1, hrun, d1, hd1, hl1⟩
  · intro k m
    have := passLoop_split env size k m 0 f w
    rw [Nat.zero_add] at this
    exact this

/-- C6, witness: the three-byte file. -/
theorem pass_preserves_length_witness :
    (∃ r f1 w1, performPass calmEnv ⟨["f"], 0⟩ 3 0 oneFile = some (r, f1, w1) ∧
      ∃ d1, w1.tree.lookup ["f"] = some (.file d1 true) ∧ d1.length = 3) ∧
    (∀ k, ∃ r f1 w1, passLoop calmEnv 3 k 0 ⟨["f"], 0⟩ oneFile = some (r, f1, w1) ∧
      ∃ d1, w1.tree.lookup ["f"] = some (.file d1 true) ∧ d1.length = 3) ∧
    (∀ k m, passLoop calmEnv 3 (k + m) 0 ⟨["f"], 0⟩ oneFile =
      match passLoop calmEnv 3 k 0 ⟨["f"], 0⟩ oneFile with
      | some (none, f1, w1) => passLoop calmEnv 3 m k f1 w1
      | other => other) :=
  pass_preserves_length calmEnv ⟨["f"], 0⟩ 3 0 oneFile [1, 2, 3] true rfl rfl

theorem chunk_sum (size : Nat) : ∀ c,
    ((List.range c).map fun k => min 4096 (size - 4096 * k)).sum = min size (4096 * c) := by
  intro c
  induction c with
  | zero => simp
  | succ c ih =>
    rw [List.range_succ, List.map_append, List.sum_append, ih]
    simp only [List.map_cons, List.map_nil, List.sum_cons, List.sum_nil]
    omega

/-- C7: with a buffer of 4096 bytes and the handle at offset 0, when no write
fails, the write loop of `performPass` on `size` bytes returns (within the
fuel that `performPass` gives it) after exactly `ceil(size / 4096)` writes,
write `k` starting at offset `4096 * k`: each of the first `size / 4096` writes
has 4096 bytes, a last write of `size - 4096 * (size / 4096)` bytes follows when
that remainder is not zero, the bytes add up to `size`, no write goes past
offset `size`, and for `size = 0` there is no write. -/
theorem writeLoop_writes (env : Env) (pattern : Slice) (size : Nat) (f : File) (w : World)
    (hlen : pattern.len = 4096) (hw : ∀ n, env.fault .write n = none) (hpos : f.pos = 0) :
    ∃ f1 w1, writeLoop env pattern size (size + 1) 0 f w = some (none, f1, w1) ∧
      w1.trace = w.trace ++ writeEvents f.name size ∧
      w1.clock = w.clock + (size + 4095) / 4096 ∧
      (writeEvents f.name size).length = (size + 4095) / 4096 ∧
      (∀ k, k < size / 4096 →
        (writeEvents f.name size)[k]? = some (Event.write f.name (4096 * k) 4096 true)) ∧
      (size % 4096 ≠ 0 → (writeEvents f.name size)[size / 4096]? =
        some (Event.write f.name (4096 * (size / 4096)) (size - 4096 * (size / 4096)) true)) ∧
      ((writeEvents f.name size).map Event.bytes).sum = size ∧
      (∀ q off n ok, Event.write q off n ok ∈ writeEvents f.name size → off + n ≤ size) ∧
      (size = 0 → writeEvents f.name size = []) := by
  obtain ⟨f1, w1, hrun, _, _, ht, hc⟩ := writeLoop_trace env pattern size hlen hw f w hpos
  refine ⟨f1, w1, hrun, ht, hc, ?_, ?_, ?_, ?_, ?_, ?_⟩
  · simp [writeEvents]
  · intro k hk
    have hk2 : k < (size + 4095) / 4096 := by omega
    simp only [writeEvents, List.getElem?_map, List.getElem?_range hk2, Option.map_some']
    have : min 4096 (size - 4096 * k) = 4096 := by omega
    rw [this]
  · intro hrem
    have hk2 : size / 4096 < (size + 4095) / 4096 := by omega
    simp only [writeEvents, List.getElem?_map, List.getElem?_range hk2, Option.map_some']
    have : min 4096 (size - 4096 * (size / 4096)) = size - 4096 * (size / 4096) := by omega
    rw [this]
  · have : (writeEvents f.name size).map Event.bytes
        = (List.range ((size + 4095) / 4096)).map fun k => min 4096 (size - 4096 * k) := by
      simp [writeEvents, Event.bytes, Function.comp_def]
    rw [this, chunk_sum]
    omega
  · intro q off n ok hmem
    simp only [writeEvents, List.mem_map, List.mem_range] at hmem
    obtain ⟨k, hk, heq⟩ := hmem
    simp only [Event.write.injEq] at heq
    obtain ⟨_, h1, h2, _⟩ := heq
    omega
  · intro h0
    subst h0
    rfl

/-- C7, witness: 5000 bytes take two writes, of 4096 and of 904 bytes. -/
theorem writeLoop_writes_witness :
    ∃ f1 w1, writeLoop calmEnv ⟨4096, fun _ => 0⟩ 5000 (5000 + 1) 0 ⟨["f"], 0⟩ oneFile
        = some (none, f1, w1) ∧
      w1.trace = oneFile.trace ++ writeEvents ["f"] 5000 ∧
      w1.clock = oneFile.clock + (5000 + 4095) / 4096 ∧
      (writeEvents ["f"] 5000).length = (5000 + 4095) / 4096 ∧
      (∀ k, k < 5000 / 4096 →
        (writeEvents ["f"] 5000)[k]? = some (Event.write ["f"] (4096 * k) 4096 true)) ∧
      (5000 % 4096 ≠ 0 → (writeEvents ["f"] 5000)[5000 / 4096]? =
        some (Event.write ["f"] (4096 * (5000 / 4096)) (5000 - 4096 * (5000 / 4096)) true)) ∧
      ((writeEvents ["f"] 5000).map Event.bytes).sum = 5000 ∧
      (∀ q off n ok, Event.write q off n ok ∈ writeEvents ["f"] 5000 → off + n ≤ 5000) ∧
      (5000 = 0 → writeEvents ["f"] 5000 = []) :=
  writeLoop_writes calmEnv ⟨4096, fun _ => 0⟩ 5000 ⟨["f"], 0⟩ oneFile rfl (fun _ => rfl) rfl

/-! ## Deletion failure -/

/-- C8: on a regular file, without dry run, when `overwriteFile` returns
without error (every pass and every sync succeeded) and the unlink then
fails, `wipeFile` returns `Success = false` with the error of the unlink and
size 0.  The file is still there, with its length, and after at least one
pass its bytes are those of the buffer of the last pass. -/
theorem wipeFile_unlink_failure (env : Env) (p : PathName) (o : WipeOptions) (w wo : World)
    (d : List Nat) (wr : Bool) (err : GoError)
    (hfile : w.tree.lookup p = some (.file d wr)) (hdry : o.DryRun = false)
    (hov : overwriteFile env p o.Passes w = some (none, wo))
    (hun : (osRemove env p wo).1 = some err) :
    wipeFile env p o w = some (⟨p, false, some err, 0⟩, wo.step (.remove p false)) ∧
      (∃ n, err = .pathError "remove" p n) ∧
      ∃ d1, (wo.step (.remove p false)).tree.lookup p = some (.file d1 wr) ∧
        d1.length = d.length ∧
        (0 < o.Passes.toNat → ∃ pat w0 w2,
          selectPattern env (o.Passes.toNat - 1) w0 = (.ok pat, w2) ∧ pat.len = 4096 ∧
          ∀ j, j < d.length → d1[j]? = some (pat.byte (j % 4096))) := by
  cases wr with
  | false =>
    unfold overwriteFile osOpenFile at hov
    rw [hfile] at hov
    simp at hov
  | true =>
    obtain ⟨r0, w1, hov2, ⟨d1, hd1, hl1, hc1⟩, _⟩ := overwriteFile_spec env p o.Passes w d hfile
    rw [hov] at hov2
    simp only [Option.some.injEq, Prod.mk.injEq] at hov2
    obtain ⟨hr, hw⟩ := hov2
    subst hr hw
    rcases osRemove_file env p wo d1 true hd1 with ⟨n, _, hrm⟩ | ⟨_, w2, hrm, _⟩
    · rw [hrm] at hun
      simp only [Option.some.injEq] at hun
      subst hun
      refine ⟨?_, ⟨n, rfl⟩, d1, hd1, hl1, hc1 rfl⟩
      unfold wipeFile osStat
      rw [hfile]
      simp only [Bool.false_eq_true, if_false, hdry, hov, hrm]
    · rw [hrm] at hun
      cases hun

/-- C8, witness: one pass on the three-byte file when every unlink fails. -/
theorem wipeFile_unlink_failure_witness :
    wipeFile (failing .remove 5) ["f"] onePass oneFile
      = some (⟨["f"], false, some (.pathError "remove" ["f"] 5), 0⟩,
          (World.mk [("f", .file [0, 1, 2] true)] 5
            [.opened ["f"], .fstat ["f"] true, .pass 0, .seek ["f"] true, .randRead true,
              .write ["f"] 0 3 true, .sync ["f"] true, .closed ["f"]]).step
            (.remove ["f"] false)) :=
  (wipeFile_unlink_failure (failing .remove 5) ["f"] onePass oneFile
    ⟨[("f", .file [0, 1, 2] true)], 5,
      [.opened ["f"], .fstat ["f"] true, .pass 0, .seek ["f"] true, .randRead true,
        .write ["f"] 0 3 true, .sync ["f"] true, .closed ["f"]]⟩
    [1, 2, 3] true (.pathError "remove" ["f"] 5) rfl rfl rfl rfl).1

/-- C9: for one path, the result of a deletion failure (the run contains a
failed unlink) is never equal to the result of a pass failure (the run
contains a failed seek, write or sync).  The first carries the path error of
`remove`; the second carries a wrapped `pass N failed` error or the path error
of `sync`. -/
theorem deletion_failure_distinct (envA envB : Env) (p : PathName) (oA oB : WipeOptions)
    (wA wB wA1 wB1 : World) (dA dB : List Nat) (wrA wrB : Bool) (rA rB : WipeResult) (e : Event)
    (hfA : wA.tree.lookup p = some (.file dA wrA)) (hdA : oA.DryRun = false)
    (hrunA : wipeFile envA p oA wA = some (rA, wA1))
    (hA : ∃ evs, wA1.trace = wA.trace ++ evs ∧ Event.remove p false ∈ evs)
    (hfB : wB.tree.lookup p = some (.file dB wrB)) (hdB : oB.DryRun = false)
    (hrunB : wipeFile envB p oB wB = some (rB, wB1))
    (hB : ∃ evs, wB1.trace = wB.trace ++ evs ∧ e ∈ evs) (he : e.isFailedPassOp = true) :
    rA ≠ rB ∧ (∃ n, rA = ⟨p, false, some (.pathError "remove" p n), 0⟩) ∧
      ∃ err, rB = ⟨p, false, some err, 0⟩ ∧
        ((∃ k c, err = .passFailed k c) ∨ ∃ n, err = .pathError "sync" p n) := by
  obtain ⟨hnok, hnun⟩ := Event.failedPassOp_not_ok e he
  -- the run with the deletion failure
  have hRA : ∃ n, rA = ⟨p, false, some (.pathError "remove" p n), 0⟩ := by
    obtain ⟨r2, w2, evs, hrun2, ht, hcase⟩ := wipeFile_run envA p oA wA dA wrA hfA hdA
    rw [hrunA] at hrun2
    simp only [Option.some.injEq, Prod.mk.injEq] at hrun2
    obtain ⟨hr, hw⟩ := hrun2
    subst hr hw
    obtain ⟨evsA, htA, hmem⟩ := hA
    rw [htA] at ht
    have hevs := List.append_cancel_left ht
    subst hevs
    rcases hcase with ⟨_, h, _⟩ | ⟨_, err, mid, e0, d1, _, _, h, he0, hmid, hmidun, he0un, _⟩ |
      ⟨_, n, mid, wo, d1, hr, _⟩ | ⟨_, mid, wo, _, _, _, h, hmid, _⟩
    · rw [h] at hmem; cases hmem
    · rw [h] at hmem
      simp only [List.cons_append, List.mem_cons, List.mem_append, List.mem_singleton,
        List.not_mem_nil, or_false, reduceCtorEq, false_or] at hmem
      rcases hmem with hx | hx
      · have := hmidun _ hx
        cases this
      · rw [← hx] at he0un
        cases he0un
    · exact ⟨n, hr⟩
    · rw [h] at hmem
      simp only [List.cons_append, List.mem_cons, List.mem_append, List.mem_singleton,
        List.not_mem_nil, or_false, reduceCtorEq, false_or] at hmem
      rcases hmem with hx | hx
      · have := hmid _ hx
        cases this
      · simp at hx
  -- the run with the pass failure
  have hRB : ∃ err, rB = ⟨p, false, some err, 0⟩ ∧
      ((∃ k c, err = .passFailed k c) ∨ ∃ n, err = .pathError "sync" p n) := by
    obtain ⟨r2, w2, evs, hrun2, ht, hcase⟩ := wipeFile_run envB p oB wB dB wrB hfB hdB
    rw [hrunB] at hrun2
    simp only [Option.some.injEq, Prod.mk.injEq] at hrun2
    obtain ⟨hr, hw⟩ := hrun2
    subst hr hw
    obtain ⟨evsB, htB, hmem⟩ := hB
    rw [htB] at ht
    have hevs := List.append_cancel_left ht
    subst hevs
    rcases hcase with ⟨_, h, _⟩ | ⟨_, err, mid, e0, d1, hr, _, h, he0, hmid, _, _, _, _, hshape⟩ |
      ⟨_, n, mid, wo, d1, _, _, _, _, h, hmid, _⟩ | ⟨_, mid, wo, _, _, _, h, hmid, _⟩
    · rw [h] at hmem; cases hmem
    · rw [h] at hmem
      simp only [List.cons_append, List.mem_cons, List.mem_append, List.mem_singleton,
        List.not_mem_nil, or_false] at hmem
      have hee : e = e0 := by
        rcases hmem with hx | hx | hx | hx
        · rw [hx] at he; cases he
        · have := hmid _ hx
          rw [hnok] at this
          cases this
        · exact hx
        · rw [hx] at he; cases he
      subst hee
      refine ⟨err, hr, ?_⟩
      rcases hshape with h1 | h2
      · rw [h1] at he; cases he
      · exact h2
    · rw [h] at hmem
      simp only [List.cons_append, List.mem_cons, List.mem_append, List.mem_singleton,
        List.not_mem_nil, or_false] at hmem
      rcases hmem with hx | hx | hx | hx
      · rw [hx] at he; cases he
      · have := hmid _ hx
        rw [hnok] at this
        cases this
      · rw [hx] at he; cases he
      · rw [hx] at he; cases he
    · rw [h] at hmem
      simp only [List.cons_append, List.mem_cons, List.mem_append, List.mem_singleton,
        List.not_mem_nil, or_false] at hmem
      rcases hmem with hx | hx | hx | hx
      · rw [hx] at he; cases he
      · have := hmid _ hx
        rw [hnok] at this
        cases this
      · rw [hx] at he; cases he
      · rw [hx] at he; cases he
  refine ⟨?_, hRA, hRB⟩
  obtain ⟨n, hn⟩ := hRA
  obtain ⟨err, herr, hshape⟩ := hRB
  rw [hn, herr]
  intro heq
  simp only [WipeResult.mk.injEq, Option.some.injEq, true_and, and_true] at heq
  rcases hshape with ⟨k, c, hk⟩ | ⟨m, hm⟩
  · rw [hk] at heq; cases heq
  · rw [hm] at heq
    simp only [GoError.pathError.injEq] at heq
    exact absurd heq.1 (by decide)

/-- C9, witness: one pass with a failing unlink against three passes with a
failing sync, on the three-byte file. -/
theorem deletion_failure_distinct_witness :
    (⟨["f"], false, some (.pathError "remove" ["f"] 5), 0⟩ : WipeResult)
      ≠ ⟨["f"], false, some (.pathError "sync" ["f"] 5), 0⟩ :=
  (deletion_failure_distinct (failing .remove 5) (failing .sync 5) ["f"] onePass threePasses
    oneFile oneFile
    ⟨[("f", .file [0, 1, 2] true)], 6,
      [.opened ["f"], .fstat ["f"] true, .pass 0, .seek ["f"] true, .randRead true,
        .write ["f"] 0 3 true, .sync ["f"] true, .closed ["f"], .remove ["f"] false]⟩
    ⟨[("f", .file [0, 1, 2] true)], 5,
      [.opened ["f"], .fstat ["f"] true, .pass 0, .seek ["f"] true, .randRead true,
        .write ["f"] 0 3 true, .sync ["f"] false, .closed ["f"]]⟩
    [1, 2, 3] [1, 2, 3] true true _ _ (.sync ["f"] false)
    rfl rfl rfl ⟨_, rfl, by decide⟩ rfl rfl rfl ⟨_, rfl, by decide⟩ rfl).1

/-! ## The directory walk in a dry run -/

theorem heightList_lookup (k : String) (c : Node) :
    ∀ es : List (String × Node), es.lookup k = some c → c.height ≤ heightList es := by
  intro es
  induction es with
  | nil => intro h; cases h
  | cons e es ih =>
    obtain ⟨k2, v⟩ := e
    intro h
    rw [List.lookup_cons] at h
    rw [heightList]
    cases hk : (k == k2) with
    | true =>
      rw [hk] at h
      simp only [Option.some.injEq] at h
      subst h
      exact Nat.le_max_left _ _
    | false =>
      rw [hk] at h
      exact Nat.le_trans (ih h) (Nat.le_max_right _ _)

theorem Node.lookup_height :
    ∀ (p : PathName) (n c : Node), n.lookup p = some c → c.height ≤ n.height := by
  intro p
  induction p with
  | nil =>
    intro n c h
    simp only [Node.lookup, Option.some.injEq] at h
    rw [h]
  | cons k ks ih =>
    intro n c h
    cases n with
    | file d wr => simp [Node.lookup] at h
    | dir r es =>
      rw [Node.lookup.eq_2] at h
      cases hl : es.lookup k with
      | none => rw [hl] at h; cases h
      | some m =>
        rw [hl] at h
        have h1 := ih m c h
        have h2 := heightList_lookup k m es hl
        rw [Node.height]
        omega

theorem Node.lookup_snoc :
    ∀ (p : PathName) (n : Node) (k : String),
      n.lookup (p ++ [k]) = (n.lookup p).bind fun c => c.lookup [k] := by
  intro p
  induction p with
  | nil => intro n k; cases n <;> rfl
  | cons a as ih =>
    intro n k
    cases n with
    | file d wr => rfl
    | dir r es =>
      rw [List.cons_append, Node.lookup.eq_2, Node.lookup.eq_2]
      cases hl : es.lookup a with
      | none => rfl
      | some m => exact ih m k

/-- The height of a child of a directory is below that of the directory. -/
theorem child_height (w : World) (path : PathName) (k : String) (r : Bool)
    (es : List (String × Node)) (c : Node) (hdir : w.tree.lookup path = some (.dir r es))
    (hc : w.tree.lookup (path ++ [k]) = some c) : c.height < (Node.dir r es).height := by
  rw [Node.lookup_snoc, hdir] at hc
  change Node.lookup (.dir r es) [k] = some c at hc
  rw [Node.lookup.eq_2] at hc
  cases hl : es.lookup k with
  | none => rw [hl] at hc; cases hc
  | some m =>
    rw [hl] at hc
    simp only [Node.lookup, Option.some.injEq] at hc
    subst hc
    have := heightList_lookup k m es hl
    rw [Node.height]
    omega

/-- What `os.Stat` reports, by the node at the path. -/
theorem osStat_ok (w : World) (p : PathName) (info : FileInfo) (h : osStat w p = .ok info) :
    ∃ c, w.tree.lookup p = some c ∧
      ((∃ d wr, c = .file d wr ∧ info.isDir = false) ∨ (∃ r es, c = .dir r es ∧ info.isDir = true)) := by
  unfold osStat at h
  cases hl : w.tree.lookup p with
  | none => rw [hl] at h; cases h
  | some c =>
    rw [hl] at h
    cases c with
    | file d wr =>
      simp only [Except.ok.injEq] at h
      exact ⟨_, rfl, Or.inl ⟨d, wr, rfl, by rw [← h]⟩⟩
    | dir r es =>
      simp only [Except.ok.injEq] at h
      exact ⟨_, rfl, Or.inr ⟨r, es, rfl, by rw [← h]⟩⟩

theorem walkNames_quiet (fn : WalkFunc)
    (rec : PathName → FileInfo → List WipeResult → World → WalkOut) (w : World)
    (path : PathName) (hfn : Quiet fn w) :
    ∀ (names : List String) (rs : List WipeResult),
      (∀ name info rs, name ∈ names → osStat w (path ++ [name]) = .ok info →
        ∃ rs1, rec (path ++ [name]) info rs w = some (none, rs1, w)) →
      ∃ rs1, walkNames fn rec path names rs w = some (none, rs1, w) := by
  intro names
  induction names with
  | nil => intro rs _; exact ⟨rs, rfl⟩
  | cons name rest ih =>
    intro rs hrec
    rw [walkNames]
    cases hst : osStat w (path ++ [name]) with
    | error e =>
      obtain ⟨rs1, h1⟩ := hfn (path ++ [name]) ⟨false, 0⟩ (some e) rs
      simp only [h1]
      exact ih rs1 (fun n i r hn => hrec n i r (List.mem_cons_of_mem _ hn))
    | ok info =>
      obtain ⟨rs1, h1⟩ := hrec name info rs (List.mem_cons_self _ _) hst
      simp only [h1]
      exact ih rs1 (fun n i r hn => hrec n i r (List.mem_cons_of_mem _ hn))

theorem walk_quiet (fn : WalkFunc) (w : World) (hfn : Quiet fn w) :
    ∀ (fuel : Nat) (path : PathName) (info : FileInfo) (rs : List WipeResult) (c : Node),
      w.tree.lookup path = some c → osStat w path = .ok info → c.height < fuel →
      ∃ rs1, walk fn fuel path info rs w = some (none, rs1, w) := by
  intro fuel
  induction fuel with
  | zero => intro path info rs c _ _ h; omega
  | succ fuel ih =>
    intro path info rs c hc hst hfuel
    rw [walk]
    obtain ⟨c2, hc2, hkind⟩ := osStat_ok w path info hst
    rw [hc] at hc2
    simp only [Option.some.injEq] at hc2
    subst hc2
    rcases hkind with ⟨d, wr, _, hdir⟩ | ⟨r, es, hce, hdir⟩
    · rw [hdir]
      simp only [Bool.not_false, if_true]
      exact hfn path info none rs
    · rw [hdir]
      simp only [Bool.not_true, Bool.false_eq_true, if_false]
      subst hce
      cases hnames : readDirNames w path with
      | error e =>
        simp only []
        exact hfn path info (some e) rs
      | ok names =>
        simp only []
        obtain ⟨rs1, h1⟩ := hfn path info none rs
        simp only [h1]
        apply walkNames_quiet fn (walk fn fuel) w path hfn names rs1
        intro name info2 rs2 _ hst2
        obtain ⟨c3, hc3, _⟩ := osStat_ok w (path ++ [name]) info2 hst2
        have hlt := child_height w path name r es c3 hc hc3
        exact ih (path ++ [name]) info2 rs2 c3 hc3 hst2 (by omega)

theorem Walk_quiet (fn : WalkFunc) (w : World) (hfn : Quiet fn w) (root : PathName)
    (rs : List WipeResult) :
    ∃ rs1, Walk fn (w.tree.height + 1) root rs w = some (none, rs1, w) := by
  unfold Walk
  cases hst : osStat w root with
  | error e =>
    obtain ⟨rs1, h1⟩ := hfn root ⟨false, 0⟩ (some e) rs
    simp only [h1]
    exact ⟨rs1, rfl⟩
  | ok info =>
    obtain ⟨c, hc, _⟩ := osStat_ok w root info hst
    have hh := Node.lookup_height root w.tree c hc
    obtain ⟨rs1, h1⟩ := walk_quiet fn w hfn (w.tree.height + 1) root info rs c hc hst (by omega)
    simp only [h1]
    exact ⟨rs1, rfl⟩

/-! ## Dry run -/

theorem wipeFile_dry (env : Env) (p : PathName) (o : WipeOptions) (w : World)
    (hdry : o.DryRun = true) : ∃ r, wipeFile env p o w = some (r, w) := by
  unfold wipeFile
  cases hst : osStat w p with
  | error e => exact ⟨_, rfl⟩
  | ok info =>
    simp only []
    by_cases hd : info.isDir = true
    · rw [if_pos hd]; exact ⟨_, rfl⟩
    · rw [if_neg hd, if_pos hdry]; exact ⟨_, rfl⟩

theorem walkFn_quiet (env : Env) (o : WipeOptions) (w : World) (hdry : o.DryRun = true) :
    Quiet (walkFn env o) w := by
  intro path info err rs
  unfold walkFn
  cases err with
  | some e => exact ⟨_, rfl⟩
  | none =>
    simp only []
    by_cases hd : info.isDir = true
    · simp only [hd, Bool.not_true, Bool.false_eq_true, if_false]
      exact ⟨_, rfl⟩
    · simp only [hd, Bool.not_eq_true] at hd ⊢
      obtain ⟨r, hr⟩ := wipeFile_dry env path o w hdry
      simp only [hd, Bool.not_false, if_true, hr]
      exact ⟨_, rfl⟩

theorem wipeDirectory_dry (env : Env) (p : PathName) (o : WipeOptions) (w : World)
    (hdry : o.DryRun = true) : ∃ rs, wipeDirectory env p o w = some (rs, w) := by
  unfold wipeDirectory
  obtain ⟨rs1, h1⟩ := Walk_quiet (walkFn env o) w (walkFn_quiet env o w hdry) p []
  simp only [h1, hdry, Bool.not_true, Bool.false_eq_true, if_false]
  exact ⟨_, rfl⟩

theorem wipeFilesLoop_dry (env : Env) (o : WipeOptions) (w : World) (hdry : o.DryRun = true) :
    ∀ (paths : List PathName) (rs : List WipeResult),
      ∃ rs1, wipeFilesLoop env o paths rs w = some (rs1, w) := by
  intro paths
  induction paths with
  | nil => intro rs; exact ⟨rs, rfl⟩
  | cons p rest ih =>
    intro rs
    rw [wipeFilesLoop]
    split
    · obtain ⟨drs, hd⟩ := wipeDirectory_dry env p o w hdry
      simp only [hd]
      exact ih _
    · obtain ⟨r, hr⟩ := wipeFile_dry env p o w hdry
      simp only [hr]
      exact ih _

/-- C10: with `dryRun = true`, for every state, every list of targets and
every value of `recursive`, `WipeFiles` returns and leaves the world as it
found it: the same tree, and not one event added to the trace, so no file was
opened, written, synced or unlinked and no directory was removed. -/
theorem WipeFiles_dryRun (env : Env) (paths : List PathName) (o : WipeOptions) (w : World)
    (hdry : o.DryRun = true) :
    ∃ rs, WipeFiles env paths o w = some (rs, w) :=
  wipeFilesLoop_dry env o w hdry paths []

/-- C10, witness: a recursive dry run over a directory, a file and a missing
path. -/
theorem WipeFiles_dryRun_witness :
    ∃ rs, WipeFiles calmEnv [["d"], ["f"], ["x"]] ⟨true, 3, true, true⟩ smallTree
      = some (rs, smallTree) :=
  WipeFiles_dryRun calmEnv [["d"], ["f"], ["x"]] ⟨true, 3, true, true⟩ smallTree rfl

/-! ## Which passes a run enters -/

theorem markers_append (a b : List Event) : markers (a ++ b) = markers a ++ markers b := by
  unfold markers
  rw [List.filterMap_append]

theorem writeLoop_markers (env : Env) (pattern : Slice) (size : Nat) :
    ∀ (fuel written : Nat) (f : File) (w : World) (r : Option GoError) (f1 : File) (w1 : World),
      writeLoop env pattern size fuel written f w = some (r, f1, w1) →
      ∃ evs, w1.trace = w.trace ++ evs ∧ markers evs = [] := by
  intro fuel
  induction fuel with
  | zero => intro written f w r f1 w1 h; simp [writeLoop] at h
  | succ fuel ih =>
    intro written f w r f1 w1 h
    rw [writeLoop] at h
    by_cases hlt : written < size
    · rw [if_pos hlt] at h
      simp only [] at h
      cases hf : env.fault .write w.clock with
      | some e =>
        rw [File.write_fail env f _ w e hf] at h
        simp only [Option.some.injEq, Prod.mk.injEq] at h
        rw [← h.2.2]
        exact ⟨_, rfl, rfl⟩
      | none =>
        rw [File.write_ok env f _ w hf] at h
        simp only [] at h
        obtain ⟨evs, ht, hm⟩ := ih _ _ _ _ _ _ h
        simp only [] at ht
        refine ⟨_, ht.trans (List.append_assoc _ _ _), ?_⟩
        rw [markers_append, hm]; rfl
    · rw [if_neg hlt] at h
      simp only [Option.some.injEq, Prod.mk.injEq] at h
      rw [← h.2.2]
      exact ⟨[], by simp, rfl⟩

theorem performPass_markers (env : Env) (f : File) (size i : Nat) (w : World)
    (r : Option GoError) (f1 : File) (w1 : World)
    (h : performPass env f size i w = some (r, f1, w1)) :
    ∃ evs, w1.trace = w.trace ++ evs ∧ markers evs = [i] := by
  unfold performPass File.seek at h
  cases hs : env.fault .seek (w.log (.pass i)).clock with
  | some e =>
    rw [hs] at h
    simp only [Option.some.injEq, Prod.mk.injEq] at h
    rw [← h.2.2]
    exact ⟨[.pass i, .seek f.name false], by simp [World.step, World.log], rfl⟩
  | none =>
    rw [hs] at h
    simp only [] at h
    obtain ⟨evs, ht, _, _, hres⟩ :=
      selectPattern_world env i ((w.log (.pass i)).step (.seek f.name true))
    cases hsel : selectPattern env i ((w.log (.pass i)).step (.seek f.name true)) with
    | mk res w2 =>
      rw [hsel] at h ht hres
      simp only [] at ht hres
      have hmk : markers evs = [] := by
        rcases selectPattern_cases env i ((w.log (.pass i)).step (.seek f.name true))
          with ⟨_, h0⟩ | ⟨_, h0⟩ | ⟨_, h0⟩ | ⟨_, h0⟩
        · rw [h0] at hsel
          unfold randRead at hsel
          cases hf : env.fault .rand ((w.log (.pass i)).step (.seek f.name true)).clock with
          | some e =>
            rw [hf] at hsel
            simp only [Prod.mk.injEq] at hsel
            rw [← hsel.2] at ht
            have := List.append_cancel_left (ht.symm.trans (by simp [World.step] :
              (((w.log (.pass i)).step (.seek f.name true)).step (.randRead false)).trace
                = ((w.log (.pass i)).step (.seek f.name true)).trace ++ [Event.randRead false]))
            rw [this]; rfl
          | none =>
            rw [hf] at hsel
            simp only [Prod.mk.injEq] at hsel
            rw [← hsel.2] at ht
            have := List.append_cancel_left (ht.symm.trans (by simp [World.step] :
              (((w.log (.pass i)).step (.seek f.name true)).step (.randRead true)).trace
                = ((w.log (.pass i)).step (.seek f.name true)).trace ++ [Event.randRead true]))
            rw [this]; rfl
        all_goals
          rw [h0] at hsel
          simp only [Prod.mk.injEq] at hsel
          rw [← hsel.2] at ht
          have : evs = [] := by
            have h2 : ((w.log (.pass i)).step (.seek f.name true)).trace ++ evs
                = ((w.log (.pass i)).step (.seek f.name true)).trace ++ [] := by
              rw [← ht]; simp
            exact List.append_cancel_left h2
          rw [this]; rfl
      cases res with
      | error err =>
        simp only [Option.some.injEq, Prod.mk.injEq] at h
        rw [← h.2.2]
        refine ⟨[.pass i, .seek f.name true] ++ evs, ?_, ?_⟩
        · rw [ht]; simp [World.step, World.log]
        · rw [markers_append, hmk]; rfl
      | ok pat =>
        simp only [] at h
        obtain ⟨evs2, ht2, hm2⟩ := writeLoop_markers env pat size _ _ _ _ _ _ _ h
        refine ⟨[.pass i, .seek f.name true] ++ evs ++ evs2, ?_, ?_⟩
        · rw [ht2, ht]; simp [World.step, World.log]
        · rw [markers_append, markers_append, hmk, hm2]; rfl

/-- The passes a loop enters are `pass, pass + 1, ...`: all `n` of them when it
returns without error, at least one and at most `n` when it fails. -/
theorem passLoop_markers (env : Env) (size : Nat) :
    ∀ (n pass : Nat) (f : File) (w : World) (r : Option GoError) (f1 : File) (w1 : World),
      passLoop env size n pass f w = some (r, f1, w1) →
      ∃ evs m, w1.trace = w.trace ++ evs ∧ markers evs = List.range' pass m ∧ m ≤ n ∧
        (r = none → m = n) ∧ (r ≠ none → 0 < m) := by
  intro n
  induction n with
  | zero =>
    intro pass f w r f1 w1 h
    simp only [passLoop, Option.some.injEq, Prod.mk.injEq] at h
    rw [← h.2.2, ← h.1]
    exact ⟨[], 0, by simp, rfl, Nat.le_refl _, fun _ => rfl, fun h => absurd rfl h⟩
  | succ n ih =>
    intro pass f w r f1 w1 h
    rw [passLoop] at h
    cases hp : performPass env f size pass w with
    | none => rw [hp] at h; cases h
    | some res =>
      obtain ⟨r0, g1, v1⟩ := res
      rw [hp] at h
      obtain ⟨evs, ht, hm⟩ := performPass_markers env f size pass w r0 g1 v1 hp
      cases r0 with
      | some e0 =>
        simp only [Option.some.injEq, Prod.mk.injEq] at h
        rw [← h.2.2, ← h.1]
        refine ⟨evs, 1, ht, ?_, by omega, ?_, ?_⟩
        · rw [hm]; rfl
        · intro h2; cases h2
        · intro _; omega
      | none =>
        simp only [] at h
        unfold File.sync at h
        cases hf : env.fault .sync v1.clock with
        | some e =>
          rw [hf] at h
          simp only [Option.some.injEq, Prod.mk.injEq] at h
          rw [← h.2.2, ← h.1]
          refine ⟨evs ++ [.sync g1.name false], 1, ?_, ?_, by omega, ?_, ?_⟩
          · simp [World.step, ht]
          · rw [markers_append, hm]; rfl
          · intro h2; cases h2
          · intro _; omega
        | none =>
          rw [hf] at h
          simp only [] at h
          obtain ⟨evs2, m, ht2, hm2, hle, hnone, hsome⟩ := ih _ _ _ _ _ _ h
          refine ⟨evs ++ [.sync g1.name true] ++ evs2, m + 1, ?_, ?_, by omega, ?_, ?_⟩
          · rw [ht2]; simp [World.step, ht]
          · rw [markers_append, markers_append, hm, hm2, List.range'_succ]
            rfl
          · intro hr; rw [hnone hr]
          · intro _; omega

/-- The passes that `overwriteFile` enters on a writable regular file: none
when the stat of the handle fails; otherwise `0, ..., m - 1`, with `m` the
number of passes asked for when it returns without error, and at least one
pass when it fails. -/
theorem overwriteFile_markers (env : Env) (p : PathName) (passes : Int) (w w1 : World)
    (d : List Nat) (r : Option GoError) (hfile : w.tree.lookup p = some (.file d true))
    (h : overwriteFile env p passes w = some (r, w1)) :
    w1.trace = w.trace ++ [.opened p, .fstat p false, .closed p] ∨
      ∃ evs m, w1.trace = w.trace ++ evs ∧ markers evs = List.range m ∧ m ≤ passes.toNat ∧
        (r = none → m = passes.toNat) ∧ (r ≠ none → 0 < m) := by
  unfold overwriteFile osOpenFile at h
  rw [hfile] at h
  simp only [] at h
  unfold File.stat at h
  have htree : (w.log (.opened p)).tree = w.tree := rfl
  cases hf : env.fault .fstat (w.log (.opened p)).clock with
  | some e =>
    rw [hf] at h
    simp only [Option.some.injEq, Prod.mk.injEq] at h
    left
    rw [← h.2]
    simp [File.close, World.step, World.log]
  | none =>
    rw [hf] at h
    simp only [htree, hfile] at h
    cases hl : passLoop env d.length passes.toNat 0 ⟨p, 0⟩
        ((w.log (.opened p)).step (.fstat p true)) with
    | none => rw [hl] at h; cases h
    | some res =>
      obtain ⟨r2, f1, w3⟩ := res
      rw [hl] at h
      simp only [Option.some.injEq, Prod.mk.injEq] at h
      obtain ⟨hr, hw⟩ := h
      subst hr
      obtain ⟨evs, m, ht, hm, hle, hnone, hsome⟩ := passLoop_markers env d.length _ _ _ _ _ _ _ hl
      right
      refine ⟨[.opened p, .fstat p true] ++ evs ++ [.closed f1.name], m, ?_, ?_, hle, hnone, hsome⟩
      · rw [← hw]
        simp [File.close, World.log, ht, World.step]
      · rw [markers_append, markers_append, hm, List.range_eq_range']
        simp [markers, Event.passIndex]

/-! ## Failure inside a pass -/

theorem Event.failedPassOp_no_index (e : Event) (h : e.isFailedPassOp = true) :
    e.passIndex = none := by
  cases e <;> first | rfl | cases h

/-- C2: on a regular file, without dry run, when a seek, a write or a sync
fails during the overwrite (the event `e` of the run), the failing operation
is followed by the close of the handle and by nothing else: no further pass
is entered, nothing is unlinked.  The passes entered are exactly `0, ..., k`
for some `k` below the number of passes, all of them before the failure.
Everything before the failure succeeded, `wipeFile` returns `Success = false`
with an error, and the path still names the file, with its length. -/
theorem wipeFile_pass_failure (env : Env) (p : PathName) (o : WipeOptions) (w w1 : World)
    (d : List Nat) (wr : Bool) (r : WipeResult) (pre post : List Event) (e : Event)
    (hfile : w.tree.lookup p = some (.file d wr)) (hdry : o.DryRun = false)
    (hrun : wipeFile env p o w = some (r, w1))
    (htrace : w1.trace = w.trace ++ (pre ++ e :: post))
    (hfail : e.isFailedPassOp = true) :
    post = [.closed p] ∧ (∀ i, Event.pass i ∉ post) ∧
      (∃ k, k < o.Passes.toNat ∧ markers pre = List.range (k + 1) ∧
        markers (pre ++ e :: post) = List.range (k + 1)) ∧
      (∀ x ∈ pre ++ e :: post, x.isUnlink = false) ∧ (∀ x ∈ pre, x.ok = true) ∧
      r.Path = p ∧ r.Success = false ∧ r.Error ≠ none ∧
      ∃ d1, w1.tree.lookup p = some (.file d1 wr) ∧ d1.length = d.length := by
  obtain ⟨hnok, hnun⟩ := Event.failedPassOp_not_ok e hfail
  obtain ⟨r2, w2, evs, hrun2, ht, hcase⟩ := wipeFile_run env p o w d wr hfile hdry
  rw [hrun] at hrun2
  simp only [Option.some.injEq, Prod.mk.injEq] at hrun2
  obtain ⟨hr, hw⟩ := hrun2
  subst hr hw
  rw [htrace] at ht
  have hevs := List.append_cancel_left ht
  rcases hcase with ⟨_, h, _⟩ |
    ⟨hwr, err, mid, e0, d1, hr, hov, h, he0, hmid, hmidun, he0un, hd1, hl1, _⟩ |
    ⟨_, n, mid, wo, d1, _, _, _, _, h, hmid, _⟩ | ⟨_, mid, wo, _, _, _, h, hmid, _⟩
  · rw [h] at hevs
    have := congrArg List.length hevs
    simp at this
  · rw [h] at hevs
    have hA : ∀ x ∈ Event.opened p :: mid, x.ok = true := by
      intro x hx
      rcases List.mem_cons.1 hx with hx | hx
      · rw [hx]; rfl
      · exact hmid x hx
    have hB : ∀ x ∈ [Event.closed p], x.ok = true := by
      intro x hx; rw [List.mem_singleton.1 hx]; rfl
    have hevs2 : pre ++ e :: post = (Event.opened p :: mid) ++ e0 :: [Event.closed p] := by
      rw [hevs]
    obtain ⟨hpre, hee, hpost⟩ := split_unique hA hB hnok hevs2
    subst hpre hee hpost hwr
    have hmk : markers (Event.opened p :: mid ++ e :: [Event.closed p])
        = markers (Event.opened p :: mid) := by
      rw [markers_append]
      have : markers (e :: [Event.closed p]) = [] := by
        have hidx := Event.failedPassOp_no_index e hfail
        unfold markers
        rw [List.filterMap_cons_none hidx]
        rfl
      rw [this, List.append_nil]
    refine ⟨rfl, ?_, ?_, ?_, hA, ?_, ?_, ?_, d1, hd1, hl1⟩
    · intro i hi
      simp at hi
    · rcases overwriteFile_markers env p o.Passes w w1 d (some err) hfile hov with hst | hmark
      · rw [htrace] at hst
        have h2 := List.append_cancel_left hst
        simp only [List.cons_append, List.cons.injEq, true_and] at h2
        cases mid with
        | nil =>
          simp only [List.nil_append, List.cons.injEq] at h2
          rw [h2.1] at hfail
          cases hfail
        | cons a mid2 =>
          simp only [List.cons_append, List.cons.injEq] at h2
          have := congrArg List.length h2.2
          simp at this
      · obtain ⟨evs2, m, ht2, hm2, hle, _, hpos⟩ := hmark
        rw [htrace] at ht2
        have h2 := List.append_cancel_left ht2
        have hm0 : 0 < m := hpos (by simp)
        refine ⟨m - 1, by omega, ?_, ?_⟩
        · rw [← hmk, h2, hm2]
          congr 1
          omega
        · rw [h2, hm2]
          congr 1
          omega
    · intro x hx
      simp only [List.cons_append, List.mem_cons, List.mem_append, List.mem_singleton,
        List.not_mem_nil, or_false] at hx
      rcases hx with hx | hx | hx | hx
      · rw [hx]; rfl
      · exact hmidun x hx
      · rw [hx]; exact hnun
      · rw [hx]; rfl
    · rw [hr]
    · rw [hr]
    · rw [hr]; simp
  · rw [h] at hevs
    have hA : ∀ x ∈ Event.opened p :: mid ++ [Event.closed p], x.ok = true := by
      intro x hx
      simp only [List.cons_append, List.mem_cons, List.mem_append, List.mem_singleton,
        List.not_mem_nil, or_false] at hx
      rcases hx with hx | hx | hx
      · rw [hx]; rfl
      · exact hmid x hx
      · rw [hx]; rfl
    have hevs2 : pre ++ e :: post
        = (Event.opened p :: mid ++ [Event.closed p]) ++ Event.remove p false :: [] := by
      rw [hevs]; simp
    obtain ⟨_, hee, _⟩ := split_unique hA (fun x hx => by cases hx) hnok hevs2
    rw [hee] at hfail
    cases hfail
  · have hmem : e ∈ evs := by rw [← hevs]; simp
    rw [h] at hmem
    simp only [List.cons_append, List.mem_cons, List.mem_append, List.mem_singleton,
      List.not_mem_nil, or_false] at hmem
    rcases hmem with hx | hx | hx | hx
    · rw [hx] at hfail; cases hfail
    · have := hmid e hx
      rw [hnok] at this
      cases this
    · rw [hx] at hfail; cases hfail
    · rw [hx] at hfail; cases hfail

/-- C2, witness: three passes on the three-byte file when every sync fails;
the sync after pass 0 is the last operation before the close, and pass 0 is
the only pass entered. -/
theorem wipeFile_pass_failure_witness :
    wipeFile (failing .sync 5) ["f"] threePasses oneFile
      = some (⟨["f"], false, some (.pathError "sync" ["f"] 5), 0⟩,
          ⟨[("f", .file [0, 1, 2] true)], 5,
            [.opened ["f"], .fstat ["f"] true, .pass 0, .seek ["f"] true, .randRead true,
              .write ["f"] 0 3 true, .sync ["f"] false, .closed ["f"]]⟩) ∧
    ∃ k, k < threePasses.Passes.toNat ∧
      markers [.opened ["f"], .fstat ["f"] true, .pass 0, .seek ["f"] true, .randRead true,
        .write ["f"] 0 3 true] = List.range (k + 1) ∧
      markers ([.opened ["f"], .fstat ["f"] true, .pass 0, .seek ["f"] true, .randRead true,
        .write ["f"] 0 3 true] ++ Event.sync ["f"] false :: [.closed ["f"]])
          = List.range (k + 1) :=
  ⟨rfl, (wipeFile_pass_failure (failing .sync 5) ["f"] threePasses oneFile
    ⟨[("f", .file [0, 1, 2] true)], 5,
      [.opened ["f"], .fstat ["f"] true, .pass 0, .seek ["f"] true, .randRead true,
        .write ["f"] 0 3 true, .sync ["f"] false, .closed ["f"]]⟩ [1, 2, 3] true
    ⟨["f"], false, some (.pathError "sync" ["f"] 5), 0⟩
    [.opened ["f"], .fstat ["f"] true, .pass 0, .seek ["f"] true, .randRead true,
      .write ["f"] 0 3 true] [.closed ["f"]] (.sync ["f"] false) rfl rfl rfl rfl rfl).2.2.1⟩


/-! ## Dry run, missing paths and directories in `wipeFile` -/

theorem osStat_file (w : World) (p : PathName) (d : List Nat) (wr : Bool)
    (h : w.tree.lookup p = some (.file d wr)) : osStat w p = .ok ⟨false, d.length⟩ := by
  unfold osStat; rw [h]

theorem osStat_dir (w : World) (p : PathName) (r : Bool) (es : List (String × Node))
    (h : w.tree.lookup p = some (.dir r es)) : osStat w p = .ok ⟨true, 0⟩ := by
  unfold osStat; rw [h]

theorem osStat_missing (w : World) (p : PathName) (h : w.tree.lookup p = none) :
    osStat w p = .error (.pathError "stat" p 2) := by
  unfold osStat; rw [h]

theorem wipeFile_dry_file (env : Env) (p : PathName) (o : WipeOptions) (w : World)
    (d : List Nat) (wr : Bool) (hfile : w.tree.lookup p = some (.file d wr))
    (hdry : o.DryRun = true) :
    wipeFile env p o w = some (⟨p, true, none, d.length⟩, w) := by
  unfold wipeFile
  rw [osStat_file w p d wr hfile]
  simp [hdry]

theorem wipeFile_stat_error (env : Env) (p : PathName) (o : WipeOptions) (w : World)
    (err : GoError) (h : osStat w p = .error err) :
    wipeFile env p o w = some (⟨p, false, some err, 0⟩, w) := by
  unfold wipeFile
  rw [h]

theorem wipeFile_directory (env : Env) (p : PathName) (o : WipeOptions) (w : World)
    (r : Bool) (es : List (String × Node)) (h : w.tree.lookup p = some (.dir r es)) :
    wipeFile env p o w
      = some (⟨p, false, some (.errorf "is a directory, use --recursive flag"), 0⟩, w) := by
  unfold wipeFile
  rw [osStat_dir w p r es h]
  simp

/-- One step of the loop of `WipeFiles` on a target that is not handed to
`wipeDirectory`. -/
theorem wipeFilesLoop_file (env : Env) (o : WipeOptions) (p : PathName)
    (rest : List PathName) (rs : List WipeResult) (w : World)
    (hnot : o.Recursive = false ∨ ∀ info, osStat w p = .ok info → info.isDir = false) :
    wipeFilesLoop env o (p :: rest) rs w =
      match wipeFile env p o w with
      | none => none
      | some (result, w1) => wipeFilesLoop env o rest (rs ++ [result]) w1 := by
  rw [wipeFilesLoop]
  split
  · rename_i hc
    exfalso
    rcases hnot with h | h
    · rw [h] at hc; simp at hc
    · cases hst : osStat w p with
      | error e => rw [hst] at hc; simp at hc
      | ok info =>
        rw [hst] at hc
        simp only [Bool.and_eq_true] at hc
        rw [h info hst] at hc
        simp at hc
  · rfl

/-- `WipeFiles` on one target that is not handed to `wipeDirectory`. -/
theorem WipeFiles_single (env : Env) (p : PathName) (o : WipeOptions) (w w1 : World)
    (r : WipeResult) (hrun : wipeFile env p o w = some (r, w1))
    (hnot : o.Recursive = false ∨ ∀ info, osStat w p = .ok info → info.isDir = false) :
    WipeFiles env [p] o w = some ([r], w1) := by
  unfold WipeFiles
  rw [wipeFilesLoop_file env o p [] [] w hnot, hrun]
  rfl

/-- C11: for an existing regular file of `S` bytes and `dryRun = true`, with
any `passes` and any `recursive`, `wipeFile` returns exactly path, success, no
error and size `S`, also when the file cannot be opened for writing; the
world is the one it started in. -/
theorem wipeFile_dryRun_file (env : Env) (p : PathName) (o : WipeOptions) (w : World)
    (d : List Nat) (wr : Bool) (hfile : w.tree.lookup p = some (.file d wr))
    (hdry : o.DryRun = true) :
    wipeFile env p o w = some (⟨p, true, none, d.length⟩, w) :=
  wipeFile_dry_file env p o w d wr hfile hdry

/-- C11, witness: the read-only file of two bytes. -/
theorem wipeFile_dryRun_file_witness :
    wipeFile calmEnv ["g"] dryOptions lockedFile = some (⟨["g"], true, none, 2⟩, lockedFile) :=
  wipeFile_dryRun_file calmEnv ["g"] dryOptions lockedFile [4, 5] false rfl rfl

/-- C13: when the stat of `p` fails, for every options value `wipeFile`
returns path, failure, the error of the stat and size 0, in the world it
started in; `WipeFiles` on the list `[p]` returns exactly this one result,
with `recursive` set or not. -/
theorem wipeFile_missing (env : Env) (p : PathName) (o : WipeOptions) (w : World)
    (err : GoError) (h : osStat w p = .error err) :
    wipeFile env p o w = some (⟨p, false, some err, 0⟩, w) ∧
      WipeFiles env [p] o w = some ([⟨p, false, some err, 0⟩], w) := by
  refine ⟨wipeFile_stat_error env p o w err h, ?_⟩
  apply WipeFiles_single env p o w w _ (wipeFile_stat_error env p o w err h)
  right
  intro info hi
  rw [h] at hi
  cases hi

/-- C13, witness: a path that does not exist, with `recursive` set. -/
theorem wipeFile_missing_witness :
    wipeFile calmEnv ["x"] dryRecursive lockedFile
        = some (⟨["x"], false, some (.pathError "stat" ["x"] 2), 0⟩, lockedFile) ∧
      WipeFiles calmEnv [["x"]] dryRecursive lockedFile
        = some ([⟨["x"], false, some (.pathError "stat" ["x"] 2), 0⟩], lockedFile) :=
  wipeFile_missing calmEnv ["x"] dryRecursive lockedFile (.pathError "stat" ["x"] 2) rfl

/-- C14: when `p` is a directory, for every options value `wipeFile` returns
failure with the error `is a directory, use --recursive flag` and size 0, in
the world it started in (the directory and everything under it untouched);
`WipeFiles` with `recursive = false` on `[p]` returns exactly this one
result. -/
theorem wipeFile_on_directory (env : Env) (p : PathName) (o : WipeOptions) (w : World)
    (r : Bool) (es : List (String × Node)) (h : w.tree.lookup p = some (.dir r es)) :
    wipeFile env p o w
        = some (⟨p, false, some (.errorf "is a directory, use --recursive flag"), 0⟩, w) ∧
      (o.Recursive = false → WipeFiles env [p] o w
        = some ([⟨p, false, some (.errorf "is a directory, use --recursive flag"), 0⟩], w)) := by
  refine ⟨wipeFile_directory env p o w r es h, ?_⟩
  intro hrec
  exact WipeFiles_single env p o w w _ (wipeFile_directory env p o w r es h) (Or.inl hrec)

/-- C14, witness: the directory `d` of the small tree, with dry run and
`recursive` set. -/
theorem wipeFile_on_directory_witness :
    wipeFile calmEnv ["d"] dryRecursive smallTree
        = some (⟨["d"], false, some (.errorf "is a directory, use --recursive flag"), 0⟩,
            smallTree) ∧
      (dryRecursive.Recursive = false → WipeFiles calmEnv [["d"]] dryRecursive smallTree
        = some ([⟨["d"], false, some (.errorf "is a directory, use --recursive flag"), 0⟩],
            smallTree)) :=
  wipeFile_on_directory calmEnv ["d"] dryRecursive smallTree true _ rfl


/-! ## Dry run through `WipeFiles` -/

theorem statSize_file (w : World) (p : PathName) (d : List Nat) (wr : Bool)
    (h : w.tree.lookup p = some (.file d wr)) : statSize w p = d.length := by
  unfold statSize
  rw [osStat_file w p d wr h]

theorem wipeFilesLoop_dry_files (env : Env) (o : WipeOptions) (w : World)
    (hdry : o.DryRun = true) :
    ∀ (paths : List PathName) (rs : List WipeResult),
      (∀ p ∈ paths, ∃ d wr, w.tree.lookup p = some (.file d wr)) →
      wipeFilesLoop env o paths rs w
        = some (rs ++ paths.map (fun p => ⟨p, true, none, statSize w p⟩), w) := by
  intro paths
  induction paths with
  | nil => intro rs _; simp [wipeFilesLoop]
  | cons p rest ih =>
    intro rs hfiles
    obtain ⟨d, wr, hp⟩ := hfiles p (List.mem_cons_self _ _)
    have hnot : o.Recursive = false ∨ ∀ info, osStat w p = .ok info → info.isDir = false := by
      right
      intro info hi
      rw [osStat_file w p d wr hp] at hi
      simp only [Except.ok.injEq] at hi
      rw [← hi]
    rw [wipeFilesLoop_file env o p rest rs w hnot, wipeFile_dry_file env p o w d wr hp hdry]
    simp only []
    rw [ih _ (fun q hq => hfiles q (List.mem_cons_of_mem _ hq))]
    simp [statSize_file w p d wr hp]

/-- C12 (as stated, refuted): with `dryRun = true` a target that does not
exist is reported as a failure with the error of the stat, a directory
without `recursive` is reported as a failure, and a directory with
`recursive` (here an empty one) gets no result at all. -/
theorem dryRun_success_cex :
    WipeFiles calmEnv [["x"]] dryOptions lockedFile
      = some ([⟨["x"], false, some (.pathError "stat" ["x"] 2), 0⟩], lockedFile) ∧
    WipeFiles calmEnv [["e"]] dryOptions lockedFile
      = some ([⟨["e"], false, some (.errorf "is a directory, use --recursive flag"), 0⟩],
          lockedFile) ∧
    WipeFiles calmEnv [["e"]] dryRecursive lockedFile = some ([], lockedFile) :=
  ⟨rfl, rfl, rfl⟩

/-- C12 (amended): with `dryRun = true`, for targets that are existing regular
files, every invocation of `WipeFiles` reports for each target success with
the size the file had before, and leaves the world as it was; so does any
number of invocations one after the other. -/
theorem dryRun_files_success (env : Env) (paths : List PathName) (o : WipeOptions) (w : World)
    (n : Nat) (hdry : o.DryRun = true)
    (hfiles : ∀ p ∈ paths, ∃ d wr, w.tree.lookup p = some (.file d wr)) :
    WipeFiles env paths o w
        = some (paths.map (fun p => ⟨p, true, none, statSize w p⟩), w) ∧
      repeatWipeFiles env paths o n w
        = some (List.replicate n (paths.map (fun p => ⟨p, true, none, statSize w p⟩)), w) ∧
      ∀ p ∈ paths, ∀ d wr, w.tree.lookup p = some (.file d wr) → statSize w p = d.length := by
  have h1 : WipeFiles env paths o w
      = some (paths.map (fun p => ⟨p, true, none, statSize w p⟩), w) := by
    unfold WipeFiles
    rw [wipeFilesLoop_dry_files env o w hdry paths [] hfiles]
    simp
  refine ⟨h1, ?_, fun p _ d wr hp => statSize_file w p d wr hp⟩
  induction n with
  | zero => rfl
  | succ n ih =>
    rw [repeatWipeFiles, h1]
    simp only []
    rw [ih]
    simp [List.replicate_succ]

/-- C12, witness: two invocations on the read-only file and the three-byte
file of one root directory. -/
theorem dryRun_files_success_witness :
    WipeFiles calmEnv [["f"], ["d", "a"]] dryOptions smallTree
        = some ([["f"], ["d", "a"]].map (fun p => ⟨p, true, none, statSize smallTree p⟩),
            smallTree) ∧
      repeatWipeFiles calmEnv [["f"], ["d", "a"]] dryOptions 2 smallTree
        = some (List.replicate 2
            ([["f"], ["d", "a"]].map (fun p => ⟨p, true, none, statSize smallTree p⟩)),
            smallTree) ∧
      ∀ p ∈ [["f"], ["d", "a"]], ∀ d wr,
        smallTree.tree.lookup p = some (.file d wr) → statSize smallTree p = d.length :=
  dryRun_files_success calmEnv [["f"], ["d", "a"]] dryOptions smallTree 2 rfl
    (by
      intro p hp
      simp only [List.mem_cons, List.mem_singleton, List.not_mem_nil, or_false] at hp
      rcases hp with h | h
      · exact ⟨[1, 2, 3], true, by rw [h]; rfl⟩
      · exact ⟨[], false, by rw [h]; rfl⟩)

/-! ## No passes -/

/-- C20 (as stated, refuted): with `passes = 0` and no dry run on the
writable three-byte file, `wipeFile` reports a failure and the file stays when
the unlink fails, and also when the stat of the open handle fails. -/
theorem wipeFile_zero_passes_cex :
    (osOpenFile oneFile ["f"]).1 = .ok ⟨["f"], 0⟩ ∧
    (wipeFile (failing .remove 13) ["f"] zeroPasses oneFile).map Prod.fst
      = some ⟨["f"], false, some (.pathError "remove" ["f"] 13), 0⟩ ∧
    (wipeFile (failing .remove 13) ["f"] zeroPasses oneFile).map
      (fun x => osStat x.2 ["f"]) = some (.ok ⟨false, 3⟩) ∧
    (wipeFile (failing .fstat 5) ["f"] zeroPasses oneFile).map Prod.fst
      = some ⟨["f"], false, some (.pathError "stat" ["f"] 5), 0⟩ ∧
    (wipeFile (failing .fstat 5) ["f"] zeroPasses oneFile).map
      (fun x => osStat x.2 ["f"]) = some (.ok ⟨false, 3⟩) :=
  ⟨rfl, rfl, rfl, rfl, rfl⟩

/-- C20 (amended): on a regular file that can be opened for writing, with
`passes <= 0` and no dry run, `wipeFile` returns, and its run contains no
pass marker, no seek, no read of the random source, no write and no sync.  If
the stat of the open handle and the unlink succeed, the run is open, stat,
close, unlink, the path is gone with the bytes it had, and the result is
success with the size of the file. -/
theorem wipeFile_zero_passes (env : Env) (p : PathName) (o : WipeOptions) (w : World)
    (d : List Nat) (hfile : w.tree.lookup p = some (.file d true)) (hdry : o.DryRun = false)
    (hpass : o.Passes ≤ 0) :
    ∃ r w1 evs, wipeFile env p o w = some (r, w1) ∧ w1.trace = w.trace ++ evs ∧
      (∀ e ∈ evs, e.inPass = false) ∧
      (env.fault .fstat w.clock = none → env.fault .remove (w.clock + 1) = none →
        r = ⟨p, true, none, d.length⟩ ∧ w1.tree.lookup p = none ∧
        evs = [.opened p, .fstat p true, .closed p, .remove p true]) := by
  have hzero : o.Passes.toNat = 0 := by omega
  unfold wipeFile
  rw [osStat_file w p d true hfile]
  simp only [Bool.false_eq_true, if_false, hdry]
  unfold overwriteFile osOpenFile
  rw [hfile]
  simp only []
  unfold File.stat
  have htree : (w.log (.opened p)).tree = w.tree := rfl
  cases hf : env.fault .fstat (w.log (.opened p)).clock with
  | some e =>
    simp only []
    refine ⟨_, _, [.opened p, .fstat p false, .closed p], rfl, ?_, ?_, ?_⟩
    · simp [File.close, World.step, World.log]
    · intro x hx
      simp only [List.mem_cons, List.mem_singleton, List.not_mem_nil, or_false] at hx
      rcases hx with h | h | h <;> rw [h] <;> rfl
    · intro h1
      have h2 : (w.log (.opened p)).clock = w.clock := rfl
      rw [h2, h1] at hf
      cases hf
  | none =>
    simp only [htree, hfile, hzero, passLoop]
    have hfile2 : (File.close ⟨p, 0⟩ ((w.log (.opened p)).step (.fstat p true))).tree.lookup p
        = some (.file d true) := hfile
    rcases osRemove_file env p _ d true hfile2 with ⟨n, hn, hrm⟩ | ⟨hn, w2, hrm, ht2, hgone⟩
    · rw [hrm]
      refine ⟨_, _, [.opened p, .fstat p true, .closed p, .remove p false], rfl, ?_, ?_, ?_⟩
      · simp [File.close, World.step, World.log]
      · intro x hx
        simp only [List.mem_cons, List.mem_singleton, List.not_mem_nil, or_false] at hx
        rcases hx with h | h | h | h <;> rw [h] <;> rfl
      · intro _ h2
        have h3 : (File.close ⟨p, 0⟩ ((w.log (.opened p)).step (.fstat p true))).clock
            = w.clock + 1 := rfl
        rw [h3, h2] at hn
        cases hn
    · rw [hrm]
      refine ⟨_, _, [.opened p, .fstat p true, .closed p, .remove p true], rfl, ?_, ?_, ?_⟩
      · rw [ht2]; simp [File.close, World.step, World.log]
      · intro x hx
        simp only [List.mem_cons, List.mem_singleton, List.not_mem_nil, or_false] at hx
        rcases hx with h | h | h | h <;> rw [h] <;> rfl
      · intro _ _
        exact ⟨rfl, hgone, rfl⟩

/-- C20, witness: `passes = 0` on the three-byte file in the calm
environment. -/
theorem wipeFile_zero_passes_witness :
    ∃ r w1 evs, wipeFile calmEnv ["f"] zeroPasses oneFile = some (r, w1) ∧
      w1.trace = oneFile.trace ++ evs ∧ (∀ e ∈ evs, e.inPass = false) ∧
      (calmEnv.fault .fstat oneFile.clock = none →
        calmEnv.fault .remove (oneFile.clock + 1) = none →
        r = ⟨["f"], true, none, [1, 2, 3].length⟩ ∧ w1.tree.lookup ["f"] = none ∧
        evs = [.opened ["f"], .fstat ["f"] true, .closed ["f"], .remove ["f"] true]) :=
  wipeFile_zero_passes calmEnv ["f"] zeroPasses oneFile [1, 2, 3] rfl rfl (by decide)


/-! ## What a wipe leaves alone -/

theorem Apart.cons_same {c : String} {ps qs : PathName} (h : Apart (c :: ps) (c :: qs)) :
    Apart ps qs := by
  constructor
  · intro hp
    exact h.1 ((List.prefix_cons_inj c).2 hp)
  · intro hq
    exact h.2 ((List.prefix_cons_inj c).2 hq)

theorem Apart.ne_nil_left {p q : PathName} (h : Apart p q) : p ≠ [] := by
  intro hp
  subst hp
  exact h.1 (List.nil_prefix)

theorem Apart.ne_nil_right {p q : PathName} (h : Apart p q) : q ≠ [] := by
  intro hq
  subst hq
  exact h.2 (List.nil_prefix)

theorem Apart.symm {p q : PathName} (h : Apart p q) : Apart q p := ⟨h.2, h.1⟩

/-- A path apart from `p` is apart from every path below `p`. -/
theorem Apart.below {p q : PathName} (x : PathName) (h : Apart p q) : Apart (p ++ x) q := by
  constructor
  · intro hp
    exact h.1 (List.IsPrefix.trans (List.prefix_append p x) hp)
  · intro hq
    rcases List.prefix_or_prefix_of_prefix hq (List.prefix_append p x) with hle | hle
    · exact h.2 hle
    · exact h.1 hle

theorem lookup_map_upd_ne (c k : String) (h : Node → Node) (es : List (String × Node))
    (hne : k ≠ c) :
    (es.map fun e => if e.1 = c then (e.1, h e.2) else e).lookup k = es.lookup k := by
  induction es with
  | nil => rfl
  | cons e es ih =>
    obtain ⟨a, v⟩ := e
    rw [List.map_cons]
    by_cases ha : a = c
    · subst ha
      have hka : (k == a) = false := by
        simp only [beq_eq_false_iff_ne, ne_eq]
        exact hne
      rw [if_pos rfl, List.lookup_cons, List.lookup_cons, hka]
      exact ih
    · rw [if_neg ha, List.lookup_cons, List.lookup_cons, ih]

theorem lookup_filter_other (c k : String) (es : List (String × Node)) (hne : k ≠ c) :
    (es.filter fun e => e.1 ≠ c).lookup k = es.lookup k := by
  induction es with
  | nil => rfl
  | cons e es ih =>
    obtain ⟨a, v⟩ := e
    by_cases ha : a = c
    · subst ha
      have hka : (k == a) = false := by
        simp only [beq_eq_false_iff_ne, ne_eq]
        exact hne
      rw [List.filter_cons_of_neg (by simp), List.lookup_cons, hka]
      exact ih
    · rw [List.filter_cons_of_pos (by simpa using ha), List.lookup_cons, List.lookup_cons, ih]

theorem Node.lookup_setData_apart (d : List Nat) :
    ∀ (p q : PathName) (n : Node), Apart p q → (n.setData d p).lookup q = n.lookup q := by
  intro p
  induction p with
  | nil => intro q n h; exact absurd rfl h.ne_nil_left
  | cons c ps ih =>
    intro q n h
    cases q with
    | nil => exact absurd rfl h.ne_nil_right
    | cons k qs =>
      cases n with
      | file d0 wr => rfl
      | dir r es =>
        rw [Node.setData.eq_4, Node.lookup.eq_2, Node.lookup.eq_2]
        by_cases hk : k = c
        · subst hk
          rw [lookup_map_upd k (fun m => Node.setData d m ps)]
          cases hl : es.lookup k with
          | none => rfl
          | some m => exact ih qs m h.cons_same
        · rw [lookup_map_upd_ne c k (fun m => Node.setData d m ps) es hk]

theorem Node.lookup_remove_apart :
    ∀ (p q : PathName) (n : Node), Apart p q → (n.remove p).lookup q = n.lookup q := by
  intro p
  induction p with
  | nil => intro q n h; exact absurd rfl h.ne_nil_left
  | cons c ps ih =>
    intro q n h
    cases q with
    | nil => exact absurd rfl h.ne_nil_right
    | cons k qs =>
      cases n with
      | file d0 wr => rfl
      | dir r es =>
        cases ps with
        | nil =>
          rw [Node.remove.eq_3, Node.lookup.eq_2, Node.lookup.eq_2]
          have hk : k ≠ c := by
            intro hkc
            subst hkc
            exact h.1 ((List.prefix_cons_inj k).2 List.nil_prefix)
          rw [lookup_filter_other c k es hk]
        | cons c2 cs =>
          rw [Node.remove.eq_4, Node.lookup.eq_2, Node.lookup.eq_2]
          by_cases hk : k = c
          · subst hk
            rw [lookup_map_upd k (fun m => Node.remove m (c2 :: cs))]
            cases hl : es.lookup k with
            | none => rfl
            | some m => exact ih qs m h.cons_same
          · rw [lookup_map_upd_ne c k (fun m => Node.remove m (c2 :: cs)) es hk]

theorem Frame.refl (p : PathName) (w : World) : Frame p w w := fun _ _ => rfl

theorem Frame.trans {p : PathName} {w w1 w2 : World} (h1 : Frame p w w1) (h2 : Frame p w1 w2) :
    Frame p w w2 := fun q hq => (h2 q hq).trans (h1 q hq)

theorem Frame.of_root {p : PathName} {w w1 : World} (h : w1.root = w.root) : Frame p w w1 := by
  intro q _
  simp only [World.tree, h]

/-- A change confined to a path below `p` is a change confined to `p`. -/
theorem Frame.above {p : PathName} (x : PathName) {w w1 : World} (h : Frame (p ++ x) w w1) :
    Frame p w w1 := fun q hq => h q (hq.below x)

theorem frame_storeBytes (w : World) (f : File) (b : List Nat) (c : Nat) (t : List Event) :
    Frame f.name w ⟨storeBytes w f b, c, t⟩ := by
  intro q hq
  unfold storeBytes
  cases hl : w.tree.lookup f.name with
  | none => rfl
  | some m =>
    cases m with
    | dir r es => rfl
    | file d wr =>
      simp only []
      obtain ⟨es2, hes⟩ := Node.setData_dir (writeAt d f.pos b) true w.root f.name
      simp only [World.tree] at hes ⊢
      rw [hes]
      simp only [Node.entries]
      rw [← hes]
      exact Node.lookup_setData_apart _ _ _ _ hq

theorem frame_write (env : Env) (f : File) (b : List Nat) (w : World) :
    Frame f.name w (File.write env f b w).2.2 ∧ (File.write env f b w).2.1.name = f.name := by
  unfold File.write
  cases hf : env.fault .write w.clock with
  | some e => exact ⟨frame_storeBytes w f _ _ _, rfl⟩
  | none => exact ⟨frame_storeBytes w f _ _ _, rfl⟩

theorem writeLoop_frame (env : Env) (pattern : Slice) (size : Nat) :
    ∀ (fuel written : Nat) (f : File) (w : World) (r : Option GoError) (f1 : File) (w1 : World),
      writeLoop env pattern size fuel written f w = some (r, f1, w1) → Frame f.name w w1 := by
  intro fuel
  induction fuel with
  | zero => intro written f w r f1 w1 h; simp [writeLoop] at h
  | succ fuel ih =>
    intro written f w r f1 w1 h
    rw [writeLoop] at h
    by_cases hlt : written < size
    · rw [if_pos hlt] at h
      simp only [] at h
      cases hf : env.fault .write w.clock with
      | some e =>
        rw [File.write_fail env f _ w e hf] at h
        simp only [Option.some.injEq, Prod.mk.injEq] at h
        rw [← h.2.2]
        exact frame_storeBytes w f _ _ _
      | none =>
        rw [File.write_ok env f _ w hf] at h
        simp only [] at h
        have h2 := ih _ _ _ _ _ _ h
        exact Frame.trans (frame_storeBytes w f _ _ _) h2
    · rw [if_neg hlt] at h
      simp only [Option.some.injEq, Prod.mk.injEq] at h
      rw [← h.2.2]
      exact Frame.refl _ _

theorem performPass_frame (env : Env) (f : File) (size i : Nat) (w : World)
    (r : Option GoError) (f1 : File) (w1 : World)
    (h : performPass env f size i w = some (r, f1, w1)) : Frame f.name w w1 := by
  unfold performPass File.seek at h
  cases hs : env.fault .seek (w.log (.pass i)).clock with
  | some e =>
    rw [hs] at h
    simp only [Option.some.injEq, Prod.mk.injEq] at h
    rw [← h.2.2]
    exact Frame.of_root rfl
  | none =>
    rw [hs] at h
    simp only [] at h
    obtain ⟨evs, _, hroot, _⟩ :=
      selectPattern_world env i ((w.log (.pass i)).step (.seek f.name true))
    cases hsel : selectPattern env i ((w.log (.pass i)).step (.seek f.name true)) with
    | mk res w2 =>
      rw [hsel] at h hroot
      simp only [] at hroot
      have hfr : Frame f.name w w2 := Frame.of_root hroot
      cases res with
      | error err =>
        simp only [Option.some.injEq, Prod.mk.injEq] at h
        rw [← h.2.2]
        exact hfr
      | ok pat =>
        simp only [] at h
        have h2 := writeLoop_frame env pat size _ _ _ _ _ _ _ h
        exact Frame.trans hfr h2

theorem passLoop_frame (env : Env) (size : Nat) :
    ∀ (n pass : Nat) (f : File) (w : World) (r : Option GoError) (f1 : File) (w1 : World),
      passLoop env size n pass f w = some (r, f1, w1) → Frame f.name w w1 := by
  intro n
  induction n with
  | zero =>
    intro pass f w r f1 w1 h
    simp only [passLoop, Option.some.injEq, Prod.mk.injEq] at h
    rw [← h.2.2]
    exact Frame.refl _ _
  | succ n ih =>
    intro pass f w r f1 w1 h
    rw [passLoop] at h
    cases hp : performPass env f size pass w with
    | none => rw [hp] at h; cases h
    | some res =>
      obtain ⟨r0, g1, v1⟩ := res
      rw [hp] at h
      have hfr := performPass_frame env f size pass w r0 g1 v1 hp
      have hname := performPass_name env f size pass w r0 g1 v1 hp
      cases r0 with
      | some e0 =>
        simp only [Option.some.injEq, Prod.mk.injEq] at h
        rw [← h.2.2]
        exact hfr
      | none =>
        simp only [] at h
        unfold File.sync at h
        cases hf : env.fault .sync v1.clock with
        | some e =>
          rw [hf] at h
          simp only [Option.some.injEq, Prod.mk.injEq] at h
          rw [← h.2.2]
          exact Frame.trans hfr (Frame.of_root rfl)
        | none =>
          rw [hf] at h
          simp only [] at h
          have h2 := ih _ _ _ _ _ _ h
          rw [hname] at h2
          exact Frame.trans hfr (Frame.trans (Frame.of_root rfl) h2)

theorem overwriteFile_frame (env : Env) (p : PathName) (passes : Int) (w w1 : World)
    (r : Option GoError) (h : overwriteFile env p passes w = some (r, w1)) : Frame p w w1 := by
  unfold overwriteFile osOpenFile at h
  cases hl : w.tree.lookup p with
  | none =>
    rw [hl] at h
    simp only [Option.some.injEq, Prod.mk.injEq] at h
    rw [← h.2]
    exact Frame.refl _ _
  | some m =>
    rw [hl] at h
    cases m with
    | dir rd es =>
      simp only [Option.some.injEq, Prod.mk.injEq] at h
      rw [← h.2]
      exact Frame.refl _ _
    | file d wr =>
      cases wr with
      | false =>
        simp only [Option.some.injEq, Prod.mk.injEq] at h
        rw [← h.2]
        exact Frame.refl _ _
      | true =>
        simp only [] at h
        unfold File.stat at h
        cases hf : env.fault .fstat (w.log (.opened p)).clock with
        | some e =>
          rw [hf] at h
          simp only [Option.some.injEq, Prod.mk.injEq] at h
          rw [← h.2]
          exact Frame.of_root rfl
        | none =>
          rw [hf] at h
          have htree : (w.log (.opened p)).tree = w.tree := rfl
          simp only [htree, hl] at h
          cases hpl : passLoop env d.length passes.toNat 0 ⟨p, 0⟩
              ((w.log (.opened p)).step (.fstat p true)) with
          | none => rw [hpl] at h; cases h
          | some res =>
            obtain ⟨r2, f1, w3⟩ := res
            rw [hpl] at h
            simp only [Option.some.injEq, Prod.mk.injEq] at h
            rw [← h.2]
            have h2 := passLoop_frame env d.length _ _ _ _ _ _ _ hpl
            exact Frame.trans (Frame.trans (Frame.of_root rfl) h2) (Frame.of_root rfl)

theorem osRemove_frame (env : Env) (p : PathName) (w : World) :
    Frame p w (osRemove env p w).2 := by
  unfold osRemove
  cases hf : env.fault .remove w.clock with
  | some e => exact Frame.of_root rfl
  | none =>
    simp only []
    cases p with
    | nil => exact Frame.of_root rfl
    | cons c cs =>
      cases hl : w.tree.lookup (c :: cs) with
      | none => exact Frame.of_root rfl
      | some m =>
        have hrem : Frame (c :: cs) w
            ⟨(w.tree.remove (c :: cs)).entries, w.clock + 1,
              w.trace ++ [.remove (c :: cs) true]⟩ := by
          intro q hq
          obtain ⟨es2, hes⟩ := Node.remove_dir true w.root (c :: cs)
          simp only [World.tree] at hes ⊢
          rw [hes]
          simp only [Node.entries]
          rw [← hes]
          exact Node.lookup_remove_apart _ _ _ hq
        cases m with
        | file d wr => exact hrem
        | dir r es =>
          cases es with
          | nil => exact hrem
          | cons e es2 => exact Frame.of_root rfl

/-- Every call of `wipeFile` returns, its result carries the path it was
called with, and the world differs from the one before at most at this
path. -/
theorem wipeFile_total (env : Env) (p : PathName) (o : WipeOptions) (w : World) :
    ∃ r w1, wipeFile env p o w = some (r, w1) ∧ r.Path = p ∧ Frame p w w1 := by
  cases hl : w.tree.lookup p with
  | none =>
    exact ⟨_, _, wipeFile_stat_error env p o w _ (osStat_missing w p hl), rfl, Frame.refl _ _⟩
  | some m =>
    cases m with
    | dir r es => exact ⟨_, _, wipeFile_directory env p o w r es hl, rfl, Frame.refl _ _⟩
    | file d wr =>
      by_cases hdry : o.DryRun = true
      · exact ⟨_, _, wipeFile_dry_file env p o w d wr hl hdry, rfl, Frame.refl _ _⟩
      · have hdry2 : o.DryRun = false := by simpa using hdry
        obtain ⟨r, w1, evs, hrun, _, hcase⟩ := wipeFile_run env p o w d wr hl hdry2
        refine ⟨r, w1, hrun, ?_, ?_⟩
        · rcases hcase with ⟨_, _, h, _⟩ | ⟨_, _, _, _, _, h, _⟩ | ⟨_, _, _, _, _, h, _⟩ |
            ⟨_, _, _, h, _⟩ <;> rw [h]
        · unfold wipeFile at hrun
          rw [osStat_file w p d wr hl] at hrun
          simp only [Bool.false_eq_true, if_false, hdry2] at hrun
          cases hov : overwriteFile env p o.Passes w with
          | none => rw [hov] at hrun; cases hrun
          | some res =>
            obtain ⟨r0, wo⟩ := res
            rw [hov] at hrun
            have hfo := overwriteFile_frame env p o.Passes w wo r0 hov
            cases r0 with
            | some err =>
              simp only [Option.some.injEq, Prod.mk.injEq] at hrun
              rw [← hrun.2]
              exact hfo
            | none =>
              simp only [] at hrun
              have hfr := osRemove_frame env p wo
              cases hrm : osRemove env p wo with
              | mk r3 w3 =>
                rw [hrm] at hrun hfr
                simp only [] at hfr
                cases r3 with
                | some err =>
                  simp only [Option.some.injEq, Prod.mk.injEq] at hrun
                  rw [← hrun.2]
                  exact Frame.trans hfo hfr
                | none =>
                  simp only [Option.some.injEq, Prod.mk.injEq] at hrun
                  rw [← hrun.2]
                  exact Frame.trans hfo hfr


/-! ## The batch -/

theorem wipeFilesLoop_step (env : Env) (o : WipeOptions) (p : PathName)
    (rest : List PathName) (rs : List WipeResult) (w : World) :
    wipeFilesLoop env o (p :: rest) rs w =
      if o.Recursive = true ∧ isDirectory w p = true then
        (wipeDirectory env p o w).bind fun x => wipeFilesLoop env o rest (rs ++ x.1) x.2
      else
        (wipeFile env p o w).bind fun x => wipeFilesLoop env o rest (rs ++ [x.1]) x.2 := by
  rw [wipeFilesLoop]
  unfold isDirectory
  cases osStat w p with
  | error e =>
    cases o.Recursive <;> simp <;> cases wipeFile env p o w <;> rfl
  | ok info =>
    cases o.Recursive with
    | false => simp; cases wipeFile env p o w <;> rfl
    | true =>
      by_cases hd : info.isDir = true
      · simp [hd]; cases wipeDirectory env p o w <;> rfl
      · simp [hd]; cases wipeFile env p o w <;> rfl

theorem wipeFilesLoop_concat (env : Env) (o : WipeOptions) :
    ∀ (paths : List PathName) (rs : List WipeResult) (w : World),
      wipeFilesLoop env o paths rs w
        = (concatResults env o paths w).map fun x => (rs ++ x.1, x.2) := by
  intro paths
  induction paths with
  | nil => intro rs w; simp [wipeFilesLoop, concatResults]
  | cons p rest ih =>
    intro rs w
    rw [wipeFilesLoop_step, concatResults, targetResults]
    by_cases hc : o.Recursive = true ∧ isDirectory w p = true
    · rw [if_pos hc, if_pos hc]
      cases hd : wipeDirectory env p o w with
      | none => rfl
      | some res =>
        obtain ⟨drs, w1⟩ := res
        show wipeFilesLoop env o rest (rs ++ drs) w1 = _
        rw [ih]
        cases hc2 : concatResults env o rest w1 with
        | none => simp [hc2]
        | some res2 => obtain ⟨a, b⟩ := res2; simp [hc2]
    · rw [if_neg hc, if_neg hc]
      cases hf : wipeFile env p o w with
      | none => rfl
      | some res =>
        obtain ⟨r, w1⟩ := res
        show wipeFilesLoop env o rest (rs ++ [r]) w1 = _
        rw [ih]
        cases hc2 : concatResults env o rest w1 with
        | none => simp [hc2]
        | some res2 => obtain ⟨a, b⟩ := res2; simp [hc2]

theorem WipeFiles_eq_concat (env : Env) (o : WipeOptions) (paths : List PathName) (w : World) :
    WipeFiles env paths o w = concatResults env o paths w := by
  unfold WipeFiles
  rw [wipeFilesLoop_concat]
  cases concatResults env o paths w with
  | none => rfl
  | some res => simp

theorem concatResults_files (env : Env) (o : WipeOptions) (hrec : o.Recursive = false) :
    ∀ (paths : List PathName) (w : World),
      ∃ rs w1, concatResults env o paths w = some (rs, w1) ∧ rs.map (fun r => r.Path) = paths := by
  intro paths
  induction paths with
  | nil => intro w; exact ⟨[], w, rfl, rfl⟩
  | cons p rest ih =>
    intro w
    obtain ⟨r, w1, hrun, hpath, _⟩ := wipeFile_total env p o w
    obtain ⟨rs, w2, hrest, hmap⟩ := ih w1
    refine ⟨r :: rs, w2, ?_, ?_⟩
    · rw [concatResults, targetResults, if_neg (by rw [hrec]; simp), hrun]
      simp only [Option.map_some']
      rw [hrest]
      rfl
    · simp [hpath, hmap]

/-- C15: `WipeFiles` returns the concatenation, in target order, of the results
of `wipeDirectory` for each target that is a directory when `recursive` is
set, and of the single result of `wipeFile` for every other target, each
target being processed in the world left by the targets before it
(`concatResults`).  With `recursive = false` it returns, and the paths of the
results are the targets, in order: one result per target. -/
theorem WipeFiles_concatenates (env : Env) (o : WipeOptions) (paths : List PathName)
    (w : World) :
    WipeFiles env paths o w = concatResults env o paths w ∧
      (o.Recursive = false → ∃ rs w1, WipeFiles env paths o w = some (rs, w1) ∧
        rs.map (fun r => r.Path) = paths ∧ rs.length = paths.length ∧
        ∀ i (hi : i < paths.length), (rs[i]?).map (fun r => r.Path) = some paths[i]) := by
  refine ⟨WipeFiles_eq_concat env o paths w, ?_⟩
  intro hrec
  obtain ⟨rs, w1, hrun, hmap⟩ := concatResults_files env o hrec paths w
  refine ⟨rs, w1, by rw [WipeFiles_eq_concat, hrun], hmap, ?_, ?_⟩
  · have := congrArg List.length hmap
    simpa using this
  · intro i hi
    have : (rs.map (fun r => r.Path))[i]? = paths[i]? := by rw [hmap]
    rw [List.getElem?_map] at this
    rw [this, List.getElem?_eq_getElem hi]

/-- C15, witness: a file, a missing path and a directory without
`recursive`. -/
theorem WipeFiles_concatenates_witness :
    WipeFiles calmEnv [["f"], ["x"], ["d"]] onePass smallTree
        = concatResults calmEnv onePass [["f"], ["x"], ["d"]] smallTree ∧
      ∃ rs w1, WipeFiles calmEnv [["f"], ["x"], ["d"]] onePass smallTree = some (rs, w1) ∧
        rs.map (fun r => r.Path) = [["f"], ["x"], ["d"]] ∧
        rs.length = [["f"], ["x"], ["d"]].length ∧
        ∀ i (hi : i < [["f"], ["x"], ["d"]].length),
          (rs[i]?).map (fun r => r.Path) = some ([["f"], ["x"], ["d"]][i]) :=
  ⟨(WipeFiles_concatenates calmEnv onePass [["f"], ["x"], ["d"]] smallTree).1,
    (WipeFiles_concatenates calmEnv onePass [["f"], ["x"], ["d"]] smallTree).2 rfl⟩


/-! ## Independent targets of a batch -/

theorem Node.lookup_append :
    ∀ (p q : PathName) (n : Node),
      n.lookup (p ++ q) = (n.lookup p).bind fun c => c.lookup q := by
  intro p
  induction p with
  | nil => intro q n; cases n <;> rfl
  | cons a as ih =>
    intro q n
    cases n with
    | file d wr =>
      cases q <;> rfl
    | dir r es =>
      rw [List.cons_append, Node.lookup.eq_2, Node.lookup.eq_2]
      cases hl : es.lookup a with
      | none => rfl
      | some m => exact ih q m

/-- Below a path that is missing or a regular file nothing resolves. -/
theorem lookup_below_none (t : Node) (p x : PathName) (hx : x ≠ [])
    (h : t.lookup p = none ∨ ∃ d wr, t.lookup p = some (.file d wr)) :
    t.lookup (p ++ x) = none := by
  rw [Node.lookup_append]
  rcases h with h | ⟨d, wr, h⟩
  · rw [h]; rfl
  · rw [h]
    cases x with
    | nil => exact absurd rfl hx
    | cons a as => rfl

theorem kept_refl (q : PathName) (w : World) : Kept q w w := ⟨fun _ _ h => h, fun h => h⟩

theorem kept_trans {q : PathName} {w w1 w2 : World} (h1 : Kept q w w1) (h2 : Kept q w1 w2) :
    Kept q w w2 :=
  ⟨fun d wr h => h2.1 d wr (h1.1 d wr h), fun h => h2.2 (h1.2 h)⟩

/-- One call of `wipeFile` without dry run when nothing fails: a writable
regular file is reported as success with its size and is gone, a missing path
is reported as a failure, and at every other path a file stays the file it
was and a missing path stays missing. -/
theorem wipeFile_step (env : Env) (p : PathName) (o : WipeOptions) (w : World)
    (hdry : o.DryRun = false) (hcalm : ∀ op n, env.fault op n = none) :
    ∃ r w1, wipeFile env p o w = some (r, w1) ∧ r.Path = p ∧
      (∀ d, w.tree.lookup p = some (.file d true) →
        r = ⟨p, true, none, d.length⟩ ∧ w1.tree.lookup p = none) ∧
      (w.tree.lookup p = none → r.Success = false ∧ r.Error ≠ none ∧ w1 = w) ∧
      ∀ q, q ≠ p → Kept q w w1 := by
  obtain ⟨r, w1, hrun, hpath, hframe⟩ := wipeFile_total env p o w
  -- what the path itself resolves to afterwards
  have hself : w1 = w ∨ w1.tree.lookup p = none ∨ ∃ d1 wr1, w1.tree.lookup p = some (.file d1 wr1) := by
    cases hl : w.tree.lookup p with
    | none =>
      left
      rw [wipeFile_stat_error env p o w _ (osStat_missing w p hl)] at hrun
      simp only [Option.some.injEq, Prod.mk.injEq] at hrun
      exact hrun.2.symm
    | some m =>
      cases m with
      | dir rd es =>
        left
        rw [wipeFile_directory env p o w rd es hl] at hrun
        simp only [Option.some.injEq, Prod.mk.injEq] at hrun
        exact hrun.2.symm
      | file d wr =>
        obtain ⟨r2, w2, evs, hrun2, _, hcase⟩ := wipeFile_run env p o w d wr hl hdry
        rw [hrun] at hrun2
        simp only [Option.some.injEq, Prod.mk.injEq] at hrun2
        obtain ⟨_, hw⟩ := hrun2
        subst hw
        rcases hcase with ⟨_, _, _, h⟩ | ⟨_, _, _, _, d1, _, _, _, _, _, _, _, h, _⟩ |
          ⟨_, _, _, _, d1, _, _, _, _, _, _, _, h, _⟩ | ⟨_, _, _, _, _, _, _, _, _, h⟩
        · exact Or.inl h
        · exact Or.inr (Or.inr ⟨d1, true, h⟩)
        · exact Or.inr (Or.inr ⟨d1, true, h⟩)
        · exact Or.inr (Or.inl h)
  refine ⟨r, w1, hrun, hpath, ?_, ?_, ?_⟩
  · intro d hfile
    obtain ⟨wo, hov, _⟩ := overwriteFile_trace env p o.Passes w d hfile (hcalm _) (hcalm _)
      (hcalm _) (hcalm _) (hcalm _)
    obtain ⟨r2, w2, evs, hrun2, _, h | ⟨_, err, _, _, _, _, h, _⟩ | ⟨_, n, _, wo2, _, _, _, h, _⟩ |
      ⟨_, mid, wo2, hr2, _, _, _, _, _, hgone⟩⟩ := wipeFile_run env p o w d true hfile hdry
    · exact absurd h.1 (by simp)
    · rw [hov] at h; cases h
    · rw [hcalm] at h; cases h
    · rw [hrun] at hrun2
      simp only [Option.some.injEq, Prod.mk.injEq] at hrun2
      obtain ⟨hr, hw⟩ := hrun2
      subst hr hw
      exact ⟨hr2, hgone⟩
  · intro hmiss
    rw [wipeFile_stat_error env p o w _ (osStat_missing w p hmiss)] at hrun
    simp only [Option.some.injEq, Prod.mk.injEq] at hrun
    obtain ⟨hr, hw⟩ := hrun
    subst hr hw
    exact ⟨rfl, by simp, rfl⟩
  · intro q hq
    by_cases hpq : p <+: q
    · -- the path lies below the target
      obtain ⟨x, hx⟩ := hpq
      have hxne : x ≠ [] := by
        intro h0
        subst h0
        rw [List.append_nil] at hx
        exact hq hx.symm
      subst hx
      rcases hself with h | h | ⟨d1, wr1, h⟩
      · rw [h]; exact kept_refl _ _
      · have hn := lookup_below_none w1.tree p x hxne (Or.inl h)
        exact ⟨fun d wr hf => by
          -- a file below `p` means `p` is a directory, which a wipe leaves alone
          cases hl : w.tree.lookup p with
          | none =>
            have := lookup_below_none w.tree p x hxne (Or.inl hl)
            rw [this] at hf; cases hf
          | some m =>
            cases m with
            | file d0 wr0 =>
              have := lookup_below_none w.tree p x hxne (Or.inr ⟨d0, wr0, hl⟩)
              rw [this] at hf; cases hf
            | dir rd es =>
              rw [wipeFile_directory env p o w rd es hl] at hrun
              simp only [Option.some.injEq, Prod.mk.injEq] at hrun
              rw [← hrun.2]; exact hf, fun _ => hn⟩
      · have hn := lookup_below_none w1.tree p x hxne (Or.inr ⟨d1, wr1, h⟩)
        exact ⟨fun d wr hf => by
          cases hl : w.tree.lookup p with
          | none =>
            have := lookup_below_none w.tree p x hxne (Or.inl hl)
            rw [this] at hf; cases hf
          | some m =>
            cases m with
            | file d0 wr0 =>
              have := lookup_below_none w.tree p x hxne (Or.inr ⟨d0, wr0, hl⟩)
              rw [this] at hf; cases hf
            | dir rd es =>
              rw [wipeFile_directory env p o w rd es hl] at hrun
              simp only [Option.some.injEq, Prod.mk.injEq] at hrun
              rw [← hrun.2]; exact hf, fun _ => hn⟩
    · by_cases hqp : q <+: p
      · -- the path lies above the target: if it is a file or missing, the target is missing
        obtain ⟨x, hx⟩ := hqp
        have hxne : x ≠ [] := by
          intro h0
          subst h0
          rw [List.append_nil] at hx
          exact hq hx
        subst hx
        have hsame : ∀ (h : w.tree.lookup q = none ∨ ∃ d wr, w.tree.lookup q = some (.file d wr)),
            w1 = w := by
          intro h
          have hmiss := lookup_below_none w.tree q x hxne h
          rw [wipeFile_stat_error env (q ++ x) o w _ (osStat_missing w (q ++ x) hmiss)] at hrun
          simp only [Option.some.injEq, Prod.mk.injEq] at hrun
          exact hrun.2.symm
        exact ⟨fun d wr hf => by rw [hsame (Or.inr ⟨d, wr, hf⟩)]; exact hf,
          fun hn => by rw [hsame (Or.inl hn)]; exact hn⟩
      · have := hframe q ⟨hpq, hqp⟩
        exact ⟨fun d wr hf => by rw [this]; exact hf, fun hn => by rw [this]; exact hn⟩

theorem concatResults_batch (env : Env) (o : WipeOptions) (hrec : o.Recursive = false)
    (hdry : o.DryRun = false) (hcalm : ∀ op n, env.fault op n = none) :
    ∀ (paths : List PathName) (w : World), paths.Nodup →
      ∃ rs w1, concatResults env o paths w = some (rs, w1) ∧
        rs.map (fun r => r.Path) = paths ∧
        (∀ r ∈ rs,
          (∀ d, w.tree.lookup r.Path = some (.file d true) →
            r = ⟨r.Path, true, none, d.length⟩ ∧ w1.tree.lookup r.Path = none) ∧
          (w.tree.lookup r.Path = none →
            r.Success = false ∧ r.Error ≠ none ∧ w1.tree.lookup r.Path = none)) ∧
        ∀ q, q ∉ paths → Kept q w w1 := by
  intro paths
  induction paths with
  | nil =>
    intro w _
    refine ⟨[], w, rfl, rfl, ?_, fun q _ => kept_refl q w⟩
    intro r hr
    cases hr
  | cons p rest ih =>
    intro w hnd
    have hp : p ∉ rest := (List.nodup_cons.1 hnd).1
    obtain ⟨r, wa, hrun, hpath, hfile, hmiss, hkept⟩ := wipeFile_step env p o w hdry hcalm
    obtain ⟨rs, w1, hrest, hmap, hall, hkept2⟩ := ih wa (List.nodup_cons.1 hnd).2
    refine ⟨r :: rs, w1, ?_, ?_, ?_, ?_⟩
    · rw [concatResults, targetResults, if_neg (by rw [hrec]; simp), hrun]
      simp only [Option.map_some']
      rw [hrest]
      rfl
    · simp [hpath, hmap]
    · intro x hx
      rcases List.mem_cons.1 hx with hx | hx
      · subst hx
        rw [hpath]
        constructor
        · intro d hd
          obtain ⟨h1, h2⟩ := hfile d hd
          exact ⟨h1, (hkept2 p hp).2 h2⟩
        · intro hn
          obtain ⟨h1, h2, h3⟩ := hmiss hn
          refine ⟨h1, h2, (hkept2 p hp).2 ?_⟩
          rw [h3]; exact hn
      · have hxp : x.Path ∈ rest := by
          rw [← hmap]
          exact List.mem_map_of_mem _ hx
        have hne : x.Path ≠ p := fun h => hp (h ▸ hxp)
        obtain ⟨hk1, hk2⟩ := hkept x.Path hne
        obtain ⟨ha1, ha2⟩ := hall x hx
        exact ⟨fun d hd => ha1 d (hk1 d true hd), fun hn => ha2 (hk2 hn)⟩
    · intro q hq
      have hqp : q ≠ p := fun h => hq (h ▸ List.mem_cons_self _ _)
      have hqr : q ∉ rest := fun h => hq (List.mem_cons_of_mem _ h)
      exact kept_trans (hkept q hqp) (hkept2 q hqr)

/-- C16: for a batch of pairwise distinct paths with `recursive = false` and
`dryRun = false`, when no operation fails, `WipeFiles` returns one result per
target, in target order; every target that was a writable regular file gets
the result success with its size and does not exist afterwards, and every
target that was missing gets a failure with an error, whatever the other
targets are and wherever they stand in the list. -/
theorem WipeFiles_batch (env : Env) (o : WipeOptions) (paths : List PathName) (w : World)
    (hnodup : paths.Nodup) (hrec : o.Recursive = false) (hdry : o.DryRun = false)
    (hcalm : ∀ op n, env.fault op n = none) :
    ∃ rs w1, WipeFiles env paths o w = some (rs, w1) ∧
      rs.map (fun r => r.Path) = paths ∧ rs.length = paths.length ∧
      ∀ r ∈ rs,
        (∀ d, w.tree.lookup r.Path = some (.file d true) →
          r = ⟨r.Path, true, none, d.length⟩ ∧ w1.tree.lookup r.Path = none) ∧
        (w.tree.lookup r.Path = none →
          r.Success = false ∧ r.Error ≠ none ∧ w1.tree.lookup r.Path = none) := by
  obtain ⟨rs, w1, hrun, hmap, hall, _⟩ :=
    concatResults_batch env o hrec hdry hcalm paths w hnodup
  refine ⟨rs, w1, by rw [WipeFiles_eq_concat, hrun], hmap, ?_, hall⟩
  have := congrArg List.length hmap
  simpa using this

/-- C16, witness: a valid file, a missing path and a second valid file. -/
theorem WipeFiles_batch_witness :
    ∃ rs w1, WipeFiles calmEnv [["f"], ["x"], ["d", "b"]] onePass smallTree = some (rs, w1) ∧
      rs.map (fun r => r.Path) = [["f"], ["x"], ["d", "b"]] ∧
      rs.length = [["f"], ["x"], ["d", "b"]].length ∧
      ∀ r ∈ rs,
        (∀ d, smallTree.tree.lookup r.Path = some (.file d true) →
          r = ⟨r.Path, true, none, d.length⟩ ∧ w1.tree.lookup r.Path = none) ∧
        (smallTree.tree.lookup r.Path = none →
          r.Success = false ∧ r.Error ≠ none ∧ w1.tree.lookup r.Path = none) :=
  WipeFiles_batch calmEnv onePass [["f"], ["x"], ["d", "b"]] smallTree (by decide) rfl rfl
    (fun _ _ => rfl)


/-! ## The walk of `wipeDirectory` -/

theorem insertName_perm (x : String) : ∀ l : List String, (insertName x l).Perm (x :: l) := by
  intro l
  induction l with
  | nil => exact List.Perm.refl _
  | cons y ys ih =>
    rw [insertName]
    split
    · exact List.Perm.refl _
    · exact ((List.perm_cons y).2 ih).trans (List.Perm.swap x y ys)

theorem sortNames_perm : ∀ l : List String, (sortNames l).Perm l := by
  intro l
  induction l with
  | nil => exact List.Perm.refl _
  | cons x xs ih =>
    rw [sortNames]
    exact (insertName_perm x _).trans ((List.perm_cons x).2 ih)

theorem lookup_of_mem_names (name : String) :
    ∀ es : List (String × Node), name ∈ es.map Prod.fst → ∃ c, es.lookup name = some c := by
  intro es
  induction es with
  | nil => intro h; cases h
  | cons e es ih =>
    obtain ⟨k, v⟩ := e
    intro h
    rw [List.lookup_cons]
    cases hk : (name == k) with
    | true => exact ⟨v, rfl⟩
    | false =>
      simp only [List.map_cons, List.mem_cons] at h
      rcases h with h | h
      · subst h
        simp at hk
      · exact ih h

theorem lookup_mem (k : String) (c : Node) :
    ∀ es : List (String × Node), es.lookup k = some c → (k, c) ∈ es := by
  intro es
  induction es with
  | nil => intro h; cases h
  | cons e es ih =>
    obtain ⟨a, v⟩ := e
    intro h
    rw [List.lookup_cons] at h
    cases hk : (k == a) with
    | true =>
      rw [hk] at h
      simp only [Option.some.injEq] at h
      have : k = a := by simpa using hk
      subst this h
      exact List.mem_cons_self _ _
    | false =>
      rw [hk] at h
      exact List.mem_cons_of_mem _ (ih h)

theorem uniqueNamesList_mem :
    ∀ (es : List (String × Node)) (e : String × Node),
      uniqueNamesList es = true → e ∈ es → e.2.uniqueNames = true := by
  intro es
  induction es with
  | nil => intro e _ h; cases h
  | cons x xs ih =>
    intro e hu he
    rw [uniqueNamesList, Bool.and_eq_true] at hu
    rcases List.mem_cons.1 he with h | h
    · rw [h]; exact hu.1
    · exact ih e hu.2 h

theorem heightList_mem :
    ∀ (es : List (String × Node)) (e : String × Node), e ∈ es → e.2.height ≤ heightList es := by
  intro es
  induction es with
  | nil => intro e h; cases h
  | cons x xs ih =>
    intro e he
    rw [heightList]
    rcases List.mem_cons.1 he with h | h
    · rw [h]; exact Nat.le_max_left _ _
    · exact Nat.le_trans (ih e h) (Nat.le_max_right _ _)

theorem osStat_lookup (w : World) (p : PathName) (n : Node) (h : w.tree.lookup p = some n) :
    osStat w p = .ok (infoOf n) := by
  unfold osStat
  rw [h]
  cases n <;> rfl

theorem lookup_child (t : Node) (path : PathName) (r : Bool) (es : List (String × Node))
    (name : String) (c : Node) (hdir : t.lookup path = some (.dir r es))
    (hc : es.lookup name = some c) : t.lookup (path ++ [name]) = some c := by
  rw [Node.lookup_snoc, hdir]
  change Node.lookup (.dir r es) [name] = some c
  rw [Node.lookup.eq_2, hc]
  show Node.lookup c [] = some c
  cases c <;> rfl

theorem apart_siblings (p : PathName) (a b : String) (h : a ≠ b) :
    Apart (p ++ [a]) (p ++ [b]) := by
  constructor
  · intro hp
    rw [List.prefix_append_right_inj] at hp
    obtain ⟨t, ht⟩ := hp
    simp only [List.singleton_append, List.cons.injEq] at ht
    exact h ht.1
  · intro hp
    rw [List.prefix_append_right_inj] at hp
    obtain ⟨t, ht⟩ := hp
    simp only [List.singleton_append, List.cons.injEq] at ht
    exact h ht.1.symm

theorem uniqueNamesList_lookup (es : List (String × Node)) (k : String) (c : Node)
    (hu : uniqueNamesList es = true) (hc : es.lookup k = some c) : c.uniqueNames = true :=
  uniqueNamesList_mem es (k, c) hu (lookup_mem k c es hc)

theorem sortNames_nodup (l : List String) (h : l.Nodup) : (sortNames l).Nodup :=
  (sortNames_perm l).nodup_iff.2 h

/-- The loop over the names of a directory, when the walk of every child
meets the specification. -/
theorem walkNames_spec (env : Env) (o : WipeOptions) (fuel : Nat) (path : PathName)
    (es : List (String × Node))
    (hrec : ∀ name c rs w, es.lookup name = some c → w.tree.lookup (path ++ [name]) = some c →
      ∃ rs1 w1, walk (walkFn env o) fuel (path ++ [name]) (infoOf c) rs w
          = some (none, rs ++ rs1, w1) ∧
        Frame (path ++ [name]) w w1 ∧
        List.Forall₂ (Visited env o) (visit fuel (path ++ [name]) c) rs1) :
    ∀ (names : List String) (rs : List WipeResult) (w : World), names.Nodup →
      (∀ name ∈ names, ∃ c, es.lookup name = some c ∧
        w.tree.lookup (path ++ [name]) = some c) →
      ∃ rs1 w1, walkNames (walkFn env o) (walk (walkFn env o) fuel) path names rs w
          = some (none, rs ++ rs1, w1) ∧
        Frame path w w1 ∧
        List.Forall₂ (Visited env o) (visitNames (visit fuel) path es names) rs1 := by
  intro names
  induction names with
  | nil =>
    intro rs w _ _
    exact ⟨[], w, by simp [walkNames], Frame.refl _ _, List.Forall₂.nil⟩
  | cons name rest ih =>
    intro rs w hnd hall
    obtain ⟨c, hc, hl⟩ := hall name (List.mem_cons_self _ _)
    obtain ⟨ra, wa, hwalk, hfa, hva⟩ := hrec name c rs w hc hl
    have hnd2 := List.nodup_cons.1 hnd
    obtain ⟨rb, wb, hrest, hfb, hvb⟩ := ih (rs ++ ra) wa hnd2.2 (by
      intro k hk
      obtain ⟨c2, hc2, hl2⟩ := hall k (List.mem_cons_of_mem _ hk)
      refine ⟨c2, hc2, ?_⟩
      rw [hfa (path ++ [k]) (apart_siblings path name k (by rintro rfl; exact hnd2.1 hk))]
      exact hl2)
    refine ⟨ra ++ rb, wb, ?_, (Frame.above [name] hfa).trans hfb, ?_⟩
    · rw [walkNames]
      simp only [osStat_lookup w _ c hl, hwalk]
      rw [hrest, List.append_assoc]
    · rw [visitNames, visitChild, hc]
      exact List.rel_append hva hvb

/-- The walk below a node of the tree: it returns, it reports no error, it
changes the world at most at the node and below, and it adds one result for
every visit, in the order of the visits. -/
theorem walk_spec (env : Env) (o : WipeOptions) :
    ∀ (fuel : Nat) (path : PathName) (n : Node) (rs : List WipeResult) (w : World),
      w.tree.lookup path = some n → n.uniqueNames = true → n.height < fuel →
      ∃ rs1 w1, walk (walkFn env o) fuel path (infoOf n) rs w = some (none, rs ++ rs1, w1) ∧
        Frame path w w1 ∧ List.Forall₂ (Visited env o) (visit fuel path n) rs1 := by
  intro fuel
  induction fuel with
  | zero => intro path n rs w _ _ h; cases h
  | succ fuel ih =>
    intro path n rs w hl hu hh
    cases n with
    | file d wr =>
      obtain ⟨r, w1, hrun, hpath, hframe⟩ := wipeFile_total env path o w
      refine ⟨[r], w1, ?_, hframe, ?_⟩
      · simp [walk, infoOf, walkFn, hrun]
      · rw [visit]
        exact List.Forall₂.cons ⟨hpath, w, w1, hl, hrun⟩ List.Forall₂.nil
    | dir r es =>
      cases r with
      | false =>
        refine ⟨[⟨path, false, some (.pathError "open" path 13), 0⟩], w, ?_, Frame.refl _ _, ?_⟩
        · simp [walk, infoOf, walkFn, readDirNames, hl]
        · rw [visit]
          exact List.Forall₂.cons rfl List.Forall₂.nil
      | true =>
        rw [Node.uniqueNames, Bool.and_eq_true, decide_eq_true_eq] at hu
        rw [Node.height] at hh
        have hrec : ∀ name c rs w, es.lookup name = some c →
            w.tree.lookup (path ++ [name]) = some c →
            ∃ rs1 w1, walk (walkFn env o) fuel (path ++ [name]) (infoOf c) rs w
                = some (none, rs ++ rs1, w1) ∧
              Frame (path ++ [name]) w w1 ∧
              List.Forall₂ (Visited env o) (visit fuel (path ++ [name]) c) rs1 := by
          intro name c rs2 w2 hc hl2
          have := heightList_lookup name c es hc
          exact ih (path ++ [name]) c rs2 w2 hl2 (uniqueNamesList_lookup es name c hu.2 hc)
            (by omega)
        obtain ⟨rs1, w1, hrun, hframe, hv⟩ := walkNames_spec env o fuel path es hrec
          (sortNames (es.map Prod.fst)) rs w (sortNames_nodup _ hu.1) (by
            intro name hname
            have hmem : name ∈ es.map Prod.fst := (sortNames_perm _).mem_iff.1 hname
            obtain ⟨c, hc⟩ := lookup_of_mem_names name es hmem
            exact ⟨c, hc, lookup_child w.tree path true es name c hl hc⟩)
        refine ⟨rs1, w1, ?_, hframe, ?_⟩
        · simp [walk, infoOf, walkFn, readDirNames, hl, hrun]
        · rw [visit]
          exact hv

/-- The walk that `wipeDirectory` starts at an existing path. -/
theorem Walk_spec (env : Env) (o : WipeOptions) (path : PathName) (n : Node) (w : World)
    (hl : w.tree.lookup path = some n) (hu : n.uniqueNames = true) :
    ∃ rs w1, Walk (walkFn env o) (w.tree.height + 1) path [] w = some (none, rs, w1) ∧
      Frame path w w1 ∧
      List.Forall₂ (Visited env o) (visit (w.tree.height + 1) path n) rs := by
  have hh := Node.lookup_height path w.tree n hl
  obtain ⟨rs, w1, hrun, hframe, hv⟩ :=
    walk_spec env o (w.tree.height + 1) path n [] w hl hu (by omega)
  refine ⟨rs, w1, ?_, hframe, hv⟩
  rw [Walk]
  simp only [osStat_lookup w path n hl, hrun, List.nil_append]

/-- What `wipeDirectory` does at an existing path: the results of the walk,
and then, unless it is a dry run, the removal of the tree. -/
theorem wipeDirectory_spec (env : Env) (o : WipeOptions) (path : PathName) (n : Node)
    (w : World) (hl : w.tree.lookup path = some n) (hu : n.uniqueNames = true) :
    ∃ rs w1, Frame path w w1 ∧
      List.Forall₂ (Visited env o) (visit (w.tree.height + 1) path n) rs ∧
      wipeDirectory env path o w
        = some (rs, if o.DryRun = true then w1 else (osRemoveAll env path w1).2) := by
  obtain ⟨rs, w1, hrun, hframe, hv⟩ := Walk_spec env o path n w hl hu
  refine ⟨rs, w1, hframe, hv, ?_⟩
  rw [wipeDirectory, hrun]
  cases o.DryRun <;> simp


/-! ## The visits of a walk -/

theorem mem_visitNames (rec : PathName → Node → List Visit) (path : PathName)
    (es : List (String × Node)) (v : Visit) :
    ∀ names : List String, v ∈ visitNames rec path es names ↔
      ∃ k c, k ∈ names ∧ es.lookup k = some c ∧ v ∈ rec (path ++ [k]) c := by
  intro names
  induction names with
  | nil => simp [visitNames]
  | cons name rest ih =>
    rw [visitNames, List.mem_append, ih]
    constructor
    · rintro (h | ⟨k, c, hk, hc, hv⟩)
      · unfold visitChild at h
        cases hc : es.lookup name with
        | none => rw [hc] at h; cases h
        | some c =>
          rw [hc] at h
          exact ⟨name, c, List.mem_cons_self _ _, hc, h⟩
      · exact ⟨k, c, List.mem_cons_of_mem _ hk, hc, hv⟩
    · rintro ⟨k, c, hk, hc, hv⟩
      rcases List.mem_cons.1 hk with h | h
      · left
        subst h
        unfold visitChild
        rw [hc]
        exact hv
      · exact Or.inr ⟨k, c, h, hc, hv⟩

/-- Every visit is a visit of a path that the walk gets to, and shows what is
at that path. -/
theorem visit_sound :
    ∀ (fuel : Nat) (path : PathName) (n : Node) (v : Visit), v ∈ visit fuel path n →
      ∃ x, v.path = path ++ x ∧ n.reach x = true ∧ v.Shows (n.lookup x) := by
  intro fuel
  induction fuel with
  | zero => intro path n v h; cases h
  | succ fuel ih =>
    intro path n v hv
    cases n with
    | file d wr =>
      rw [visit, List.mem_singleton] at hv
      subst hv
      exact ⟨[], (List.append_nil _).symm, rfl, rfl⟩
    | dir r es =>
      cases r with
      | false =>
        simp only [visit, Bool.false_eq_true, if_false, List.mem_singleton] at hv
        subst hv
        exact ⟨[], (List.append_nil _).symm, rfl, es, rfl⟩
      | true =>
        simp only [visit, if_true] at hv
        obtain ⟨k, c, _, hc, hvc⟩ := (mem_visitNames _ _ _ _ _).1 hv
        obtain ⟨x, hp, hr, hs⟩ := ih (path ++ [k]) c v hvc
        refine ⟨k :: x, ?_, ?_, ?_⟩
        · rw [hp, List.append_assoc]; rfl
        · rw [Node.reach, hc]; simpa using hr
        · rw [Node.lookup.eq_2, hc]; exact hs

/-- Every file and every directory that cannot be read, if the walk gets to
it, is visited. -/
theorem visit_complete :
    ∀ (fuel : Nat) (path : PathName) (n : Node) (x : PathName) (v : Visit),
      n.height < fuel → n.reach x = true → v.Shows (n.lookup x) → v.path = path ++ x →
      v ∈ visit fuel path n := by
  intro fuel
  induction fuel with
  | zero => intro path n x v h; cases h
  | succ fuel ih =>
    intro path n x v hh hr hs hp
    cases x with
    | nil =>
      rw [List.append_nil] at hp
      cases n with
      | file d wr =>
        cases v with
        | file q d2 wr2 =>
          simp only [Visit.Shows, Node.lookup, Option.some.injEq, Node.file.injEq] at hs
          simp only [Visit.path] at hp
          rw [visit, hp, hs.1, hs.2]
          exact List.mem_singleton_self _
        | denied q =>
          obtain ⟨es, hs⟩ := hs
          simp [Node.lookup] at hs
      | dir r es =>
        cases v with
        | file q d2 wr2 => simp [Visit.Shows, Node.lookup] at hs
        | denied q =>
          obtain ⟨es2, hs⟩ := hs
          simp only [Node.lookup, Option.some.injEq, Node.dir.injEq] at hs
          simp only [Visit.path] at hp
          rw [visit, hs.1, hp]
          simp
    | cons k x =>
      cases n with
      | file d wr => simp [Node.reach] at hr
      | dir r es =>
        rw [Node.reach, Bool.and_eq_true] at hr
        obtain ⟨hr1, hr2⟩ := hr
        cases hc : es.lookup k with
        | none => rw [hc] at hr2; cases hr2
        | some c =>
          rw [hc] at hr2
          rw [Node.lookup.eq_2, hc] at hs
          rw [Node.height] at hh
          have hle := heightList_lookup k c es hc
          have hvc := ih (path ++ [k]) c x v (by omega) hr2 hs
            (by rw [hp, List.append_assoc]; rfl)
          rw [visit, hr1, if_pos rfl]
          refine (mem_visitNames _ _ _ _ _).2 ⟨k, c, ?_, hc, hvc⟩
          refine (sortNames_perm _).mem_iff.2 ?_
          exact List.mem_map.2 ⟨(k, c), lookup_mem k c es hc, rfl⟩

theorem prefix_of_visit (fuel : Nat) (path : PathName) (n : Node) (v : Visit)
    (hv : v ∈ visit fuel path n) : path <+: v.path := by
  obtain ⟨x, hp, _, _⟩ := visit_sound fuel path n v hv
  exact ⟨x, hp.symm⟩

theorem visitNames_nodup (rec : PathName → Node → List Visit) (path : PathName)
    (es : List (String × Node))
    (hpre : ∀ k c v, es.lookup k = some c → v ∈ rec (path ++ [k]) c → path ++ [k] <+: v.path)
    (hrec : ∀ k c, es.lookup k = some c → ((rec (path ++ [k]) c).map Visit.path).Nodup) :
    ∀ names : List String, names.Nodup →
      ((visitNames rec path es names).map Visit.path).Nodup := by
  intro names
  induction names with
  | nil => intro _; simp [visitNames]
  | cons name rest ih =>
    intro hnd
    have hnd2 := List.nodup_cons.1 hnd
    rw [visitNames, List.map_append, List.nodup_append]
    refine ⟨?_, ih hnd2.2, ?_⟩
    · unfold visitChild
      cases hc : es.lookup name with
      | none => simp
      | some c => exact hrec name c hc
    · intro q hq1 hq2
      obtain ⟨v1, hv1, hp1⟩ := List.mem_map.1 hq1
      obtain ⟨v2, hv2, hp2⟩ := List.mem_map.1 hq2
      unfold visitChild at hv1
      cases hc : es.lookup name with
      | none => rw [hc] at hv1; cases hv1
      | some c =>
        rw [hc] at hv1
        obtain ⟨k, c2, hk, hc2, hvk⟩ := (mem_visitNames _ _ _ _ _).1 hv2
        have h1 := hpre name c v1 hc hv1
        have h2 := hpre k c2 v2 hc2 hvk
        rw [hp1] at h1
        rw [hp2] at h2
        have hkn : name ≠ k := by rintro rfl; exact hnd2.1 hk
        rcases List.prefix_or_prefix_of_prefix h1 h2 with h | h
        · exact (apart_siblings path name k hkn).1 h
        · exact (apart_siblings path name k hkn).2 h

/-- No path is visited twice. -/
theorem visit_nodup :
    ∀ (fuel : Nat) (path : PathName) (n : Node), n.uniqueNames = true →
      ((visit fuel path n).map Visit.path).Nodup := by
  intro fuel
  induction fuel with
  | zero => intro path n _; simp [visit]
  | succ fuel ih =>
    intro path n hu
    cases n with
    | file d wr => simp [visit]
    | dir r es =>
      cases r with
      | false => simp [visit]
      | true =>
        rw [Node.uniqueNames, Bool.and_eq_true, decide_eq_true_eq] at hu
        simp only [visit, if_true]
        exact visitNames_nodup (visit fuel) path es
          (fun k c v _ hv => prefix_of_visit fuel (path ++ [k]) c v hv)
          (fun k c hc => ih (path ++ [k]) c (uniqueNamesList_lookup es k c hu.2 hc))
          _ (sortNames_nodup _ hu.1)

/-! ## From the visits to the results -/

theorem Visited.path_eq {env : Env} {o : WipeOptions} {v : Visit} {r : WipeResult}
    (h : Visited env o v r) : r.Path = v.path := by
  cases v with
  | file q d wr => exact h.1
  | denied q => rw [show r = _ from h]; rfl

theorem visited_paths (env : Env) (o : WipeOptions) :
    ∀ (vs : List Visit) (rs : List WipeResult), List.Forall₂ (Visited env o) vs rs →
      rs.map WipeResult.Path = vs.map Visit.path := by
  intro vs rs h
  induction h with
  | nil => rfl
  | cons h1 _ ih => rw [List.map_cons, List.map_cons, ih, h1.path_eq]

theorem visited_of_mem (env : Env) (o : WipeOptions) :
    ∀ (vs : List Visit) (rs : List WipeResult), List.Forall₂ (Visited env o) vs rs →
      ∀ r ∈ rs, ∃ v ∈ vs, Visited env o v r := by
  intro vs rs h
  induction h with
  | nil => intro r hr; cases hr
  | cons h1 _ ih =>
    intro r hr
    rcases List.mem_cons.1 hr with h | h
    · subst h
      exact ⟨_, List.mem_cons_self _ _, h1⟩
    · obtain ⟨v, hv, hvr⟩ := ih r h
      exact ⟨v, List.mem_cons_of_mem _ hv, hvr⟩

/-- A visit whose path is visited once has exactly one result, and that
result belongs to the visit. -/
theorem result_of_visit (env : Env) (o : WipeOptions) (vs : List Visit) (rs : List WipeResult)
    (h : List.Forall₂ (Visited env o) vs rs) (hnd : (vs.map Visit.path).Nodup)
    (v : Visit) (hv : v ∈ vs) :
    rs.countP (fun r => decide (r.Path = v.path)) = 1 ∧
      ∀ r ∈ rs, r.Path = v.path → Visited env o v r := by
  constructor
  · have h1 : (rs.map WipeResult.Path).countP (fun q => decide (q = v.path)) = 1 := by
      rw [visited_paths env o vs rs h]
      exact List.count_eq_one_of_mem hnd (List.mem_map.2 ⟨v, hv, rfl⟩)
    rw [List.countP_map] at h1
    exact h1
  · intro r hr hp
    obtain ⟨v2, hv2, hvr⟩ := visited_of_mem env o vs rs h r hr
    have : v2 = v := List.inj_on_of_nodup_map hnd hv2 hv (by rw [← hvr.path_eq, hp])
    rw [← this]
    exact hvr


/-! ## The directory wipe -/

theorem wipeableList_mem :
    ∀ (es : List (String × Node)) (e : String × Node),
      wipeableList es = true → e ∈ es → e.2.wipeable = true := by
  intro es
  induction es with
  | nil => intro e _ h; cases h
  | cons x xs ih =>
    intro e hu he
    rw [wipeableList, Bool.and_eq_true] at hu
    rcases List.mem_cons.1 he with h | h
    · rw [h]; exact hu.1
    · exact ih e hu.2 h

/-- In a tree in which every directory can be read and every file can be
written, the walk gets to every path that exists. -/
theorem wipeable_lookup :
    ∀ (x : PathName) (n m : Node), n.wipeable = true → n.lookup x = some m →
      m.wipeable = true ∧ n.reach x = true := by
  intro x
  induction x with
  | nil =>
    intro n m hw hl
    simp only [Node.lookup, Option.some.injEq] at hl
    subst hl
    exact ⟨hw, by cases n <;> rfl⟩
  | cons k x ih =>
    intro n m hw hl
    cases n with
    | file d wr => simp [Node.lookup] at hl
    | dir r es =>
      rw [Node.wipeable, Bool.and_eq_true] at hw
      rw [Node.lookup.eq_2] at hl
      cases hc : es.lookup k with
      | none => rw [hc] at hl; cases hl
      | some c =>
        rw [hc] at hl
        have hcw := wipeableList_mem es (k, c) hw.2 (lookup_mem k c es hc)
        obtain ⟨h1, h2⟩ := ih c m hcw hl
        refine ⟨h1, ?_⟩
        rw [Node.reach, hc, hw.1]
        simpa using h2

theorem osRemoveAll_gone (env : Env) (p : PathName) (w : World) (hp : p ≠ [])
    (hf : env.fault .removeAll w.clock = none) :
    (osRemoveAll env p w).2.tree.lookup p = none := by
  unfold osRemoveAll
  rw [hf]
  cases p with
  | nil => exact absurd rfl hp
  | cons c cs =>
    simp only [World.tree]
    obtain ⟨es2, h2⟩ := Node.remove_dir true w.root (c :: cs)
    have h3 := Node.lookup_remove (c :: cs) (.dir true w.root) hp
    rw [h2] at h3 ⊢
    exact h3

/-- C17: in a tree in which every directory can be read and every file can be
written, `wipeDirectory` without dry run and without a failing system call
returns; for every regular file below the root there is exactly one result
with the path of the file, and it reports success and the size of the file;
every result is the result of a regular file, so no directory has one; and
afterwards the root does not exist. -/
theorem wipeDirectory_wipes_tree (env : Env) (o : WipeOptions) (dirPath : PathName) (n : Node)
    (w : World) (hroot : dirPath ≠ []) (hl : w.tree.lookup dirPath = some n)
    (hu : n.uniqueNames = true) (hw : n.wipeable = true) (hdry : o.DryRun = false)
    (hcalm : ∀ op c, env.fault op c = none) :
    ∃ rs w1, wipeDirectory env dirPath o w = some (rs, w1) ∧
      (∀ x d wr, n.lookup x = some (.file d wr) →
        rs.countP (fun r => decide (r.Path = dirPath ++ x)) = 1 ∧
        ∀ r ∈ rs, r.Path = dirPath ++ x → r = ⟨dirPath ++ x, true, none, d.length⟩) ∧
      (∀ r ∈ rs, ∃ x d wr, n.lookup x = some (.file d wr) ∧ r.Path = dirPath ++ x) ∧
      w1.tree.lookup dirPath = none := by
  obtain ⟨rs, w1, _, hv, hrun⟩ := wipeDirectory_spec env o dirPath n w hl hu
  rw [hdry] at hrun
  have hh := Node.lookup_height dirPath w.tree n hl
  refine ⟨rs, _, hrun, ?_, ?_, osRemoveAll_gone env dirPath w1 hroot (hcalm _ _)⟩
  · intro x d wr hx
    obtain ⟨hmw, hreach⟩ := wipeable_lookup x n _ hw hx
    have hwr : wr = true := hmw
    subst hwr
    have hmem := visit_complete (w.tree.height + 1) dirPath n x (.file (dirPath ++ x) d true)
      (by omega) hreach hx rfl
    obtain ⟨hcount, hres⟩ := result_of_visit env o _ rs hv
      (visit_nodup _ dirPath n hu) _ hmem
    refine ⟨hcount, ?_⟩
    intro r hr hp
    obtain ⟨_, w0, w2, hfile, hcall⟩ := hres r hr hp
    obtain ⟨r2, w3, hcall2, _, hok, _⟩ := wipeFile_step env (dirPath ++ x) o w0 hdry hcalm
    rw [hcall] at hcall2
    simp only [Option.some.injEq, Prod.mk.injEq] at hcall2
    rw [hcall2.1]
    exact (hok d hfile).1
  · intro r hr
    obtain ⟨v, hvmem, hvr⟩ := visited_of_mem env o _ rs hv r hr
    obtain ⟨x, hp, _, hs⟩ := visit_sound _ dirPath n v hvmem
    cases v with
    | file q d wr => exact ⟨x, d, wr, hs, by rw [hvr.path_eq]; exact hp⟩
    | denied q =>
      obtain ⟨es, hs⟩ := hs
      have := (wipeable_lookup x n _ hw hs).1
      simp [Node.wipeable] at this

theorem wipeDirectory_wipes_tree_witness :
    ∃ n, ["t"] ≠ [] ∧ nestedTree.tree.lookup ["t"] = some n ∧ n.uniqueNames = true ∧
      n.wipeable = true ∧ n.lookup ["sub", "c.txt"] = some (.file [1] true) ∧
      ∃ rs w1, wipeDirectory calmEnv ["t"] onePass nestedTree = some (rs, w1) ∧
        (∀ x d wr, n.lookup x = some (.file d wr) →
          rs.countP (fun r => decide (r.Path = ["t"] ++ x)) = 1 ∧
          ∀ r ∈ rs, r.Path = ["t"] ++ x → r = ⟨["t"] ++ x, true, none, d.length⟩) ∧
        (∀ r ∈ rs, ∃ x d wr, n.lookup x = some (.file d wr) ∧ r.Path = ["t"] ++ x) ∧
        w1.tree.lookup ["t"] = none :=
  ⟨_, by decide, rfl, by decide, by decide, rfl,
    wipeDirectory_wipes_tree calmEnv onePass ["t"] _ nestedTree (by decide) rfl (by decide)
      (by decide) rfl (fun _ _ => rfl)⟩

/-- C19: at a path that exists, `wipeDirectory` returns, whatever fails.  For
every directory that the walk gets to and cannot read there is exactly one
result with the path of that directory, and it is the failure with the error
of the read.  The walk goes on: for every regular file that the walk gets to,
that is every one outside the directories that cannot be read, there is
exactly one result with the path of the file, and it is the result of a call
of `wipeFile` on that file. -/
theorem wipeDirectory_traversal_failure (env : Env) (o : WipeOptions) (dirPath : PathName)
    (n : Node) (w : World) (hl : w.tree.lookup dirPath = some n)
    (hu : n.uniqueNames = true) :
    ∃ rs w1, wipeDirectory env dirPath o w = some (rs, w1) ∧
      (∀ x es, n.reach x = true → n.lookup x = some (.dir false es) →
        rs.countP (fun r => decide (r.Path = dirPath ++ x)) = 1 ∧
        ∀ r ∈ rs, r.Path = dirPath ++ x →
          r = ⟨dirPath ++ x, false, some (.pathError "open" (dirPath ++ x) 13), 0⟩) ∧
      (∀ x d wr, n.reach x = true → n.lookup x = some (.file d wr) →
        rs.countP (fun r => decide (r.Path = dirPath ++ x)) = 1 ∧
        ∀ r ∈ rs, r.Path = dirPath ++ x →
          ∃ w0 w2, w0.tree.lookup (dirPath ++ x) = some (.file d wr) ∧
            wipeFile env (dirPath ++ x) o w0 = some (r, w2)) := by
  obtain ⟨rs, w1, _, hv, hrun⟩ := wipeDirectory_spec env o dirPath n w hl hu
  have hh := Node.lookup_height dirPath w.tree n hl
  refine ⟨rs, _, hrun, ?_, ?_⟩
  · intro x es hreach hx
    have hmem := visit_complete (w.tree.height + 1) dirPath n x (.denied (dirPath ++ x))
      (by omega) hreach ⟨es, hx⟩ rfl
    obtain ⟨hcount, hres⟩ := result_of_visit env o _ rs hv
      (visit_nodup _ dirPath n hu) _ hmem
    exact ⟨hcount, fun r hr hp => hres r hr hp⟩
  · intro x d wr hreach hx
    have hmem := visit_complete (w.tree.height + 1) dirPath n x (.file (dirPath ++ x) d wr)
      (by omega) hreach hx rfl
    obtain ⟨hcount, hres⟩ := result_of_visit env o _ rs hv
      (visit_nodup _ dirPath n hu) _ hmem
    exact ⟨hcount, fun r hr hp => (hres r hr hp).2⟩

theorem wipeDirectory_traversal_failure_witness :
    ∃ n, smallTree.tree.lookup ["d"] = some n ∧ n.uniqueNames = true ∧
      n.reach ["s"] = true ∧ n.lookup ["s"] = some (.dir false [("x", .file [9] true)]) ∧
      n.reach ["b"] = true ∧ n.lookup ["b"] = some (.file [7] true) ∧
      ∃ rs w1, wipeDirectory calmEnv ["d"] onePass smallTree = some (rs, w1) ∧
        (∀ x es, n.reach x = true → n.lookup x = some (.dir false es) →
          rs.countP (fun r => decide (r.Path = ["d"] ++ x)) = 1 ∧
          ∀ r ∈ rs, r.Path = ["d"] ++ x →
            r = ⟨["d"] ++ x, false, some (.pathError "open" (["d"] ++ x) 13), 0⟩) ∧
        (∀ x d wr, n.reach x = true → n.lookup x = some (.file d wr) →
          rs.countP (fun r => decide (r.Path = ["d"] ++ x)) = 1 ∧
          ∀ r ∈ rs, r.Path = ["d"] ++ x →
            ∃ w0 w2, w0.tree.lookup (["d"] ++ x) = some (.file d wr) ∧
              wipeFile calmEnv (["d"] ++ x) onePass w0 = some (r, w2)) :=
  ⟨_, rfl, by decide, rfl, rfl, rfl, rfl,
    wipeDirectory_traversal_failure calmEnv onePass ["d"] _ smallTree rfl (by decide)⟩

/-- C18: a directory that holds a file which cannot be opened for writing.
`wipeFile` on the file reports the failure of the open and leaves the file
where it is.  `wipeDirectory` on the directory reports the same failure for
the file and writes nothing, yet afterwards the file does not exist: the
removal of the tree is the only system call in the trace. -/
theorem wipeDirectory_removes_unwiped :
    lockedTree.tree.lookup ["d", "k"] = some (.file [4, 5] false) ∧
      wipeFile calmEnv ["d", "k"] onePass lockedTree
        = some (⟨["d", "k"], false, some (.pathError "open" ["d", "k"] 13), 0⟩, lockedTree) ∧
      ∃ w1, wipeDirectory calmEnv ["d"] onePass lockedTree
          = some ([⟨["d", "k"], false, some (.pathError "open" ["d", "k"] 13), 0⟩], w1) ∧
        w1.trace = [.removeAll ["d"] true] ∧
        w1.tree.lookup ["d", "k"] = none :=
  ⟨rfl, rfl, _, rfl, rfl, rfl⟩


/-! ## What every step of a wipe respects -/

theorem writeLoop_respects {R : World → World → Prop} (hR : Respected R) (env : Env)
    (pattern : Slice) (size : Nat) :
    ∀ (fuel written : Nat) (f : File) (w : World) (r : Option GoError) (f1 : File) (w1 : World),
      writeLoop env pattern size fuel written f w = some (r, f1, w1) → R w w1 := by
  intro fuel
  induction fuel with
  | zero => intro written f w r f1 w1 h; simp [writeLoop] at h
  | succ fuel ih =>
    intro written f w r f1 w1 h
    rw [writeLoop] at h
    by_cases hlt : written < size
    · rw [if_pos hlt] at h
      simp only [] at h
      cases hf : env.fault .write w.clock with
      | some e =>
        rw [File.write_fail env f _ w e hf] at h
        simp only [Option.some.injEq, Prod.mk.injEq] at h
        rw [← h.2.2]
        exact hR.store w f _ _ _
      | none =>
        rw [File.write_ok env f _ w hf] at h
        simp only [] at h
        have h2 := ih _ _ _ _ _ _ h
        exact hR.chain (hR.store w f _ _ _) h2
    · rw [if_neg hlt] at h
      simp only [Option.some.injEq, Prod.mk.injEq] at h
      rw [← h.2.2]
      exact hR.same _

theorem performPass_respects {R : World → World → Prop} (hR : Respected R) (env : Env) (f : File) (size i : Nat) (w : World)
    (r : Option GoError) (f1 : File) (w1 : World)
    (h : performPass env f size i w = some (r, f1, w1)) : R w w1 := by
  unfold performPass File.seek at h
  cases hs : env.fault .seek (w.log (.pass i)).clock with
  | some e =>
    rw [hs] at h
    simp only [Option.some.injEq, Prod.mk.injEq] at h
    rw [← h.2.2]
    exact hR.root rfl
  | none =>
    rw [hs] at h
    simp only [] at h
    obtain ⟨evs, _, hroot, _⟩ :=
      selectPattern_world env i ((w.log (.pass i)).step (.seek f.name true))
    cases hsel : selectPattern env i ((w.log (.pass i)).step (.seek f.name true)) with
    | mk res w2 =>
      rw [hsel] at h hroot
      simp only [] at hroot
      have hfr : R w w2 := hR.root hroot
      cases res with
      | error err =>
        simp only [Option.some.injEq, Prod.mk.injEq] at h
        rw [← h.2.2]
        exact hfr
      | ok pat =>
        simp only [] at h
        have h2 := writeLoop_respects hR env pat size _ _ _ _ _ _ _ h
        exact hR.chain hfr h2

theorem passLoop_respects {R : World → World → Prop} (hR : Respected R) (env : Env)
    (size : Nat) :
    ∀ (n pass : Nat) (f : File) (w : World) (r : Option GoError) (f1 : File) (w1 : World),
      passLoop env size n pass f w = some (r, f1, w1) → R w w1 := by
  intro n
  induction n with
  | zero =>
    intro pass f w r f1 w1 h
    simp only [passLoop, Option.some.injEq, Prod.mk.injEq] at h
    rw [← h.2.2]
    exact hR.same _
  | succ n ih =>
    intro pass f w r f1 w1 h
    rw [passLoop] at h
    cases hp : performPass env f size pass w with
    | none => rw [hp] at h; cases h
    | some res =>
      obtain ⟨r0, g1, v1⟩ := res
      rw [hp] at h
      have hfr := performPass_respects hR env f size pass w r0 g1 v1 hp
      have hname := performPass_name env f size pass w r0 g1 v1 hp
      cases r0 with
      | some e0 =>
        simp only [Option.some.injEq, Prod.mk.injEq] at h
        rw [← h.2.2]
        exact hfr
      | none =>
        simp only [] at h
        unfold File.sync at h
        cases hf : env.fault .sync v1.clock with
        | some e =>
          rw [hf] at h
          simp only [Option.some.injEq, Prod.mk.injEq] at h
          rw [← h.2.2]
          exact hR.chain hfr (hR.root rfl)
        | none =>
          rw [hf] at h
          simp only [] at h
          have h2 := ih _ _ _ _ _ _ h
          rw [hname] at h2
          refine hR.chain hfr (hR.chain ?_ h2)
          exact hR.root rfl

theorem overwriteFile_respects {R : World → World → Prop} (hR : Respected R) (env : Env) (p : PathName) (passes : Int) (w w1 : World)
    (r : Option GoError) (h : overwriteFile env p passes w = some (r, w1)) : R w w1 := by
  unfold overwriteFile osOpenFile at h
  cases hl : w.tree.lookup p with
  | none =>
    rw [hl] at h
    simp only [Option.some.injEq, Prod.mk.injEq] at h
    rw [← h.2]
    exact hR.same _
  | some m =>
    rw [hl] at h
    cases m with
    | dir rd es =>
      simp only [Option.some.injEq, Prod.mk.injEq] at h
      rw [← h.2]
      exact hR.same _
    | file d wr =>
      cases wr with
      | false =>
        simp only [Option.some.injEq, Prod.mk.injEq] at h
        rw [← h.2]
        exact hR.same _
      | true =>
        simp only [] at h
        unfold File.stat at h
        cases hf : env.fault .fstat (w.log (.opened p)).clock with
        | some e =>
          rw [hf] at h
          simp only [Option.some.injEq, Prod.mk.injEq] at h
          rw [← h.2]
          exact hR.root rfl
        | none =>
          rw [hf] at h
          have htree : (w.log (.opened p)).tree = w.tree := rfl
          simp only [htree, hl] at h
          cases hpl : passLoop env d.length passes.toNat 0 ⟨p, 0⟩
              ((w.log (.opened p)).step (.fstat p true)) with
          | none => rw [hpl] at h; cases h
          | some res =>
            obtain ⟨r2, f1, w3⟩ := res
            rw [hpl] at h
            simp only [Option.some.injEq, Prod.mk.injEq] at h
            rw [← h.2]
            have h2 := passLoop_respects hR env d.length _ _ _ _ _ _ _ hpl
            refine hR.chain (hR.chain ?_ h2) ?_ <;> exact hR.root rfl

/-- Every call of `wipeFile` returns, and the world after it is related to
the world before it by every relation that the steps of a wipe respect. -/
theorem wipeFile_respects {R : World → World → Prop} (hR : Respected R) (env : Env)
    (p : PathName) (o : WipeOptions) (w : World) :
    ∃ r w1, wipeFile env p o w = some (r, w1) ∧ R w w1 := by
  cases hl : w.tree.lookup p with
  | none =>
    exact ⟨_, _, wipeFile_stat_error env p o w _ (osStat_missing w p hl), hR.same _⟩
  | some m =>
    cases m with
    | dir r es => exact ⟨_, _, wipeFile_directory env p o w r es hl, hR.same _⟩
    | file d wr =>
      by_cases hdry : o.DryRun = true
      · exact ⟨_, _, wipeFile_dry_file env p o w d wr hl hdry, hR.same _⟩
      · have hdry2 : o.DryRun = false := by simpa using hdry
        obtain ⟨r, w1, evs, hrun, _, _⟩ := wipeFile_run env p o w d wr hl hdry2
        refine ⟨r, w1, hrun, ?_⟩
        unfold wipeFile at hrun
        rw [osStat_file w p d wr hl] at hrun
        simp only [Bool.false_eq_true, if_false, hdry2] at hrun
        cases hov : overwriteFile env p o.Passes w with
        | none => rw [hov] at hrun; cases hrun
        | some res =>
          obtain ⟨r0, wo⟩ := res
          rw [hov] at hrun
          have hfo := overwriteFile_respects hR env p o.Passes w wo r0 hov
          cases r0 with
          | some err =>
            simp only [Option.some.injEq, Prod.mk.injEq] at hrun
            rw [← hrun.2]
            exact hfo
          | none =>
            simp only [] at hrun
            have hfile2 : ∃ d1, wo.tree.lookup p = some (.file d1 true) := by
              cases wr with
              | false =>
                unfold overwriteFile osOpenFile at hov
                rw [hl] at hov
                simp at hov
              | true =>
                obtain ⟨r2, w2, hov2, ⟨d1, hd1, _⟩, _⟩ := overwriteFile_spec env p o.Passes w d hl
                rw [hov] at hov2
                simp only [Option.some.injEq, Prod.mk.injEq] at hov2
                rw [hov2.2]
                exact ⟨d1, hd1⟩
            obtain ⟨d1, hd1⟩ := hfile2
            have hfr := hR.unlink env p wo d1 true hd1
            cases hrm : osRemove env p wo with
            | mk r3 w3 =>
              rw [hrm] at hrun hfr
              simp only [] at hfr
              cases r3 with
              | some err =>
                simp only [Option.some.injEq, Prod.mk.injEq] at hrun
                rw [← hrun.2]
                exact hR.chain hfo hfr
              | none =>
                simp only [Option.some.injEq, Prod.mk.injEq] at hrun
                rw [← hrun.2]
                exact hR.chain hfo hfr


/-! ## Directories stay, nothing appears -/

theorem Node.lookup_nil (n : Node) : n.lookup [] = some n := by
  cases n <;> rfl

theorem Node.lookup_file_cons (d : List Nat) (wr : Bool) (k : String) (qs : PathName) :
    Node.lookup (.file d wr) (k :: qs) = none := rfl

theorem shrinks_same (n : Node) : n.Shrinks n :=
  ⟨fun _ _ es h => ⟨es, h⟩, fun _ m1 h => ⟨m1, h, Nat.le_refl _⟩⟩

theorem shrinks_chain {n n1 n2 : Node} (h1 : n.Shrinks n1) (h2 : n1.Shrinks n2) :
    n.Shrinks n2 := by
  constructor
  · intro q r es h
    obtain ⟨es1, he1⟩ := h1.1 q r es h
    exact h2.1 q r es1 he1
  · intro q m2 h
    obtain ⟨m1, hm1, hle1⟩ := h2.2 q m2 h
    obtain ⟨m, hm, hle⟩ := h1.2 q m1 hm1
    exact ⟨m, hm, Nat.le_trans hle1 hle⟩

theorem heightList_map_le (f : String × Node → String × Node) :
    ∀ es : List (String × Node), (∀ e ∈ es, (f e).2.height ≤ e.2.height) →
      heightList (es.map f) ≤ heightList es := by
  intro es
  induction es with
  | nil => intro _; exact Nat.le_refl _
  | cons e es ih =>
    intro h
    rw [List.map_cons, heightList, heightList]
    have h1 := h e (List.mem_cons_self _ _)
    have h2 := ih (fun x hx => h x (List.mem_cons_of_mem _ hx))
    omega

theorem heightList_filter_le (f : String × Node → Bool) :
    ∀ es : List (String × Node), heightList (es.filter f) ≤ heightList es := by
  intro es
  induction es with
  | nil => exact Nat.le_refl _
  | cons e es ih =>
    rw [List.filter_cons]
    split
    · rw [heightList, heightList]; omega
    · rw [heightList]; omega

/-- A change of the bytes of a file leaves every directory where it is and
brings nothing new. -/
theorem setData_shrinks (d : List Nat) :
    ∀ (p : PathName) (n : Node), n.Shrinks (n.setData d p) := by
  intro p
  induction p with
  | nil =>
    intro n
    cases n with
    | dir r es => exact shrinks_same _
    | file d0 wr =>
      constructor
      · intro q r es h
        cases q with
        | nil => simp [Node.lookup] at h
        | cons k qs => simp [Node.lookup] at h
      · intro q m1 h
        cases q with
        | nil =>
          simp only [Node.setData, Node.lookup, Option.some.injEq] at h
          subst h
          exact ⟨_, Node.lookup_nil _, Nat.le_refl _⟩
        | cons k qs => simp [Node.setData, Node.lookup] at h
  | cons c cs ih =>
    intro n
    cases n with
    | file d0 wr => exact shrinks_same _
    | dir r es =>
      rw [Node.setData.eq_4]
      constructor
      · intro q r2 es2 h
        cases q with
        | nil =>
          simp only [Node.lookup, Option.some.injEq, Node.dir.injEq] at h
          rw [← h.1]
          exact ⟨_, rfl⟩
        | cons k qs =>
          rw [Node.lookup.eq_2] at h ⊢
          by_cases hk : k = c
          · subst hk
            rw [lookup_map_upd k (fun m => Node.setData d m cs)]
            cases hl : es.lookup k with
            | none => rw [hl] at h; cases h
            | some m =>
              rw [hl] at h
              exact (ih m).1 qs r2 es2 h
          · rw [lookup_map_upd_ne c k (fun m => Node.setData d m cs) es hk]
            exact ⟨es2, h⟩
      · intro q m1 h
        cases q with
        | nil =>
          simp only [Node.lookup, Option.some.injEq] at h
          subst h
          refine ⟨_, rfl, ?_⟩
          rw [Node.height, Node.height]
          have := heightList_map_le
            (fun e => if e.1 = c then (e.1, Node.setData d e.2 cs) else e) es (by
              intro e _
              beta_reduce
              by_cases he : e.1 = c
              · rw [if_pos he]
                obtain ⟨m, hm, hle⟩ := (ih e.2).2 [] _ (Node.lookup_nil _)
                rw [Node.lookup_nil] at hm
                simp only [Option.some.injEq] at hm
                rw [← hm] at hle
                exact hle
              · rw [if_neg he])
          omega
        | cons k qs =>
          rw [Node.lookup.eq_2] at h ⊢
          by_cases hk : k = c
          · subst hk
            rw [lookup_map_upd k (fun m => Node.setData d m cs)] at h
            cases hl : es.lookup k with
            | none => rw [hl] at h; cases h
            | some m =>
              rw [hl] at h
              exact (ih m).2 qs m1 h
          · rw [lookup_map_upd_ne c k (fun m => Node.setData d m cs) es hk] at h
            exact ⟨m1, h, Nat.le_refl _⟩

/-- A removal brings nothing new. -/
theorem remove_lower :
    ∀ (p : PathName) (n : Node) (q : PathName) (m1 : Node), (n.remove p).lookup q = some m1 →
      ∃ m, n.lookup q = some m ∧ m1.height ≤ m.height := by
  intro p
  induction p with
  | nil =>
    intro n q m1 h
    have hn : n.remove [] = n := by cases n <;> rfl
    rw [hn] at h
    exact ⟨m1, h, Nat.le_refl _⟩
  | cons c cs ih =>
    intro n q m1 h
    cases n with
    | file d0 wr => exact ⟨m1, h, Nat.le_refl _⟩
    | dir r es =>
      cases cs with
      | nil =>
        rw [Node.remove.eq_3] at h
        cases q with
        | nil =>
          simp only [Node.lookup, Option.some.injEq] at h
          subst h
          refine ⟨_, rfl, ?_⟩
          rw [Node.height, Node.height]
          have := heightList_filter_le (fun e => decide (e.1 ≠ c)) es
          omega
        | cons k qs =>
          rw [Node.lookup.eq_2] at h ⊢
          by_cases hk : k = c
          · subst hk
            rw [lookup_filter_ne] at h
            cases h
          · rw [lookup_filter_other c k es hk] at h
            exact ⟨m1, h, Nat.le_refl _⟩
      | cons c2 cs2 =>
        rw [Node.remove.eq_4] at h
        cases q with
        | nil =>
          simp only [Node.lookup, Option.some.injEq] at h
          subst h
          refine ⟨_, rfl, ?_⟩
          rw [Node.height, Node.height]
          have := heightList_map_le
            (fun e => if e.1 = c then (e.1, Node.remove e.2 (c2 :: cs2)) else e) es (by
              intro e _
              beta_reduce
              by_cases he : e.1 = c
              · rw [if_pos he]
                obtain ⟨m, hm, hle⟩ := ih e.2 [] _ (Node.lookup_nil _)
                rw [Node.lookup_nil] at hm
                simp only [Option.some.injEq] at hm
                rw [← hm] at hle
                exact hle
              · rw [if_neg he])
          omega
        | cons k qs =>
          rw [Node.lookup.eq_2] at h ⊢
          by_cases hk : k = c
          · subst hk
            rw [lookup_map_upd k (fun m => Node.remove m (c2 :: cs2))] at h
            cases hl : es.lookup k with
            | none => rw [hl] at h; cases h
            | some m =>
              rw [hl] at h
              exact ih m qs m1 h
          · rw [lookup_map_upd_ne c k (fun m => Node.remove m (c2 :: cs2)) es hk] at h
            exact ⟨m1, h, Nat.le_refl _⟩

/-- The removal of a regular file leaves every directory where it is. -/
theorem remove_dirs :
    ∀ (p : PathName) (n : Node) (d : List Nat) (wr : Bool), n.lookup p = some (.file d wr) →
      ∀ q r es, n.lookup q = some (.dir r es) → ∃ es1, (n.remove p).lookup q = some (.dir r es1) := by
  intro p
  induction p with
  | nil =>
    intro n d wr _ q r es h
    have hn : n.remove [] = n := by cases n <;> rfl
    rw [hn]
    exact ⟨es, h⟩
  | cons c cs ih =>
    intro n d wr hp q r es h
    cases n with
    | file d0 wr0 => simp [Node.lookup] at hp
    | dir r0 es0 =>
      rw [Node.lookup.eq_2] at hp
      cases hl : es0.lookup c with
      | none => rw [hl] at hp; cases hp
      | some m =>
        rw [hl] at hp
        simp only [] at hp
        cases cs with
        | nil =>
          rw [Node.lookup_nil] at hp
          simp only [Option.some.injEq] at hp
          subst hp
          rw [Node.remove.eq_3]
          cases q with
          | nil =>
            simp only [Node.lookup, Option.some.injEq, Node.dir.injEq] at h
            rw [← h.1]
            exact ⟨_, rfl⟩
          | cons k qs =>
            rw [Node.lookup.eq_2] at h ⊢
            by_cases hk : k = c
            · subst hk
              rw [hl] at h
              cases qs with
              | nil => simp [Node.lookup] at h
              | cons k2 qs2 => simp [Node.lookup] at h
            · rw [lookup_filter_other c k es0 hk]
              exact ⟨es, h⟩
        | cons c2 cs2 =>
          rw [Node.remove.eq_4]
          cases q with
          | nil =>
            simp only [Node.lookup, Option.some.injEq, Node.dir.injEq] at h
            rw [← h.1]
            exact ⟨_, rfl⟩
          | cons k qs =>
            rw [Node.lookup.eq_2] at h ⊢
            by_cases hk : k = c
            · subst hk
              rw [lookup_map_upd k (fun m => Node.remove m (c2 :: cs2)), hl]
              rw [hl] at h
              exact ih m d wr hp qs r es h
            · rw [lookup_map_upd_ne c k (fun m => Node.remove m (c2 :: cs2)) es0 hk]
              exact ⟨es, h⟩

/-- The relation `Shrinks` is one that every step of a wipe respects. -/
theorem shrinks_respected : Respected Shrinks := by
  refine ⟨fun w => shrinks_same _, fun h1 h2 => shrinks_chain h1 h2, ?_, ?_, ?_⟩
  · intro w w1 h
    unfold Shrinks World.tree
    rw [h]
    exact shrinks_same _
  · intro w f b c t
    unfold Shrinks storeBytes
    cases hl : w.tree.lookup f.name with
    | none => exact shrinks_same _
    | some m =>
      cases m with
      | dir r es => exact shrinks_same _
      | file d wr =>
        simp only []
        obtain ⟨es2, hes⟩ := Node.setData_dir (writeAt d f.pos b) true w.root f.name
        have := setData_shrinks (writeAt d f.pos b) f.name w.tree
        simp only [World.tree] at hes this ⊢
        rw [hes]
        simp only [Node.entries]
        rw [← hes]
        exact this
  · intro env p w d wr hfile
    unfold Shrinks osRemove
    cases hf : env.fault .remove w.clock with
    | some e => exact shrinks_same _
    | none =>
      simp only []
      cases p with
      | nil => exact shrinks_same _
      | cons c cs =>
        rw [hfile]
        simp only []
        obtain ⟨es2, hes⟩ := Node.remove_dir true w.root (c :: cs)
        have h1 := remove_dirs (c :: cs) w.tree d wr hfile
        have h2 := remove_lower (c :: cs) w.tree
        simp only [World.tree] at hes h1 h2 ⊢
        rw [hes]
        simp only [Node.entries]
        rw [← hes]
        exact ⟨h1, h2⟩

/-- Every call of `wipeFile` returns; afterwards every directory is still a
directory and nothing is at a path where nothing was. -/
theorem wipeFile_shrinks (env : Env) (p : PathName) (o : WipeOptions) (w : World) :
    ∃ r w1, wipeFile env p o w = some (r, w1) ∧ Shrinks w w1 :=
  wipeFile_respects shrinks_respected env p o w


/-! ## Every walk returns -/

/-- The callback of `wipeDirectory` returns no error, whatever it is called
with: it adds one result when it is handed an error or an entry that is not a
directory, and nothing for a directory. -/
theorem walkFn_returns (env : Env) (o : WipeOptions) (path : PathName) (info : FileInfo)
    (err : Option GoError) (rs : List WipeResult) (w : World) :
    ∃ added w1, walkFn env o path info err rs w = some (none, rs ++ added, w1) ∧
      Shrinks w w1 ∧ (∀ r ∈ added, Produced env o r) ∧
      added.length = if err ≠ none ∨ info.isDir = false then 1 else 0 := by
  unfold walkFn
  cases err with
  | some e =>
    refine ⟨[⟨path, false, some e, 0⟩], w, rfl, shrinks_same _, ?_, by simp⟩
    intro r hr
    rw [List.mem_singleton] at hr
    exact Or.inr ⟨path, e, hr⟩
  | none =>
    simp only []
    cases hd : info.isDir with
    | true =>
      refine ⟨[], w, by simp, shrinks_same _, ?_, by simp⟩
      intro r hr
      cases hr
    | false =>
      obtain ⟨r, w1, hrun, hsh⟩ := wipeFile_shrinks env path o w
      refine ⟨[r], w1, by simp [hrun], hsh, ?_, by simp⟩
      intro x hx
      rw [List.mem_singleton] at hx
      exact Or.inl ⟨path, w, w1, by rw [hx]; exact hrun⟩

/-- The loop over the names of a directory returns without error when the
walk of every child does. -/
theorem walkNames_total (env : Env) (o : WipeOptions) (fuel : Nat) (path : PathName)
    (w0 : World) (r : Bool) (es : List (String × Node))
    (hdir : w0.tree.lookup path = some (.dir r es)) (hfuel : (Node.dir r es).height ≤ fuel)
    (hrec : ∀ p info rs w n, w.tree.lookup p = some n → n.height < fuel →
      ∃ rs1 w1, walk (walkFn env o) fuel p info rs w = some (none, rs ++ rs1, w1) ∧
        Shrinks w w1 ∧ ∀ x ∈ rs1, Produced env o x) :
    ∀ (names : List String) (rs : List WipeResult) (w : World), Shrinks w0 w →
      ∃ rs1 w1, walkNames (walkFn env o) (walk (walkFn env o) fuel) path names rs w
          = some (none, rs ++ rs1, w1) ∧
        Shrinks w0 w1 ∧ ∀ x ∈ rs1, Produced env o x := by
  intro names
  induction names with
  | nil =>
    intro rs w hw
    exact ⟨[], w, by simp [walkNames], hw, fun x hx => by cases hx⟩
  | cons name rest ih =>
    intro rs w hw
    rw [walkNames]
    cases hst : osStat w (path ++ [name]) with
    | error e =>
      simp only []
      obtain ⟨added, w1, hfn, hsh, hprod, _⟩ :=
        walkFn_returns env o (path ++ [name]) ⟨false, 0⟩ (some e) rs w
      rw [hfn]
      simp only []
      obtain ⟨rs2, w2, hrest, hsh2, hprod2⟩ := ih (rs ++ added) w1 (shrinks_chain hw hsh)
      refine ⟨added ++ rs2, w2, by rw [hrest, List.append_assoc], hsh2, ?_⟩
      intro x hx
      rcases List.mem_append.1 hx with h | h
      · exact hprod x h
      · exact hprod2 x h
    | ok fileInfo =>
      simp only []
      obtain ⟨c, hc, _⟩ := osStat_ok w (path ++ [name]) fileInfo hst
      obtain ⟨m, hm, hle⟩ := hw.2 (path ++ [name]) c hc
      have hlt := child_height w0 path name r es m hdir hm
      obtain ⟨ra, wa, hwalk, hsh, hprod⟩ :=
        hrec (path ++ [name]) fileInfo rs w c hc (by omega)
      rw [hwalk]
      simp only []
      obtain ⟨rs2, w2, hrest, hsh2, hprod2⟩ := ih (rs ++ ra) wa (shrinks_chain hw hsh)
      refine ⟨ra ++ rs2, w2, by rw [hrest, List.append_assoc], hsh2, ?_⟩
      intro x hx
      rcases List.mem_append.1 hx with h | h
      · exact hprod x h
      · exact hprod2 x h

/-- The walk below an existing path returns and reports no error, whatever
the tree holds and whatever fails: the fuel is enough when it is above the
height of what is at the path. -/
theorem walk_total (env : Env) (o : WipeOptions) :
    ∀ (fuel : Nat) (path : PathName) (info : FileInfo) (rs : List WipeResult) (w : World)
      (n : Node), w.tree.lookup path = some n → n.height < fuel →
      ∃ rs1 w1, walk (walkFn env o) fuel path info rs w = some (none, rs ++ rs1, w1) ∧
        Shrinks w w1 ∧ ∀ x ∈ rs1, Produced env o x := by
  intro fuel
  induction fuel with
  | zero => intro path info rs w n _ h; cases h
  | succ fuel ih =>
    intro path info rs w n hl hh
    rw [walk]
    cases hd : info.isDir with
    | false =>
      simp only [Bool.not_false, if_true]
      obtain ⟨added, w1, hfn, hsh, hprod, _⟩ := walkFn_returns env o path info none rs w
      exact ⟨added, w1, hfn, hsh, hprod⟩
    | true =>
      simp only [Bool.not_true, Bool.false_eq_true, if_false]
      cases hrd : readDirNames w path with
      | error e =>
        simp only []
        obtain ⟨added, w1, hfn, hsh, hprod, _⟩ := walkFn_returns env o path info (some e) rs w
        exact ⟨added, w1, hfn, hsh, hprod⟩
      | ok names =>
        simp only []
        have hfn : walkFn env o path info none rs w = some (none, rs, w) := by
          simp [walkFn, hd]
        rw [hfn]
        simp only []
        cases n with
        | file d wr =>
          unfold readDirNames at hrd
          rw [hl] at hrd
          cases hrd
        | dir r es =>
          obtain ⟨rs1, w1, hrun, hsh, hprod⟩ :=
            walkNames_total env o fuel path w r es hl (by omega) ih names rs w (shrinks_same _)
          exact ⟨rs1, w1, hrun, hsh, hprod⟩

/-- Go `filepath.Walk` with the callback of `wipeDirectory` returns and
reports no error, for every root, every tree and every failing call. -/
theorem Walk_total (env : Env) (o : WipeOptions) (root : PathName) (w : World) :
    ∃ rs w1, Walk (walkFn env o) (w.tree.height + 1) root [] w = some (none, rs, w1) ∧
      Shrinks w w1 ∧ ∀ x ∈ rs, Produced env o x := by
  rw [Walk]
  cases hst : osStat w root with
  | error e =>
    simp only []
    obtain ⟨added, w1, hfn, hsh, hprod, _⟩ := walkFn_returns env o root ⟨false, 0⟩ (some e) [] w
    rw [hfn]
    exact ⟨added, w1, by simp, hsh, hprod⟩
  | ok info =>
    simp only []
    obtain ⟨c, hc, _⟩ := osStat_ok w root info hst
    have hh := Node.lookup_height root w.tree c hc
    obtain ⟨rs1, w1, hrun, hsh, hprod⟩ := walk_total env o (w.tree.height + 1) root info [] w c hc (by omega)
    rw [hrun]
    exact ⟨rs1, w1, by simp, hsh, hprod⟩

/-- Go `wipeDirectory` returns, for every path: its results are the results
that the callback added during the walk, and the world is the one after the
walk, after the removal of the tree unless it is a dry run. -/
theorem wipeDirectory_total (env : Env) (o : WipeOptions) (dirPath : PathName) (w : World) :
    ∃ rs w1, Walk (walkFn env o) (w.tree.height + 1) dirPath [] w = some (none, rs, w1) ∧
      wipeDirectory env dirPath o w
        = some (rs, if o.DryRun = true then w1 else (osRemoveAll env dirPath w1).2) ∧
      ∀ x ∈ rs, Produced env o x := by
  obtain ⟨rs, w1, hrun, _, hprod⟩ := Walk_total env o dirPath w
  refine ⟨rs, w1, hrun, ?_, hprod⟩
  rw [wipeDirectory, hrun]
  cases o.DryRun <;> simp

theorem concatResults_total (env : Env) (o : WipeOptions) :
    ∀ (paths : List PathName) (w : World),
      ∃ rs w1, concatResults env o paths w = some (rs, w1) ∧ ∀ x ∈ rs, Produced env o x := by
  intro paths
  induction paths with
  | nil => intro w; exact ⟨[], w, rfl, fun x hx => by cases hx⟩
  | cons p rest ih =>
    intro w
    rw [concatResults, targetResults]
    by_cases hc : o.Recursive = true ∧ isDirectory w p = true
    · rw [if_pos hc]
      obtain ⟨rs, w1, _, hrun, hprod⟩ := wipeDirectory_total env o p w
      rw [hrun]
      simp only []
      obtain ⟨rs2, w2, hrest, hprod2⟩ := ih (if o.DryRun = true then w1 else (osRemoveAll env p w1).2)
      rw [hrest]
      refine ⟨rs ++ rs2, w2, rfl, ?_⟩
      intro x hx
      rcases List.mem_append.1 hx with h | h
      · exact hprod x h
      · exact hprod2 x h
    · rw [if_neg hc]
      obtain ⟨r, w1, hrun, _⟩ := wipeFile_shrinks env p o w
      rw [hrun]
      simp only [Option.map_some']
      obtain ⟨rs2, w2, hrest, hprod2⟩ := ih w1
      rw [hrest]
      refine ⟨[r] ++ rs2, w2, rfl, ?_⟩
      intro x hx
      rcases List.mem_append.1 hx with h | h
      · rw [List.mem_singleton] at h
        exact Or.inl ⟨p, w, w1, by rw [h]; exact hrun⟩
      · exact hprod2 x h

/-- Go `WipeFiles` returns, for every list of targets, every tree and every
failing call; each of its results comes from a call of `wipeFile` or from the
callback of a walk that was handed an error. -/
theorem WipeFiles_total (env : Env) (o : WipeOptions) (paths : List PathName) (w : World) :
    ∃ rs w1, WipeFiles env paths o w = some (rs, w1) ∧ ∀ x ∈ rs, Produced env o x := by
  obtain ⟨rs, w1, hrun, hprod⟩ := concatResults_total env o paths w
  exact ⟨rs, w1, by rw [WipeFiles_eq_concat, hrun], hprod⟩


/-! ## The invariants of a result -/

theorem wipeFile_sound (env : Env) (p : PathName) (o : WipeOptions) (w w1 : World)
    (r : WipeResult) (h : wipeFile env p o w = some (r, w1)) : r.Sound := by
  unfold wipeFile at h
  repeat' split at h
  all_goals first
    | (cases h; done)
    | (cases h; simp [WipeResult.Sound])

theorem produced_sound (env : Env) (o : WipeOptions) (r : WipeResult)
    (h : Produced env o r) : r.Sound := by
  rcases h with ⟨p, w0, w1, h⟩ | ⟨p, e, h⟩
  · exact wipeFile_sound env p o w0 w1 r h
  · rw [h]
    simp [WipeResult.Sound]

/-- C28: `wipeFile`, `wipeDirectory` and `WipeFiles` return, whatever the
tree holds and whatever fails, and every result they return has
`Success = true` exactly when `Error = nil`, and `Size = 0` when
`Success = false`. -/
theorem results_sound (env : Env) (o : WipeOptions) (w : World) :
    (∀ p, ∃ r w1, wipeFile env p o w = some (r, w1) ∧
      (r.Success = true ↔ r.Error = none) ∧ (r.Success = false → r.Size = 0)) ∧
    (∀ p, ∃ rs w1, wipeDirectory env p o w = some (rs, w1) ∧
      ∀ r ∈ rs, (r.Success = true ↔ r.Error = none) ∧ (r.Success = false → r.Size = 0)) ∧
    ∀ paths, ∃ rs w1, WipeFiles env paths o w = some (rs, w1) ∧
      ∀ r ∈ rs, (r.Success = true ↔ r.Error = none) ∧ (r.Success = false → r.Size = 0) := by
  refine ⟨?_, ?_, ?_⟩
  · intro p
    obtain ⟨r, w1, hrun, _⟩ := wipeFile_shrinks env p o w
    exact ⟨r, w1, hrun, wipeFile_sound env p o w w1 r hrun⟩
  · intro p
    obtain ⟨rs, w1, _, hrun, hprod⟩ := wipeDirectory_total env o p w
    exact ⟨rs, _, hrun, fun r hr => produced_sound env o r (hprod r hr)⟩
  · intro paths
    obtain ⟨rs, w1, hrun, hprod⟩ := WipeFiles_total env o paths w
    exact ⟨rs, w1, hrun, fun r hr => produced_sound env o r (hprod r hr)⟩

/-! ## The walk reports no error -/

theorem countP_isFile (vs : List Visit) :
    vs.length = vs.countP Visit.isFile + vs.countP (fun v => !v.isFile) := by
  induction vs with
  | nil => rfl
  | cons v vs ih =>
    cases v with
    | file q d wr => simp [List.countP_cons, Visit.isFile, ih]; omega
    | denied q => simp [List.countP_cons, Visit.isFile, ih]; omega

/-- C29: the callback of `wipeDirectory` returns nil whatever it is called
with, and adds one result exactly when it is handed an error or an entry
that is not a directory.  So the walk returns without error, for every path,
every tree and every failing call, and the results of `wipeDirectory` are
the results added during the walk, with no result appended after it.  At a
path that does not exist the walk adds the one result of the failed stat.
At a path that exists, in a tree where no directory holds a name twice, the
results are, one for one, those of the visits of the walk: their number is
the number of regular files visited plus the number of directories that
could not be read. -/
theorem wipeDirectory_walk_returns_nil (env : Env) (o : WipeOptions) (dirPath : PathName)
    (w : World) :
    (∀ path info err rs w0, ∃ added w1,
      walkFn env o path info err rs w0 = some (none, rs ++ added, w1) ∧
      added.length = if err ≠ none ∨ info.isDir = false then 1 else 0) ∧
    ∃ rs w1, Walk (walkFn env o) (w.tree.height + 1) dirPath [] w = some (none, rs, w1) ∧
      (wipeDirectory env dirPath o w).map Prod.fst = some rs ∧
      (w.tree.lookup dirPath = none →
        rs = [⟨dirPath, false, some (.pathError "stat" dirPath 2), 0⟩]) ∧
      ∀ n, w.tree.lookup dirPath = some n → n.uniqueNames = true →
        List.Forall₂ (Visited env o) (visit (w.tree.height + 1) dirPath n) rs ∧
        rs.length = (visit (w.tree.height + 1) dirPath n).countP Visit.isFile +
          (visit (w.tree.height + 1) dirPath n).countP (fun v => !v.isFile) := by
  constructor
  · intro path info err rs w0
    obtain ⟨added, w1, hfn, _, _, hlen⟩ := walkFn_returns env o path info err rs w0
    exact ⟨added, w1, hfn, hlen⟩
  · obtain ⟨rs, w1, hwalk, hrun, _⟩ := wipeDirectory_total env o dirPath w
    refine ⟨rs, w1, hwalk, by rw [hrun]; rfl, ?_, ?_⟩
    · intro hmiss
      rw [Walk, osStat_missing w dirPath hmiss] at hwalk
      simp only [walkFn, List.nil_append, Option.some.injEq, Prod.mk.injEq, true_and] at hwalk
      exact hwalk.1.symm
    · intro n hl hu
      obtain ⟨rs2, w2, hwalk2, _, hv⟩ := Walk_spec env o dirPath n w hl hu
      rw [hwalk] at hwalk2
      simp only [Option.some.injEq, Prod.mk.injEq, true_and] at hwalk2
      rw [← hwalk2.1] at hv
      refine ⟨hv, ?_⟩
      rw [← countP_isFile]
      exact hv.length_eq.symm

theorem wipeDirectory_walk_returns_nil_witness :
    ∃ n, smallTree.tree.lookup ["d"] = some n ∧ n.uniqueNames = true ∧
      ∃ rs w1,
        Walk (walkFn (failing .write 28) onePass) (smallTree.tree.height + 1) ["d"] []
            smallTree = some (none, rs, w1) ∧
        (wipeDirectory (failing .write 28) ["d"] onePass smallTree).map Prod.fst = some rs ∧
        List.Forall₂ (Visited (failing .write 28) onePass)
          (visit (smallTree.tree.height + 1) ["d"] n) rs ∧
        rs.length = (visit (smallTree.tree.height + 1) ["d"] n).countP Visit.isFile +
          (visit (smallTree.tree.height + 1) ["d"] n).countP (fun v => !v.isFile) := by
  obtain ⟨_, rs, w1, h1, h2, _, h4⟩ :=
    wipeDirectory_walk_returns_nil (failing .write 28) onePass ["d"] smallTree
  exact ⟨_, rfl, by decide, rs, w1, h1, h2, h4 _ rfl (by decide)⟩


/-! ## The target resolver -/

theorem filterExisting_eq (pf : Platform) (w : World) :
    ∀ (paths validPaths : List String),
      filterExisting pf w paths validPaths
        = validPaths ++ paths.filter fun p => decide (p ≠ "") && existsOnDisk pf w p := by
  intro paths
  induction paths with
  | nil => intro v; simp [filterExisting]
  | cons p rest ih =>
    intro v
    rw [filterExisting]
    by_cases hp : p = ""
    · rw [if_neg (by simpa using hp), ih, List.filter_cons_of_neg (by simp [hp])]
    · rw [if_pos hp]
      cases hst : statPath pf w p with
      | ok info =>
        simp only []
        rw [ih, List.filter_cons_of_pos (by simp [hp, existsOnDisk, hst]), List.append_assoc]
        rfl
      | error e =>
        simp only []
        rw [ih, List.filter_cons_of_neg (by simp [existsOnDisk, hst])]

theorem getSystemTempPaths_eq (pf : Platform) (w : World) :
    getSystemTempPaths pf w
      = (tempCandidates pf).filter fun p => decide (p ≠ "") && existsOnDisk pf w p := by
  unfold getSystemTempPaths tempCandidates
  rw [filterExisting_eq, List.nil_append]
  by_cases h1 : pf.GOOS = "windows"
  · rw [if_pos h1, if_pos h1]
  · rw [if_neg h1, if_neg h1]
    by_cases h2 : pf.GOOS = "darwin" ∨ pf.GOOS = "linux"
    · rw [if_pos h2, if_pos h2]
      unfold homeResolves
      cases hh : pf.userHomeDir with
      | mk home err =>
        cases err with
        | none => rfl
        | some e => simp
    · rw [if_neg h2, if_neg h2]

/-- C22: `getSystemTempPaths` returns exactly the candidate paths of the
platform that are non-empty strings and exist on disk, in the order of the
candidates and as often as they stand among them; so the list is a sublist
of the candidates, every path in it exists, and it is not empty when a
candidate exists. -/
theorem getSystemTempPaths_filters (pf : Platform) (w : World) :
    getSystemTempPaths pf w
        = (tempCandidates pf).filter (fun p => decide (p ≠ "") && existsOnDisk pf w p) ∧
      (getSystemTempPaths pf w).Sublist (tempCandidates pf) ∧
      (∀ p ∈ getSystemTempPaths pf w, p ≠ "" ∧ existsOnDisk pf w p = true) ∧
      ((∃ c ∈ tempCandidates pf, existsOnDisk pf w c = true) → getSystemTempPaths pf w ≠ []) := by
  rw [getSystemTempPaths_eq]
  refine ⟨rfl, List.filter_sublist _, ?_, ?_⟩
  · intro p hp
    have := (List.mem_filter.1 hp).2
    simpa using this
  · rintro ⟨c, hc, hex⟩ hnil
    have hne : c ≠ "" := by
      intro h0
      rw [h0] at hex
      simp [existsOnDisk, statPath] at hex
    have : c ∈ (tempCandidates pf).filter
        (fun p => decide (p ≠ "") && existsOnDisk pf w p) :=
      List.mem_filter.2 ⟨hc, by simp [hne, hex]⟩
    rw [hnil] at this
    cases this


/-- C23: `getBrowserPaths` takes the platform and the environment only, not
the file tree, and returns the whole table whatever exists: on windows
chrome with 2 paths, firefox with 1 and edge with 2; on darwin chrome with 2,
firefox with 1 and safari with 2; on every other OS chrome with 2 and firefox
with 1.  So the map is never empty, no category stands twice, every category
has at least one path, and the total number of paths is greater than 0. -/
theorem getBrowserPaths_table (pf : Platform) :
    (getBrowserPaths pf).map (fun kv => (kv.1, kv.2.length))
        = (if pf.GOOS = "windows" then [("chrome", 2), ("firefox", 1), ("edge", 2)]
          else if pf.GOOS = "darwin" then [("chrome", 2), ("firefox", 1), ("safari", 2)]
          else [("chrome", 2), ("firefox", 1)]) ∧
      getBrowserPaths pf ≠ [] ∧ ((getBrowserPaths pf).map Prod.fst).Nodup ∧
      (∀ kv ∈ getBrowserPaths pf, 1 ≤ kv.2.length) ∧
      0 < ((getBrowserPaths pf).map (fun kv => kv.2.length)).sum := by
  unfold getBrowserPaths
  by_cases h1 : pf.GOOS = "windows"
  · simp only [if_pos h1]
    refine ⟨rfl, by simp, by simp, ?_, by simp⟩
    intro kv hkv
    simp only [List.mem_cons, List.mem_singleton, List.not_mem_nil, or_false] at hkv
    rcases hkv with h | h | h <;> rw [h] <;> simp
  · simp only [if_neg h1]
    by_cases h2 : pf.GOOS = "darwin"
    · simp only [if_pos h2]
      refine ⟨rfl, by simp, by simp, ?_, by simp⟩
      intro kv hkv
      simp only [List.mem_cons, List.mem_singleton, List.not_mem_nil, or_false] at hkv
      rcases hkv with h | h | h <;> rw [h] <;> simp
    · simp only [if_neg h2]
      refine ⟨rfl, by simp, by simp, ?_, by simp⟩
      intro kv hkv
      simp only [List.mem_cons, List.mem_singleton, List.not_mem_nil, or_false] at hkv
      rcases hkv with h | h <;> rw [h] <;> simp

/-! ## Absolute paths -/

theorem joinSlash_head (seg : List Char) (rest : List (List Char)) (c : Char)
    (h : seg.head? = some c) : (joinSlash (seg :: rest)).head? = some c := by
  cases seg with
  | nil => cases h
  | cons a t =>
    cases rest with
    | nil => exact h
    | cons r rs => exact h

theorem unixClean_rooted (s : List Char) (h : s.head? = some '/') :
    (unixClean s).head? = some '/' := by
  unfold unixClean
  simp [h]

/-- On Unix, `Join` of elements of which the first is absolute is absolute. -/
theorem unixJoin_abs (a : String) (rest : List String) (h : unixIsAbs a = true) :
    unixIsAbs (unixJoin (a :: rest)) = true := by
  unfold unixIsAbs at h ⊢
  have hhead : a.data.head? = some '/' := by simpa using h
  have hne : a ≠ "" := by
    intro h0
    rw [h0] at hhead
    cases hhead
  unfold unixJoin
  rw [List.dropWhile_cons_of_neg (by simpa using hne)]
  simp only [List.map_cons]
  rw [unixClean_rooted _ (joinSlash_head _ _ _ hhead)]
  rfl

/-- C24 (as stated, refuted): on Linux, when the home directory does not
resolve, every path of `getBrowserPaths` is relative; and when `HOME` is a
relative path, `getSystemTempPaths` returns the relative path of the cache
directory below it. -/
theorem resolver_relative_cex :
    getBrowserPaths linuxNoHome
        = [("chrome", [".config/google-chrome/Default/History", ".cache/google-chrome"]),
            ("firefox", [".mozilla/firefox"])] ∧
      linuxNoHome.isAbs ".config/google-chrome/Default/History" = false ∧
      getSystemTempPaths linuxRelativeHome tempTree = ["/tmp", "u/.cache"] ∧
      linuxRelativeHome.isAbs "u/.cache" = false :=
  ⟨by decide, by decide, by decide, by decide⟩

/-- C24 (amended): on a platform where `Join` of elements of which the first
is absolute is absolute, and where `/tmp` and `/var/tmp` are absolute if the
OS is darwin or linux: if `USERPROFILE` (on windows) or the home directory (on
every other OS) is an absolute path, and on windows `TEMP` and `TMP` are each
empty or absolute and `WINDIR` is absolute, then every path in every list of
`getBrowserPaths` and every path that `getSystemTempPaths` returns is
absolute. -/
theorem resolver_absolute (pf : Platform) (w : World)
    (hjoin : ∀ a rest, pf.isAbs a = true → pf.isAbs (pf.join (a :: rest)) = true)
    (hunix : pf.GOOS = "darwin" ∨ pf.GOOS = "linux" →
      pf.isAbs "/tmp" = true ∧ pf.isAbs "/var/tmp" = true)
    (hprofile : pf.GOOS = "windows" → pf.isAbs (pf.getenv "USERPROFILE") = true)
    (hhome : pf.GOOS ≠ "windows" → pf.isAbs pf.userHomeDir.1 = true)
    (htemp : pf.GOOS = "windows" →
      (pf.getenv "TEMP" = "" ∨ pf.isAbs (pf.getenv "TEMP") = true) ∧
      (pf.getenv "TMP" = "" ∨ pf.isAbs (pf.getenv "TMP") = true) ∧
      pf.isAbs (pf.getenv "WINDIR") = true) :
    (∀ kv ∈ getBrowserPaths pf, ∀ p ∈ kv.2, pf.isAbs p = true) ∧
      ∀ p ∈ getSystemTempPaths pf w, pf.isAbs p = true := by
  constructor
  · intro kv hkv p hp
    unfold getBrowserPaths at hkv
    by_cases h1 : pf.GOOS = "windows"
    · simp only [if_pos h1, List.mem_cons, List.mem_singleton, List.not_mem_nil,
        or_false] at hkv
      have ha := hprofile h1
      rcases hkv with rfl | rfl | rfl <;>
        simp only [List.mem_cons, List.mem_singleton, List.not_mem_nil, or_false] at hp <;>
        rcases hp with rfl | rfl <;> exact hjoin _ _ ha
    · have ha := hhome h1
      simp only [if_neg h1] at hkv
      by_cases h2 : pf.GOOS = "darwin"
      · simp only [if_pos h2, List.mem_cons, List.mem_singleton, List.not_mem_nil,
          or_false] at hkv
        rcases hkv with rfl | rfl | rfl <;>
          simp only [List.mem_cons, List.mem_singleton, List.not_mem_nil, or_false] at hp <;>
          rcases hp with rfl | rfl <;> exact hjoin _ _ ha
      · simp only [if_neg h2, List.mem_cons, List.mem_singleton, List.not_mem_nil,
          or_false] at hkv
        rcases hkv with rfl | rfl <;>
          simp only [List.mem_cons, List.mem_singleton, List.not_mem_nil, or_false] at hp <;>
          rcases hp with rfl | rfl <;> exact hjoin _ _ ha
  · intro p hp
    rw [getSystemTempPaths_eq] at hp
    obtain ⟨hc, hkeep⟩ := List.mem_filter.1 hp
    have hne : p ≠ "" := by
      simp only [Bool.and_eq_true, decide_eq_true_eq] at hkeep
      exact hkeep.1
    unfold tempCandidates at hc
    by_cases h1 : pf.GOOS = "windows"
    · simp only [if_pos h1, List.mem_cons, List.mem_singleton, List.not_mem_nil,
        or_false] at hc
      obtain ⟨ht, hm, hw⟩ := htemp h1
      rcases hc with h | h | h
      · rcases ht with h0 | h0
        · exact absurd (h.trans h0) hne
        · rw [h]; exact h0
      · rcases hm with h0 | h0
        · exact absurd (h.trans h0) hne
        · rw [h]; exact h0
      · rw [h]; exact hjoin _ _ hw
    · simp only [if_neg h1] at hc
      by_cases h2 : pf.GOOS = "darwin" ∨ pf.GOOS = "linux"
      · simp only [if_pos h2, List.mem_append, List.mem_cons, List.mem_singleton,
          List.not_mem_nil, or_false] at hc
        rcases hc with (h | h) | h
        · rw [h]; exact (hunix h2).1
        · rw [h]; exact (hunix h2).2
        · by_cases h3 : homeResolves pf = true
          · simp only [if_pos h3, List.mem_singleton] at h
            rw [h]
            exact hjoin _ _ (hhome h1)
          · simp only [if_neg h3, List.not_mem_nil] at h
      · simp only [if_neg h2, List.not_mem_nil] at hc

theorem resolver_absolute_witness :
    (∀ kv ∈ getBrowserPaths linuxHome, ∀ p ∈ kv.2, linuxHome.isAbs p = true) ∧
      ∀ p ∈ getSystemTempPaths linuxHome tempTree, linuxHome.isAbs p = true :=
  resolver_absolute linuxHome tempTree (fun a rest h => unixJoin_abs a rest h)
    (fun _ => ⟨by decide, by decide⟩) (fun h => absurd h (by decide)) (fun _ => by decide)
    (fun h => absurd h (by decide))


/-! ## The two convenience entry points -/

theorem countFailed_eq :
    ∀ (rs : List WipeResult) (k : Nat),
      countFailed rs k = k + rs.countP fun r => !r.Success := by
  intro rs
  induction rs with
  | nil => intro k; rfl
  | cons r rs ih =>
    intro k
    rw [countFailed, List.countP_cons]
    cases hs : r.Success with
    | true => simp [ih]
    | false => simp [ih]; omega

theorem countFailed_zero (rs : List WipeResult) :
    countFailed rs 0 = 0 ↔ ∀ r ∈ rs, r.Success = true := by
  rw [countFailed_eq, Nat.zero_add, List.countP_eq_zero]
  constructor
  · intro h r hr
    have := h r hr
    simpa using this
  · intro h r hr
    simp [h r hr]

/-- C21: `WipeBrowserData` and `WipeSystemTemp` return, whatever the tree
holds and whatever fails.  Each returns nil exactly when every result of its
call of `WipeFiles` has `Success = true`; otherwise the error is
`failed to wipe N browser data files`, or `failed to wipe N temporary files`,
where `N` is the number of results with `Success = false`. -/
theorem aggregate_error (pf : Platform) (env : Env) (o : WipeOptions) (w : World) :
    (∃ rs w1 e, WipeFiles env (browserTargets pf) o w = some (rs, w1) ∧
      WipeBrowserData pf env o w = some (e, w1) ∧
      (e = none ↔ ∀ r ∈ rs, r.Success = true) ∧
      (e ≠ none → e = some (.errorf ("failed to wipe " ++
        toString (rs.countP fun r => !r.Success) ++ " browser data files")))) ∧
    ∃ rs w1 e, WipeFiles env (tempTargets pf w) o w = some (rs, w1) ∧
      WipeSystemTemp pf env o w = some (e, w1) ∧
      (e = none ↔ ∀ r ∈ rs, r.Success = true) ∧
      (e ≠ none → e = some (.errorf ("failed to wipe " ++
        toString (rs.countP fun r => !r.Success) ++ " temporary files"))) := by
  constructor
  · obtain ⟨rs, w1, hrun, _⟩ := WipeFiles_total env o (browserTargets pf) w
    have hz := countFailed_zero rs
    have hc := countFailed_eq rs 0
    rw [Nat.zero_add] at hc
    by_cases hpos : countFailed rs 0 > 0
    · refine ⟨rs, w1, some (.errorf ("failed to wipe " ++ toString (countFailed rs 0) ++
          " browser data files")), hrun, by rw [WipeBrowserData, hrun]; simp only [if_pos hpos], ?_, ?_⟩
      · constructor
        · intro h; cases h
        · intro h
          have := hz.2 h
          omega
      · intro _
        rw [hc]
    · refine ⟨rs, w1, none, hrun, by rw [WipeBrowserData, hrun]; simp only [if_neg hpos], ?_, ?_⟩
      · exact ⟨fun _ => hz.1 (by omega), fun _ => rfl⟩
      · intro h; exact absurd rfl h
  · obtain ⟨rs, w1, hrun, _⟩ := WipeFiles_total env o (tempTargets pf w) w
    have hz := countFailed_zero rs
    have hc := countFailed_eq rs 0
    rw [Nat.zero_add] at hc
    by_cases hpos : countFailed rs 0 > 0
    · refine ⟨rs, w1, some (.errorf ("failed to wipe " ++ toString (countFailed rs 0) ++
          " temporary files")), hrun, by rw [WipeSystemTemp, hrun]; simp only [if_pos hpos], ?_, ?_⟩
      · constructor
        · intro h; cases h
        · intro h
          have := hz.2 h
          omega
      · intro _
        rw [hc]
    · refine ⟨rs, w1, none, hrun, by rw [WipeSystemTemp, hrun]; simp only [if_neg hpos], ?_, ?_⟩
      · exact ⟨fun _ => hz.1 (by omega), fun _ => rfl⟩
      · intro h; exact absurd rfl h

/-! ## Directories in a batch without `recursive` -/

/-- A batch without `recursive`: it returns; every target that is a
directory gets the failure `is a directory`; a path apart from every target
that is a regular file resolves as before; and when every target is a
directory the world is the one before. -/
theorem concatResults_plain (env : Env) (o : WipeOptions) (hrec : o.Recursive = false) :
    ∀ (paths : List PathName) (w : World),
      ∃ rs w1, concatResults env o paths w = some (rs, w1) ∧ Shrinks w w1 ∧
        (∀ t ∈ paths, ∀ r es, w.tree.lookup t = some (.dir r es) →
          (⟨t, false, some (.errorf "is a directory, use --recursive flag"), 0⟩ : WipeResult)
            ∈ rs) ∧
        (∀ q, (∀ t ∈ paths, ∀ d wr, w.tree.lookup t = some (.file d wr) → Apart t q) →
          w1.tree.lookup q = w.tree.lookup q) ∧
        ((∀ t ∈ paths, ∃ r es, w.tree.lookup t = some (.dir r es)) → w1 = w) := by
  intro paths
  induction paths with
  | nil =>
    intro w
    refine ⟨[], w, rfl, shrinks_same _, ?_, fun _ _ => rfl, fun _ => rfl⟩
    intro t ht
    cases ht
  | cons p rest ih =>
    intro w
    obtain ⟨r, wa, hrun, hsh⟩ := wipeFile_shrinks env p o w
    obtain ⟨r2, wa2, hrun2, _, hframe⟩ := wipeFile_total env p o w
    rw [hrun] at hrun2
    simp only [Option.some.injEq, Prod.mk.injEq] at hrun2
    rw [← hrun2.2] at hframe
    obtain ⟨rs, w1, hrest, hsh2, hdirs, hfr, hall⟩ := ih wa
    have hsame : (¬ ∃ d wr, w.tree.lookup p = some (.file d wr)) → wa = w := by
      intro hno
      cases hl : w.tree.lookup p with
      | none =>
        rw [wipeFile_stat_error env p o w _ (osStat_missing w p hl)] at hrun
        simp only [Option.some.injEq, Prod.mk.injEq] at hrun
        exact hrun.2.symm
      | some m =>
        cases m with
        | file d wr => exact absurd ⟨d, wr, hl⟩ hno
        | dir r0 es0 =>
          rw [wipeFile_directory env p o w r0 es0 hl] at hrun
          simp only [Option.some.injEq, Prod.mk.injEq] at hrun
          exact hrun.2.symm
    refine ⟨r :: rs, w1, ?_, shrinks_chain hsh hsh2, ?_, ?_, ?_⟩
    · rw [concatResults, targetResults, if_neg (by rw [hrec]; simp), hrun]
      simp only [Option.map_some']
      rw [hrest]
      rfl
    · intro t ht r0 es0 hl
      rcases List.mem_cons.1 ht with h | h
      · subst h
        rw [wipeFile_directory env t o w r0 es0 hl] at hrun
        simp only [Option.some.injEq, Prod.mk.injEq] at hrun
        rw [← hrun.1]
        exact List.mem_cons_self _ _
      · obtain ⟨es1, h1⟩ := hsh.1 t r0 es0 hl
        exact List.mem_cons_of_mem _ (hdirs t h r0 es1 h1)
    · intro q hq
      have h1 : wa.tree.lookup q = w.tree.lookup q := by
        by_cases hfile : ∃ d wr, w.tree.lookup p = some (.file d wr)
        · obtain ⟨d, wr, hl⟩ := hfile
          exact hframe q (hq p (List.mem_cons_self _ _) d wr hl)
        · rw [hsame hfile]
      rw [← h1]
      apply hfr
      intro t ht d wr hl
      obtain ⟨m, hm, _⟩ := hsh.2 t _ hl
      cases m with
      | file d0 wr0 => exact hq t (List.mem_cons_of_mem _ ht) d0 wr0 hm
      | dir r0 es0 =>
        obtain ⟨es1, h2⟩ := hsh.1 t r0 es0 hm
        rw [hl] at h2
        cases h2
    · intro hd
      have hwa : wa = w := by
        apply hsame
        rintro ⟨d, wr, hl⟩
        obtain ⟨r0, es0, h0⟩ := hd p (List.mem_cons_self _ _)
        rw [hl] at h0
        cases h0
      rw [hwa] at hall
      exact hall fun t ht => hd t (List.mem_cons_of_mem _ ht)

theorem concatResults_append (env : Env) (o : WipeOptions) :
    ∀ (pre post : List PathName) (w : World),
      concatResults env o (pre ++ post) w
        = (concatResults env o pre w).bind fun x =>
            (concatResults env o post x.2).map fun y => (x.1 ++ y.1, y.2) := by
  intro pre
  induction pre with
  | nil =>
    intro post w
    rw [List.nil_append, concatResults, Option.some_bind]
    cases concatResults env o post w with
    | none => rfl
    | some y => rfl
  | cons p rest ih =>
    intro post w
    rw [List.cons_append, concatResults, concatResults]
    cases targetResults env o p w with
    | none => rfl
    | some x =>
      obtain ⟨first, wa⟩ := x
      simp only []
      rw [ih]
      cases concatResults env o rest wa with
      | none => rfl
      | some y =>
        obtain ⟨others, wb⟩ := y
        simp only [Option.some_bind]
        cases concatResults env o post wb with
        | none => rfl
        | some z => simp

/-- C27: with `recursive = false`, dry run or not, when the resolver returns
a path that is a directory: `WipeFiles` returns and holds the failure
`is a directory` for every target that is a directory, and `WipeSystemTemp`
returns the error `failed to wipe N temporary files` with `N >= 1`.  The call
of `wipeFile` that `WipeFiles` makes for the directory, after the targets
before it, returns that failure and leaves the world exactly as it found it.
In the end what is at the directory and below it is as before, unless a
regular file below it is a target of its own; and when every target is a
directory the world is the one before. -/
theorem WipeSystemTemp_directory (pf : Platform) (env : Env) (o : WipeOptions) (w : World)
    (d : String) (r : Bool) (es : List (String × Node)) (hrec : o.Recursive = false)
    (hd : d ∈ getSystemTempPaths pf w)
    (hdir : w.tree.lookup (pf.resolve d) = some (.dir r es)) :
    ∃ rs w1 n, WipeFiles env (tempTargets pf w) o w = some (rs, w1) ∧
      (∀ t ∈ tempTargets pf w, ∀ r0 es0, w.tree.lookup t = some (.dir r0 es0) →
        (⟨t, false, some (.errorf "is a directory, use --recursive flag"), 0⟩ : WipeResult)
          ∈ rs) ∧
      1 ≤ n ∧
      WipeSystemTemp pf env o w
        = some (some (.errorf ("failed to wipe " ++ toString n ++ " temporary files")), w1) ∧
      (∀ pre post, tempTargets pf w = pre ++ pf.resolve d :: post →
        ∃ rs1 wp rs2, WipeFiles env pre o w = some (rs1, wp) ∧
          wipeFile env (pf.resolve d) o wp
            = some (⟨pf.resolve d, false,
                some (.errorf "is a directory, use --recursive flag"), 0⟩, wp) ∧
          WipeFiles env post o wp = some (rs2, w1) ∧
          rs = rs1 ++ ⟨pf.resolve d, false,
            some (.errorf "is a directory, use --recursive flag"), 0⟩ :: rs2) ∧
      ((∀ t ∈ tempTargets pf w, ∀ dd wr, w.tree.lookup t = some (.file dd wr) →
          ¬ pf.resolve d <+: t) →
        w1.tree.lookup (pf.resolve d) = w.tree.lookup (pf.resolve d)) ∧
      ((∀ t ∈ tempTargets pf w, ∃ r0 es0, w.tree.lookup t = some (.dir r0 es0)) → w1 = w) := by
  obtain ⟨rs, w1, hrun, _, hdirs, hfr, hall⟩ := concatResults_plain env o hrec (tempTargets pf w) w
  have hrun2 : WipeFiles env (tempTargets pf w) o w = some (rs, w1) := by
    rw [WipeFiles_eq_concat, hrun]
  have hmem : pf.resolve d ∈ tempTargets pf w := List.mem_map.2 ⟨d, hd, rfl⟩
  have hfail := hdirs _ hmem r es hdir
  have hpos : countFailed rs 0 > 0 := by
    rw [countFailed_eq, Nat.zero_add]
    exact List.countP_pos_iff.2 ⟨_, hfail, rfl⟩
  refine ⟨rs, w1, countFailed rs 0, hrun2, hdirs, hpos, ?_, ?_, ?_, hall⟩
  · rw [WipeSystemTemp, hrun2]
    simp only [if_pos hpos]
  · intro pre post hsplit
    obtain ⟨rs1, wp, hpre, hsh, _⟩ := concatResults_plain env o hrec pre w
    obtain ⟨es1, hdp⟩ := hsh.1 _ r es hdir
    have hcall := wipeFile_directory env (pf.resolve d) o wp r es1 hdp
    obtain ⟨rs2, w2, hpost, _⟩ := concatResults_plain env o hrec post wp
    have hwhole : concatResults env o (pre ++ pf.resolve d :: post) w
        = some (rs1 ++ ⟨pf.resolve d, false,
            some (.errorf "is a directory, use --recursive flag"), 0⟩ :: rs2, w2) := by
      rw [concatResults_append, hpre, Option.some_bind, concatResults, targetResults,
        if_neg (by rw [hrec]; simp), hcall]
      simp only [Option.map_some']
      rw [hpost]
      rfl
    rw [← hsplit, hrun] at hwhole
    simp only [Option.some.injEq, Prod.mk.injEq] at hwhole
    refine ⟨rs1, wp, rs2, by rw [WipeFiles_eq_concat, hpre], hcall, ?_, hwhole.1⟩
    rw [WipeFiles_eq_concat, hpost, hwhole.2]
  · intro hbelow
    apply hfr
    intro t ht dd wr hl
    refine ⟨?_, hbelow t ht dd wr hl⟩
    rintro ⟨x, hx⟩
    cases x with
    | nil =>
      rw [List.append_nil] at hx
      rw [← hx, hl] at hdir
      cases hdir
    | cons c cs =>
      have := lookup_below_none w.tree t (c :: cs) (by simp) (Or.inr ⟨dd, wr, hl⟩)
      rw [hx, hdir] at this
      cases this

theorem WipeSystemTemp_directory_witness :
    "/tmp" ∈ getSystemTempPaths linuxHome tempTree ∧
      tempTree.tree.lookup (linuxHome.resolve "/tmp")
        = some (.dir true [("t.log", .file [1, 2] true)]) ∧
      ∃ rs w1 n, WipeFiles calmEnv (tempTargets linuxHome tempTree) onePass tempTree
          = some (rs, w1) ∧
        (∀ t ∈ tempTargets linuxHome tempTree, ∀ r0 es0,
          tempTree.tree.lookup t = some (.dir r0 es0) →
          (⟨t, false, some (.errorf "is a directory, use --recursive flag"), 0⟩ : WipeResult)
            ∈ rs) ∧
        1 ≤ n ∧
        WipeSystemTemp linuxHome calmEnv onePass tempTree
          = some (some (.errorf ("failed to wipe " ++ toString n ++ " temporary files")), w1) ∧
        (∀ pre post, tempTargets linuxHome tempTree = pre ++ linuxHome.resolve "/tmp" :: post →
          ∃ rs1 wp rs2, WipeFiles calmEnv pre onePass tempTree = some (rs1, wp) ∧
            wipeFile calmEnv (linuxHome.resolve "/tmp") onePass wp
              = some (⟨linuxHome.resolve "/tmp", false,
                  some (.errorf "is a directory, use --recursive flag"), 0⟩, wp) ∧
            WipeFiles calmEnv post onePass wp = some (rs2, w1) ∧
            rs = rs1 ++ ⟨linuxHome.resolve "/tmp", false,
              some (.errorf "is a directory, use --recursive flag"), 0⟩ :: rs2) ∧
        ((∀ t ∈ tempTargets linuxHome tempTree, ∀ dd wr,
            tempTree.tree.lookup t = some (.file dd wr) → ¬ linuxHome.resolve "/tmp" <+: t) →
          w1.tree.lookup (linuxHome.resolve "/tmp")
            = tempTree.tree.lookup (linuxHome.resolve "/tmp")) ∧
        ((∀ t ∈ tempTargets linuxHome tempTree,
            ∃ r0 es0, tempTree.tree.lookup t = some (.dir r0 es0)) → w1 = tempTree) :=
  ⟨by decide, rfl,
    WipeSystemTemp_directory linuxHome calmEnv onePass tempTree "/tmp" true
      [("t.log", .file [1, 2] true)] rfl (by decide) rfl⟩


/-! ## The commands -/

/-- C25: `Run` of the `wipe` command and of the `clean` command put the value
of `--passes` into the options as it is, whatever it is.  With `--passes 0`
the options hold `Passes = 0`, outside 1 to 35, and `WipeFiles` with these
options unlinks the three-byte file without one write and reports success. -/
theorem passes_not_validated :
    (∀ f : WipeFlags, (wipeCmdOptions f).Passes = f.passes) ∧
      (∀ f : CleanFlags, (cleanCmdOptions f).Passes = f.passes) ∧
      (wipeCmdOptions ⟨false, 0, true, false, false, false⟩).Passes = 0 ∧
      (wipeCmdOptions ⟨false, 36, true, false, false, false⟩).Passes = 36 ∧
      (cleanCmdOptions ⟨false, true, -1⟩).Passes = -1 ∧
      ∃ w1, WipeFiles calmEnv [["f"]] (wipeCmdOptions ⟨false, 0, true, false, false, false⟩)
          oneFile = some ([⟨["f"], true, none, 3⟩], w1) ∧
        w1.trace = [.opened ["f"], .fstat ["f"] true, .closed ["f"], .remove ["f"] true] ∧
        w1.tree.lookup ["f"] = none :=
  ⟨fun _ => rfl, fun _ => rfl, rfl, rfl, rfl, _, rfl, rfl, rfl⟩

/-! ## The arguments of `wipe` in the interactive shell -/

theorem handleWipeLoop_files (n : Nat) :
    ∀ (args : List String) (i : Nat) (st : WipeArgs),
      (handleWipeLoop n i args st).files
        = st.files ++ args.filter fun a => !startsWith a.data "--".data := by
  intro args
  induction args with
  | nil => intro i st; simp [handleWipeLoop]
  | cons a rest ih =>
    intro i st
    rw [handleWipeLoop, ih]
    by_cases h1 : a = "--dry-run"
    · subst h1
      rw [List.filter_cons_of_neg (by decide)]
      simp
    · by_cases h2 : a = "--force"
      · subst h2
        rw [List.filter_cons_of_neg (by decide)]
        simp
      · by_cases h3 : a = "--passes"
        · subst h3
          rw [List.filter_cons_of_neg (by decide)]
          by_cases h4 : i + 1 < n <;> simp [h4]
        · simp only [if_neg h1, if_neg h2, if_neg h3]
          cases h5 : startsWith a.data "--".data with
          | true => simp [h5]
          | false => simp [h5]

/-- C26: in `handleWipe` every argument that does not begin with `--` is
appended to the files, the token after `--passes` like any other, and the
pass count stays 3.  For `test.txt --passes 7` the shell hands the files
`test.txt` and `7` to `WipeFiles`, with 3 passes. -/
theorem handleWipe_passes_token :
    (∀ args : List String,
      (handleWipeLoop args.length 0 args ⟨[], false, false, 3⟩).files
        = args.filter fun a => !startsWith a.data "--".data) ∧
      handleWipeCall ["test.txt", "--passes", "7"]
        = some (["test.txt", "7"], ⟨false, 3, false, false⟩) ∧
      handleWipeCall ["--passes", "7"] = some (["7"], ⟨false, 3, false, false⟩) := by
  refine ⟨?_, by decide, by decide⟩
  intro args
  rw [handleWipeLoop_files]
  rfl

/-! ## The history of the interactive session -/

theorem indexHistory_some (history : List String) (i : Int) (h0 : 0 ≤ i)
    (h1 : i < history.length) : ∃ v, indexHistory history i = some v := by
  unfold indexHistory
  rw [if_pos h0]
  have : i.toNat < history.length := by omega
  exact ⟨history[i.toNat], List.getElem?_eq_getElem this⟩

/-- One `Update` from a state in which the index is within the history: no
panic, and the index is within the history afterwards. -/
theorem Update_keeps (sh : Shell) (m : Model) (msg : Msg) (h0 : 0 ≤ m.historyIndex)
    (h1 : m.historyIndex ≤ m.history.length) :
    ∃ m1 quit, Model.Update sh m msg = some (m1, quit) ∧ 0 ≤ m1.historyIndex ∧
      m1.historyIndex ≤ m1.history.length := by
  cases msg with
  | ctrlC => exact ⟨_, _, rfl, h0, h1⟩
  | esc => exact ⟨_, _, rfl, h0, h1⟩
  | sessionEnd => exact ⟨_, _, rfl, h0, h1⟩
  | key k => exact ⟨_, _, rfl, h0, h1⟩
  | other k => exact ⟨_, _, rfl, h0, h1⟩
  | enter =>
    unfold Model.Update
    simp only []
    by_cases hin : sh.trimSpace m.textInput = ""
    · rw [if_neg (by simpa using hin)]
      exact ⟨_, _, rfl, h0, h1⟩
    · rw [if_pos hin]
      by_cases hq : sh.trimSpace m.textInput = "exit" ∨ sh.trimSpace m.textInput = "quit"
      · rw [if_pos hq]
        refine ⟨_, _, rfl, ?_, ?_⟩
        · split <;> simp <;> omega
        · split <;> simp
      · rw [if_neg hq]
        refine ⟨_, _, rfl, ?_, ?_⟩
        · split <;> simp <;> omega
        · split <;> simp
  | up =>
    unfold Model.Update
    simp only []
    by_cases hc : m.history.length > 0 ∧ m.historyIndex > 0
    · rw [if_pos hc]
      obtain ⟨v, hv⟩ := indexHistory_some m.history (m.historyIndex - 1) (by omega) (by omega)
      rw [hv]
      exact ⟨_, _, rfl, by simp; omega, by simp; omega⟩
    · rw [if_neg hc]
      exact ⟨_, _, rfl, h0, h1⟩
  | down =>
    unfold Model.Update
    simp only []
    by_cases hc : m.historyIndex < (m.history.length : Int) - 1
    · rw [if_pos hc]
      obtain ⟨v, hv⟩ := indexHistory_some m.history (m.historyIndex + 1) (by omega) (by omega)
      rw [hv]
      exact ⟨_, _, rfl, by simp; omega, by simp; omega⟩
    · rw [if_neg hc]
      by_cases hc2 : m.historyIndex = (m.history.length : Int) - 1
      · rw [if_pos hc2]
        exact ⟨_, _, rfl, by simp, by simp⟩
      · rw [if_neg hc2]
        exact ⟨_, _, rfl, h0, h1⟩

theorem runSession_keeps (sh : Shell) :
    ∀ (msgs : List Msg) (m : Model), 0 ≤ m.historyIndex → m.historyIndex ≤ m.history.length →
      ∃ m1, runSession sh msgs m = some m1 ∧ 0 ≤ m1.historyIndex ∧
        m1.historyIndex ≤ m1.history.length := by
  intro msgs
  induction msgs with
  | nil => intro m h0 h1; exact ⟨m, rfl, h0, h1⟩
  | cons msg rest ih =>
    intro m h0 h1
    obtain ⟨m1, quit, hup, h2, h3⟩ := Update_keeps sh m msg h0 h1
    obtain ⟨m2, hrun, h4, h5⟩ := ih m1 h2 h3
    exact ⟨m2, by rw [runSession, hup]; exact hrun, h4, h5⟩

/-- C30: from `NewModel`, after any sequence of messages, whatever the text
input holds and whatever the commands print: no `Update` panics, so every
lookup `history[historyIndex]` on `KeyUp` and `KeyDown` is within bounds, and
in the state reached `0 <= historyIndex <= len(history)`. -/
theorem historyIndex_in_bounds (sh : Shell) (msgs : List Msg) :
    ∃ m, runSession sh msgs NewModel = some m ∧ 0 ≤ m.historyIndex ∧
      m.historyIndex ≤ m.history.length :=
  runSession_keeps sh msgs NewModel (by decide) (by decide)

end Wipeos
